import Mathlib

/-!
A shallow embedding of the sparse Merkle tree implementation
(`src/lib.rs`, `src/tree_hasher.rs`, `src/utils.rs`) and proofs about it.

Byte strings are modelled as `List Nat` (each entry intended to be a byte
value below 256).  Fallible operations are modelled with `Option`: a store
lookup that fails (the Rust code's `anyhow` error path) and a Rust panic
(out-of-bounds index) both become `none`.  The key-value stores are
association lists; `insert` overwrites as RocksDB `put` does.
-/

namespace SMTVerif

abbrev Bytes : Type := List Nat

/-! ## Bit utilities (`utils.rs`) -/

/-- Reads the `position`-th MSB-first bit: Rust
    `data[position / 8] & (1 << (7 - position % 8)) > 0`.
    Rust panics when `position / 8` is out of range; every call the claims
    exercise stays in range, and out of range we read the byte as `0`. -/
def get_msb_at (data : Bytes) (position : Nat) : Nat :=
  if Nat.testBit (data.getD (position / 8) 0) (7 - position % 8) then 1 else 0

/-- Loop body of `common_prefix`: runs `fuel` more iterations starting at bit
    index `i`, with `count` bits already matched. -/
def common_prefix_aux (v1 v2 : Bytes) (i fuel count : Nat) : Nat :=
  match fuel with
  | 0 => count
  | Nat.succ fuel =>
    if get_msb_at v1 i = get_msb_at v2 i then
      common_prefix_aux v1 v2 (i + 1) fuel (count + 1)
    else
      count

/-- Rust `common_prefix(v1, v2)`: counts matching MSB-first bits, scanning
    the first `v1.len() * 8` bit positions. -/
def common_prefix_len (v1 v2 : Bytes) : Nat :=
  common_prefix_aux v1 v2 0 (v1.length * 8) 0

/-- Rust `set_msb_at(data, position)`: `data[position / 8] |= 1 << (7 - position % 8)`.
    The index is used unconditionally, so when `position / 8 ≥ data.len()` the
    Rust code panics; that is the `none` case here. -/
def set_msb_at (data : Bytes) (position : Nat) : Option Bytes :=
  let index := position / 8
  if index < data.length then
    some (data.set index ((data.getD index 0) ||| (1 <<< (7 - position % 8))))
  else
    none

/-! ## Tree hasher (`tree_hasher.rs`) -/

structure Hasher where
  hash : Bytes → Bytes
  output_size : Nat

structure TreeHasher where
  hasher : Hasher
  zero_hash : Bytes

namespace TreeHasher

/-- `TreeHasher::new`: the zero hash is `output_size` zero bytes. -/
def new (h : Hasher) : TreeHasher :=
  { hasher := h, zero_hash := List.replicate h.output_size 0 }

def path (th : TreeHasher) (key : Bytes) : Bytes :=
  th.hasher.hash key

def digest (th : TreeHasher) (data : Bytes) : Bytes :=
  th.hasher.hash data

/-- `digest_node`: payload `0x01 ‖ left ‖ right`, digest is its hash. -/
def digest_node (th : TreeHasher) (left right : Bytes) : Bytes × Bytes :=
  let data := 1 :: (left ++ right)
  (th.hasher.hash data, data)

/-- `digest_leaf`: payload `0x00 ‖ path ‖ value`, digest is its hash. -/
def digest_leaf (th : TreeHasher) (p value : Bytes) : Bytes × Bytes :=
  let data := 0 :: (p ++ value)
  (th.hasher.hash data, data)

/-- `parse_leaf`: slices `data[1 .. 1+n]` and `data[1+n ..]`. -/
def parse_leaf (th : TreeHasher) (data : Bytes) : Bytes × Bytes :=
  ((data.drop 1).take th.hasher.output_size,
   data.drop (th.hasher.output_size + 1))

/-- `parse_node`: same slicing as `parse_leaf` (both prefixes have length 1). -/
def parse_node (th : TreeHasher) (data : Bytes) : Bytes × Bytes :=
  ((data.drop 1).take th.hasher.output_size,
   data.drop (th.hasher.output_size + 1))

/-- `is_leaf`: the first byte of the payload equals the leaf prefix `0x00`. -/
def is_leaf (_th : TreeHasher) (data : Bytes) : Bool :=
  data.take 1 = [0]

end TreeHasher

/-! ## Key-value store (the `KvStore` trait, with RocksDB semantics) -/

abbrev Store : Type := List (Bytes × Bytes)

namespace Store

/-- Lookup; `none` models the store's "record does not exist" error. -/
def get (s : Store) (k : Bytes) : Option Bytes :=
  match s with
  | [] => none
  | (k', v) :: rest => if k' = k then some v else get rest k

/-- Removal; removing an absent key is a no-op, as in RocksDB. -/
def del (s : Store) (k : Bytes) : Store :=
  match s with
  | [] => []
  | (k', v) :: rest => if k' = k then del rest k else (k', v) :: del rest k

/-- Insertion overwrites any previous record, as RocksDB `put` does. -/
def insert (s : Store) (k v : Bytes) : Store :=
  (k, v) :: del s k

end Store

/-! ## The SMT engine (`lib.rs`) -/

structure SMT where
  tree_hasher : TreeHasher
  nodes : Store
  values : Store
  root : Bytes

structure SparseMerkleProof where
  sidenodes : List Bytes
  non_membership_leaf_node : Bytes
  deriving DecidableEq

structure SparseMerkleCompactProof where
  compact_sidenodes : List Bytes
  non_membership_leaf_node : Bytes
  bitmask : Bytes
  deriving DecidableEq

namespace SMT

/-- `SparseMerkleTree::DEFAULT_VALUE`. -/
def DEFAULT_VALUE : Bytes := []

/-- `SparseMerkleTree::new`: empty stores, root is the zero hash. -/
def new (th : TreeHasher) : SMT :=
  { tree_hasher := th, nodes := [], values := [], root := th.zero_hash }

def depth (s : SMT) : Nat :=
  s.tree_hasher.hasher.output_size * 8

def placeholder (s : SMT) : Bytes :=
  s.tree_hasher.zero_hash

/-- `SparseMerkleTree::get`: `vec![0]` on a placeholder root, otherwise the
    value-store lookup at the key's path. -/
def get (s : SMT) (key : Bytes) : Option Bytes :=
  if s.root = s.placeholder then some [0]
  else s.values.get (s.tree_hasher.path key)

/-- The `for i in 0..depth` loop of `SparseMerkleTree::sidenodes`, with
    `fuel` iterations remaining, current bit index `i`, current node payload
    `node`, and the accumulated (not yet reversed) lists. -/
def sidenodes_loop (s : SMT) (p : Bytes) (i fuel : Nat) (node : Bytes)
    (sidenodes pathnodes : List Bytes) :
    Option (List Bytes × List Bytes × Bytes) :=
  match fuel with
  | 0 => some (sidenodes, pathnodes, node)
  | Nat.succ fuel =>
    let lr := s.tree_hasher.parse_node node
    -- (k_pathnode, k_sidenode): left traversal on bit 0, right traversal on 1
    let ps := if get_msb_at p i = 0 then (lr.1, lr.2) else (lr.2, lr.1)
    let sidenodes := sidenodes ++ [ps.2]
    let pathnodes := pathnodes ++ [ps.1]
    if ps.1 = s.placeholder then
      some (sidenodes, pathnodes, DEFAULT_VALUE)
    else
      match s.nodes.get ps.1 with
      | none => none
      | some node =>
        if s.tree_hasher.is_leaf node then some (sidenodes, pathnodes, node)
        else sidenodes_loop s p (i + 1) fuel node sidenodes pathnodes

/-- `SparseMerkleTree::sidenodes(root, path)`: returns
    `(sidenodes, pathnodes, leaf_payload)`, both lists deepest-first. -/
def sidenodes (s : SMT) (root p : Bytes) :
    Option (List Bytes × List Bytes × Bytes) :=
  if root = s.placeholder then
    some ([], [root], DEFAULT_VALUE)
  else
    match s.nodes.get root with
    | none => none
    | some node =>
      if s.tree_hasher.is_leaf node then
        some ([], [root], node)
      else
        (sidenodes_loop s p 0 s.depth node [] [root]).map
          (fun r => (r.1.reverse, r.2.1.reverse, r.2.2))

/-- The upward rehash loop of `_update` (`for i in 0..depth`), carrying the
    current digest and node store.  `cpl` is `common_prefix_len`,
    `leaf_offset = depth - sidenodes.len()`. -/
def update_loop (s : SMT) (p : Bytes) (cpl leaf_offset : Nat)
    (sidenodes : List Bytes) (i fuel : Nat) (curr_hash : Bytes)
    (nodes : Store) : Bytes × Store :=
  match fuel with
  | 0 => (curr_hash, nodes)
  | Nat.succ fuel =>
    let sidenode? : Option Bytes :=
      if i < leaf_offset then
        if cpl ≠ s.depth ∧ cpl > s.depth - i - 1 then some s.placeholder
        else none
      else
        some (sidenodes.getD (i - leaf_offset) [])
    match sidenode? with
    | none => update_loop s p cpl leaf_offset sidenodes (i + 1) fuel curr_hash nodes
    | some sidenode =>
      let hd :=
        if get_msb_at p (s.depth - i - 1) = 0 then
          s.tree_hasher.digest_node curr_hash sidenode
        else
          s.tree_hasher.digest_node sidenode curr_hash
      update_loop s p cpl leaf_offset sidenodes (i + 1) fuel hd.1
        (nodes.insert hd.1 hd.2)

/-- `SparseMerkleTree::_update`: returns the new node store, value store and
    root digest. -/
def update_raw (s : SMT) (p value : Bytes) (sidenodes pathnodes : List Bytes)
    (old_data : Bytes) : Store × Store × Bytes :=
  let val_hash := s.tree_hasher.digest value
  let leaf := s.tree_hasher.digest_leaf p val_hash
  let nodes := s.nodes.insert leaf.1 leaf.2
  let parsed :=
    if pathnodes.headD [] = s.placeholder then (s.depth, DEFAULT_VALUE)
    else
      let pl := s.tree_hasher.parse_leaf old_data
      (common_prefix_len pl.1 p, pl.2)
  let cpl := parsed.1
  let pathnode_value_hash := parsed.2
  if cpl ≠ s.depth then
    -- Case A: bridge the new leaf with the existing (different) leaf.
    let bridge :=
      if get_msb_at p cpl = 0 then
        s.tree_hasher.digest_node leaf.1 (pathnodes.headD [])
      else
        s.tree_hasher.digest_node (pathnodes.headD []) leaf.1
    let nodes := nodes.insert bridge.1 bridge.2
    let nodes := (pathnodes.drop 1).foldl (fun n d => n.del d) nodes
    let res := update_loop s p cpl (s.depth - sidenodes.length) sidenodes 0
      s.depth bridge.1 nodes
    (res.2, s.values.insert p value, res.1)
  else if pathnode_value_hash ≠ DEFAULT_VALUE then
    if pathnode_value_hash = val_hash then
      -- No actual update: return the existing root (the new leaf record has
      -- already been inserted into the node store).
      (nodes, s.values, s.root)
    else
      let nodes := nodes.del (pathnodes.headD [])
      let values := s.values.del p
      let nodes := (pathnodes.drop 1).foldl (fun n d => n.del d) nodes
      let res := update_loop s p cpl (s.depth - sidenodes.length) sidenodes 0
        s.depth leaf.1 nodes
      (res.2, values.insert p value, res.1)
  else
    let nodes := (pathnodes.drop 1).foldl (fun n d => n.del d) nodes
    let res := update_loop s p cpl (s.depth - sidenodes.length) sidenodes 0
      s.depth leaf.1 nodes
    (res.2, s.values.insert p value, res.1)

/-- The collapse loop of `_delete` (`for i in 0..sidenodes.len()`), carrying
    `curr_hash`, the `flag`, and the node store. -/
def del_loop (s : SMT) (p : Bytes) (sidenodes : List Bytes) (i fuel : Nat)
    (curr_hash : Bytes) (flag : Bool) (nodes : Store) :
    Option (Bytes × Store) :=
  match fuel with
  | 0 => some (curr_hash, nodes)
  | Nat.succ fuel =>
    let sn := sidenodes.getD i []
    let combine : Option (Bytes × Store) :=
      let hd :=
        if get_msb_at p (sidenodes.length - i - 1) = 0 then
          s.tree_hasher.digest_node curr_hash sn
        else
          s.tree_hasher.digest_node sn curr_hash
      del_loop s p sidenodes (i + 1) fuel hd.1 true (nodes.insert hd.1 hd.2)
    if flag = false then
      if sn ≠ s.placeholder then
        if curr_hash = s.placeholder then
          match nodes.get sn with
          | none => none
          | some nd =>
            if s.tree_hasher.is_leaf nd then
              -- sidenode is a leaf: bubble it up
              del_loop s p sidenodes (i + 1) fuel sn false nodes
            else
              combine
        else
          combine
      else
        del_loop s p sidenodes (i + 1) fuel curr_hash false nodes
    else
      combine

/-- `SparseMerkleTree::_delete`: returns the new node store, value store and
    root digest (`none` models a failed store lookup during the collapse). -/
def delete_raw (s : SMT) (p : Bytes) (sidenodes pathnodes : List Bytes) :
    Option (Store × Store × Bytes) :=
  if pathnodes.headD [] = s.placeholder then
    some (s.nodes, s.values, s.root)
  else
    let nodes := pathnodes.foldl (fun n d => n.del d) s.nodes
    match del_loop s p sidenodes 0 sidenodes.length s.placeholder false nodes with
    | none => none
    | some res => some (res.2, s.values.del p, res.1)

/-- `SparseMerkleTree::update_for_root`. -/
def update_for_root (s : SMT) (key value : Bytes) : Option SMT :=
  let p := s.tree_hasher.path key
  match s.sidenodes s.root p with
  | none => none
  | some (sn, pn, old_data) =>
    if value = DEFAULT_VALUE then
      (s.delete_raw p sn pn).map
        (fun r => { s with nodes := r.1, values := r.2.1, root := r.2.2 })
    else
      let r := s.update_raw p value sn pn old_data
      some { s with nodes := r.1, values := r.2.1, root := r.2.2 }

/-- `SparseMerkleTree::update`. -/
def update (s : SMT) (key value : Bytes) : Option SMT :=
  s.update_for_root key value

/-- `SparseMerkleTree::delete`. -/
def del (s : SMT) (key : Bytes) : Option SMT :=
  s.update_for_root key DEFAULT_VALUE

/-- `SparseMerkleTree::generate_proof`. -/
def generate_proof (s : SMT) (key root : Bytes) : Option SparseMerkleProof :=
  let p := s.tree_hasher.path key
  match s.sidenodes root p with
  | none => none
  | some (sn, pn, leaf_data) =>
    let nm :=
      if pn.headD [] ≠ s.placeholder then
        if (s.tree_hasher.parse_leaf leaf_data).1 ≠ p then pn.headD []
        else []
      else []
    some { sidenodes := sn, non_membership_leaf_node := nm }

/-- The compaction loop of `generate_compact_proof`; `none` models the Rust
    panic inside `set_msb_at`. -/
def compact_loop (s : SMT) (sns : List Bytes) (index : Nat)
    (compact : List Bytes) (bitmask : Bytes) :
    Option (List Bytes × Bytes) :=
  match sns with
  | [] => some (compact, bitmask)
  | sn :: rest =>
    if sn ≠ s.placeholder then
      compact_loop s rest (index + 1) (compact ++ [sn]) bitmask
    else
      match set_msb_at bitmask index with
      | none => none
      | some bm => compact_loop s rest (index + 1) compact bm

/-- `SparseMerkleTree::generate_compact_proof`. -/
def generate_compact_proof (s : SMT) (key root : Bytes) :
    Option SparseMerkleCompactProof :=
  match s.generate_proof key root with
  | none => none
  | some proof =>
    match compact_loop s proof.sidenodes 0 [] [] with
    | none => none
    | some r =>
      some { compact_sidenodes := r.1, bitmask := r.2,
             non_membership_leaf_node := proof.non_membership_leaf_node }

end SMT

/-! ## Derived digests used to state claims -/

/-- The digest of the leaf the tree stores for `(key, value)`:
    `H(0x00 ‖ H(key) ‖ H(value))`. -/
def leaf_digest_of (H : Hasher) (key value : Bytes) : Bytes :=
  ((TreeHasher.new H).digest_leaf (H.hash key) (H.hash value)).1

/-- The internal node bridging the two leaves for `(k1, v1)` and `(k2, v2)`
    at the first bit of divergence of their paths, ordered by the bit of
    `H(k2)` there. -/
def bridge_of (H : Hasher) (k1 v1 k2 v2 : Bytes) : Bytes :=
  let cpl := common_prefix_len (H.hash k1) (H.hash k2)
  if get_msb_at (H.hash k2) cpl = 0 then
    ((TreeHasher.new H).digest_node (leaf_digest_of H k2 v2) (leaf_digest_of H k1 v1)).1
  else
    ((TreeHasher.new H).digest_node (leaf_digest_of H k1 v1) (leaf_digest_of H k2 v2)).1

/-- Wraps a digest `c` in `f` internal nodes whose siblings are all the
    placeholder: the node at level `j` (`j < f`) takes its child order from
    bit `j` of `p`.  This is the ancestor chain `_update` materialises above
    the bridge node. -/
def chain_above (th : TreeHasher) (p : Bytes) (c : Bytes) : Nat → Bytes
  | 0 => c
  | f + 1 =>
    chain_above th p
      (if get_msb_at p f = 0 then (th.digest_node c th.zero_hash).1
       else (th.digest_node th.zero_hash c).1) f

/-! ## A small concrete instance (1-byte digests, depth 8) for witnesses -/

/-- A toy 1-byte hash; its output byte is always in `[1, 255]`, so it never
    produces the placeholder digest. -/
def tHash : Bytes → Bytes :=
  fun data => [data.foldl (fun a b => (a * 31 + b + 7) % 255 + 1) 3]

def tHasher : Hasher := { hash := tHash, output_size := 1 }

def tTH : TreeHasher := TreeHasher.new tHasher

/-- The empty toy tree. -/
def t0 : SMT := SMT.new tTH

/-- The toy tree holding key `[0]` with value `[50]`
    (path `tHash [0] = [101]`). -/
def t1 : SMT := (t0.update [0] [50]).getD t0

/-- The toy tree holding keys `[0]` and `[1]` (paths `[101]` and `[102]`,
    common prefix length 6). -/
def t2 : SMT := (t1.update [1] [51]).getD t0

/-! ## Canonical tree semantics

The tree the engine maintains is characterised by a canonical hash of the
abstract map it stores.  `S` is an association list `path ↦ value_hash`
(pairwise distinct paths).  At level `ℓ` with `fuel = 8n - ℓ` levels left:
an empty set is the placeholder, a singleton is a leaf (at any level — this
is the collapse), and a larger set is an internal node splitting on bit `ℓ`.
-/

/-- The entries of `S` whose path has bit `ℓ` equal to `b`. -/
def childF (ℓ b : Nat) (S : List (Bytes × Bytes)) : List (Bytes × Bytes) :=
  S.filter (fun pv => get_msb_at pv.1 ℓ == b)

/-- Canonical root digest of the subtree holding `S` at level `ℓ`
    (`fuel` levels remaining; the fuel-exhausted case is unreachable for
    well-formed `S`). -/
def cthash (th : TreeHasher) : Nat → Nat → List (Bytes × Bytes) → Bytes
  | _, _, [] => th.zero_hash
  | _, _, [pv] => (th.digest_leaf pv.1 pv.2).1
  | 0, _, _ => []
  | fuel + 1, ℓ, S =>
    (th.digest_node (cthash th fuel (ℓ + 1) (childF ℓ 0 S))
      (cthash th fuel (ℓ + 1) (childF ℓ 1 S))).1

/-- All `(digest, payload)` node-store records of the canonical subtree. -/
def ctrecords (th : TreeHasher) : Nat → Nat → List (Bytes × Bytes) →
    List (Bytes × Bytes)
  | _, _, [] => []
  | _, _, [pv] => [th.digest_leaf pv.1 pv.2]
  | 0, _, _ => []
  | fuel + 1, ℓ, S =>
    th.digest_node (cthash th fuel (ℓ + 1) (childF ℓ 0 S))
        (cthash th fuel (ℓ + 1) (childF ℓ 1 S)) ::
      (ctrecords th fuel (ℓ + 1) (childF ℓ 0 S) ++
        ctrecords th fuel (ℓ + 1) (childF ℓ 1 S))

/-- The canonical traversal of path `p` through the subtree holding `S`
    (which must be an internal node, `2 ≤ S.length`): the sidenodes and
    pathnodes the loop pushes, in push order, and the terminal payload. -/
def descend (th : TreeHasher) (p : Bytes) : Nat → Nat → List (Bytes × Bytes) →
    List Bytes × List Bytes × Bytes
  | 0, _, _ => ([], [], [])
  | fuel + 1, ℓ, S =>
    let Sc := if get_msb_at p ℓ = 0 then childF ℓ 0 S else childF ℓ 1 S
    let Ss := if get_msb_at p ℓ = 0 then childF ℓ 1 S else childF ℓ 0 S
    let sib := cthash th fuel (ℓ + 1) Ss
    match Sc with
    | [] => ([sib], [th.zero_hash], ([] : Bytes))
    | [pv] => ([sib], [(th.digest_leaf pv.1 pv.2).1], (th.digest_leaf pv.1 pv.2).2)
    | _ =>
      let r := descend th p fuel (ℓ + 1) Sc
      (sib :: r.1, cthash th fuel (ℓ + 1) Sc :: r.2.1, r.2.2)

/-- The on-path internal-node records of the canonical traversal (the
    records `_update` and `_delete` delete before rehashing, terminal
    excluded). -/
def dpath (th : TreeHasher) (p : Bytes) : Nat → Nat → List (Bytes × Bytes) →
    List (Bytes × Bytes)
  | _, _, [] => []
  | _, _, [_] => []
  | 0, _, _ => []
  | fuel + 1, ℓ, S =>
    th.digest_node (cthash th fuel (ℓ + 1) (childF ℓ 0 S))
        (cthash th fuel (ℓ + 1) (childF ℓ 1 S)) ::
      dpath th p fuel (ℓ + 1)
        (if get_msb_at p ℓ = 0 then childF ℓ 0 S else childF ℓ 1 S)

/-- Global well-formedness of the hash function. -/
def HashOk (th : TreeHasher) : Prop :=
  th.zero_hash = List.replicate th.hasher.output_size 0 ∧
  0 < th.hasher.output_size ∧
  (∀ x, (th.hasher.hash x).length = th.hasher.output_size) ∧
  (∀ x, th.hasher.hash x ≠ List.replicate th.hasher.output_size 0) ∧
  (∀ x, ∀ b ∈ th.hasher.hash x, b < 256)

/-- Well-formedness of the abstract set at level `ℓ` with `fuel` levels
    left: alignment, valid equal-length paths, pairwise distinct paths, and
    mutual agreement on all bits below `ℓ`. -/
def SetOk (th : TreeHasher) (ℓ fuel : Nat) (S : List (Bytes × Bytes)) : Prop :=
  ℓ + fuel = th.hasher.output_size * 8 ∧
  (∀ pv ∈ S, pv.1.length = th.hasher.output_size ∧ ∀ b ∈ pv.1, b < 256) ∧
  S.Pairwise (fun a b => a.1 ≠ b.1) ∧
  ∀ a ∈ S, ∀ b ∈ S, ∀ j < ℓ, get_msb_at a.1 j = get_msb_at b.1 j

/-- The node store holds every canonical record of `S`. -/
def Stored (th : TreeHasher) (nodes : Store) (fuel ℓ : Nat)
    (S : List (Bytes × Bytes)) : Prop :=
  ∀ r ∈ ctrecords th fuel ℓ S, nodes.get r.1 = some r.2


def insertAll (st : Store) (rs : List (Bytes × Bytes)) : Store :=
  rs.foldl (fun n r => n.insert r.1 r.2) st

def KeysDistinct (st : Store) : Prop :=
  st.Pairwise (fun a b => a.1 ≠ b.1)


def chain_segR (th : TreeHasher) (p : Bytes) (ℓ : Nat) :
    Nat → Bytes → Bytes × List (Bytes × Bytes)
  | 0, c => (c, [])
  | k + 1, c =>
    let hd := if get_msb_at p (ℓ + k) = 0 then th.digest_node c th.zero_hash
              else th.digest_node th.zero_hash c
    let r := chain_segR th p ℓ k hd.1
    (r.1, hd :: r.2)


def combineUp (th : TreeHasher) (p : Bytes) (ℓ0 : Nat) :
    List Bytes → Bytes → Bytes × List (Bytes × Bytes)
  | [], c => (c, [])
  | sd :: rest, c =>
    let hd := if get_msb_at p (ℓ0 + rest.length) = 0 then th.digest_node c sd
              else th.digest_node sd c
    let r := combineUp th p ℓ0 rest hd.1
    (r.1, hd :: r.2)

def insBase (th : TreeHasher) (p vh : Bytes) (lend : Nat) (t : Bytes) :
    Bytes × List (Bytes × Bytes) :=
  if t = [] then ((th.digest_leaf p vh).1, [th.digest_leaf p vh])
  else
    let q := (th.parse_leaf t).1
    let w := (th.parse_leaf t).2
    let cpl := common_prefix_len q p
    let bridge := if get_msb_at p cpl = 0 then
        th.digest_node (th.digest_leaf p vh).1 (th.digest_leaf q w).1
      else th.digest_node (th.digest_leaf q w).1 (th.digest_leaf p vh).1
    let bridgev := if get_msb_at p cpl = 0 then
        (th.digest_node (th.digest_leaf p vh).1 (th.digest_leaf q w).1).1
      else (th.digest_node (th.digest_leaf q w).1 (th.digest_leaf p vh).1).1
    let chain := chain_segR th p lend (cpl - lend) bridgev
    (chain.1, th.digest_leaf p vh :: th.digest_leaf q w :: bridge :: chain.2)


def Canon (s : SMT) (S : List (Bytes × Bytes)) : Prop :=
  s.root = cthash s.tree_hasher s.depth 0 S ∧
  KeysDistinct s.nodes ∧
  ∀ kv : Bytes × Bytes, kv ∈ s.nodes ↔ kv ∈ ctrecords s.tree_hasher s.depth 0 S


def updAll (s : SMT) : List (Bytes × Bytes) → Option SMT
  | [] => some s
  | kv :: rest =>
    match s.update kv.1 kv.2 with
    | none => none
    | some s' => updAll s' rest

def insList (th : TreeHasher) : List (Bytes × Bytes) → List (Bytes × Bytes) →
    List (Bytes × Bytes)
  | S, [] => S
  | S, kv :: rest => insList th ((th.path kv.1, th.digest kv.2) :: S) rest

def insOkB (th : TreeHasher) (dpth : Nat) : List (Bytes × Bytes) →
    List (Bytes × Bytes) → Bool
  | _, [] => true
  | S, kv :: rest =>
    decide (kv.2 ≠ []) &&
    decide (th.path kv.1 ∉ S.map Prod.fst) &&
    decide ((ctrecords th dpth 0 ((th.path kv.1, th.digest kv.2) :: S)).Pairwise
      (fun x y => x.1 ≠ y.1)) &&
    decide (∀ r ∈ dpath th (th.path kv.1) dpth 0 S,
      r.1 ∉ (ctrecords th dpth 0
        ((th.path kv.1, th.digest kv.2) :: S)).map Prod.fst) &&
    insOkB th dpth ((th.path kv.1, th.digest kv.2) :: S) rest



def removeP (p : Bytes) (S : List (Bytes × Bytes)) : List (Bytes × Bytes) :=
  S.filter (fun qv => ¬ qv.1 = p)


def delAll (s : SMT) : List Bytes → Option SMT
  | [] => some s
  | k :: rest =>
    match s.del k with
    | none => none
    | some s' => delAll s' rest

def delList (th : TreeHasher) : List (Bytes × Bytes) → List Bytes →
    List (Bytes × Bytes)
  | S, [] => S
  | S, k :: rest => delList th (removeP (th.path k) S) rest

def delOkB (th : TreeHasher) (dpth : Nat) : List (Bytes × Bytes) →
    List Bytes → Bool
  | _, [] => true
  | S, k :: rest =>
    decide (2 ≤ S.length) &&
    decide (th.path k ∈ S.map Prod.fst) &&
    decide ((ctrecords th dpth 0 (removeP (th.path k) S)).Pairwise
      (fun x y => x.1 ≠ y.1)) &&
    decide (∀ r ∈ dpath th (th.path k) dpth 0 S,
      r.1 ∉ (ctrecords th dpth 0 (removeP (th.path k) S)).map Prod.fst) &&
    decide (∀ pv ∈ S, pv.1 = th.path k →
      (th.digest_leaf (th.path k) pv.2).1 ∉
        (ctrecords th dpth 0 (removeP (th.path k) S)).map Prod.fst) &&
    delOkB th dpth (removeP (th.path k) S) rest

/-! # Theorems -/

/-! ## Store lemmas -/

theorem Store.get_del_self (s : Store) (k : Bytes) : (s.del k).get k = none := by
  induction s with
  | nil => rfl
  | cons hd tl ih =>
    obtain ⟨k', v⟩ := hd
    by_cases hk : k' = k
    · simpa [Store.del, hk] using ih
    · simpa [Store.del, Store.get, hk] using ih

theorem Store.get_del_ne (s : Store) (k k' : Bytes) (h : k' ≠ k) :
    (s.del k).get k' = s.get k' := by
  induction s with
  | nil => rfl
  | cons hd tl ih =>
    obtain ⟨k'', v⟩ := hd
    by_cases hk : k'' = k
    · subst hk
      simp [Store.del, Store.get, Ne.symm h, ih]
    · by_cases hk' : k'' = k'
      · subst hk'
        simp [Store.del, Store.get, hk]
      · simp [Store.del, Store.get, hk, hk', ih]

theorem Store.get_insert_self (s : Store) (k v : Bytes) :
    (s.insert k v).get k = some v := by
  simp [Store.insert, Store.get]

theorem Store.get_insert_ne (s : Store) (k v k' : Bytes) (h : k' ≠ k) :
    (s.insert k v).get k' = s.get k' := by
  simp [Store.insert, Store.get, Ne.symm h, Store.get_del_ne s k k' h]

/-! ## Bit-level lemmas -/

theorem ite_one_zero_inj {a b : Bool}
    (h : (if a then (1 : Nat) else 0) = (if b then 1 else 0)) : a = b := by
  cases a <;> cases b <;> simp_all

theorem get_msb_at_spec (data : Bytes) (m r : Nat) (hr : r < 8) :
    get_msb_at data (8 * m + r) =
      if (data.getD m 0).testBit (7 - r) then 1 else 0 := by
  unfold get_msb_at
  have h1 : (8 * m + r) / 8 = m := by omega
  have h2 : (8 * m + r) % 8 = r := by omega
  rw [h1, h2]

theorem byte_eq_of_msb_eq (a b : Nat) (ha : a < 256) (hb : b < 256)
    (h : ∀ r < 8, a.testBit (7 - r) = b.testBit (7 - r)) : a = b := by
  apply Nat.eq_of_testBit_eq
  intro j
  by_cases hj : j < 8
  · have h' := h (7 - j) (by omega)
    have h7 : 7 - (7 - j) = j := by omega
    rwa [h7] at h'
  · have h8 : (256 : Nat) ≤ 2 ^ j := by
      calc (256 : Nat) = 2 ^ 8 := by norm_num
      _ ≤ 2 ^ j := Nat.pow_le_pow_right (by norm_num) (by omega)
    rw [Nat.testBit_eq_false_of_lt (lt_of_lt_of_le ha h8),
      Nat.testBit_eq_false_of_lt (lt_of_lt_of_le hb h8)]

theorem common_prefix_aux_le (v1 v2 : Bytes) (i fuel count : Nat) :
    common_prefix_aux v1 v2 i fuel count ≤ count + fuel := by
  induction fuel generalizing i count with
  | zero => simp [common_prefix_aux]
  | succ fuel ih =>
    unfold common_prefix_aux
    by_cases h : get_msb_at v1 i = get_msb_at v2 i
    · simp only [h, if_true]
      have := ih (i + 1) (count + 1)
      omega
    · simp only [h, if_false]
      omega

theorem common_prefix_aux_eq_full (v1 v2 : Bytes) (i fuel count : Nat)
    (h : common_prefix_aux v1 v2 i fuel count = count + fuel) :
    ∀ j < fuel, get_msb_at v1 (i + j) = get_msb_at v2 (i + j) := by
  induction fuel generalizing i count with
  | zero => omega
  | succ fuel ih =>
    unfold common_prefix_aux at h
    by_cases hbit : get_msb_at v1 i = get_msb_at v2 i
    · simp only [hbit, if_true] at h
      intro j hj
      match j with
      | 0 => simpa using hbit
      | Nat.succ j =>
        have := ih (i + 1) (count + 1) (by omega) j (by omega)
        have harith : i + 1 + j = i + (j + 1) := by omega
        rwa [harith] at this
    · simp only [hbit, if_false] at h
      omega

theorem common_prefix_aux_of_all_eq (v1 v2 : Bytes) (i fuel count : Nat)
    (h : ∀ j < fuel, get_msb_at v1 (i + j) = get_msb_at v2 (i + j)) :
    common_prefix_aux v1 v2 i fuel count = count + fuel := by
  induction fuel generalizing i count with
  | zero => simp [common_prefix_aux]
  | succ fuel ih =>
    unfold common_prefix_aux
    have h0 : get_msb_at v1 i = get_msb_at v2 i := by simpa using h 0 (by omega)
    simp only [h0, if_true]
    have := ih (i + 1) (count + 1) (fun j hj => by
      have := h (j + 1) (by omega)
      have harith : i + (j + 1) = i + 1 + j := by omega
      rwa [harith] at this)
    omega

theorem common_prefix_len_self (v : Bytes) :
    common_prefix_len v v = v.length * 8 := by
  have := common_prefix_aux_of_all_eq v v 0 (v.length * 8) 0 (fun _ _ => rfl)
  simpa [common_prefix_len] using this

theorem eq_of_common_prefix_len_full (v1 v2 : Bytes) (hlen : v1.length = v2.length)
    (hb1 : ∀ b ∈ v1, b < 256) (hb2 : ∀ b ∈ v2, b < 256)
    (h : common_prefix_len v1 v2 = v1.length * 8) : v1 = v2 := by
  have hbits : ∀ j < v1.length * 8, get_msb_at v1 j = get_msb_at v2 j := by
    intro j hj
    have := common_prefix_aux_eq_full v1 v2 0 (v1.length * 8) 0
      (by simpa [common_prefix_len] using h) j hj
    simpa using this
  apply List.ext_getElem hlen
  intro m hm1 hm2
  apply byte_eq_of_msb_eq _ _ (hb1 _ (List.getElem_mem hm1)) (hb2 _ (List.getElem_mem hm2))
  intro r hr
  have hb := hbits (8 * m + r) (by omega)
  rw [get_msb_at_spec v1 m r hr, get_msb_at_spec v2 m r hr] at hb
  have hd1 : v1.getD m 0 = v1[m] := List.getD_eq_getElem v1 0 hm1
  have hd2 : v2.getD m 0 = v2[m] := List.getD_eq_getElem v2 0 hm2
  rw [hd1, hd2] at hb
  exact ite_one_zero_inj hb

theorem common_prefix_len_lt_of_ne (v1 v2 : Bytes) (hlen : v1.length = v2.length)
    (hb1 : ∀ b ∈ v1, b < 256) (hb2 : ∀ b ∈ v2, b < 256) (hne : v1 ≠ v2) :
    common_prefix_len v1 v2 < v1.length * 8 := by
  have hle := common_prefix_aux_le v1 v2 0 (v1.length * 8) 0
  have hne' : common_prefix_len v1 v2 ≠ v1.length * 8 :=
    fun h => hne (eq_of_common_prefix_len_full v1 v2 hlen hb1 hb2 h)
  have : common_prefix_len v1 v2 ≤ v1.length * 8 := by
    simpa [common_prefix_len] using hle
  omega

/-! ## Loop lemmas -/

theorem update_loop_cpl_depth (s : SMT) (p : Bytes) (lo : Nat) (sn : List Bytes)
    (i fuel : Nat) (c : Bytes) (nodes : Store) (h : i + fuel ≤ lo) :
    SMT.update_loop s p s.depth lo sn i fuel c nodes = (c, nodes) := by
  induction fuel generalizing i with
  | zero => rfl
  | succ fuel ih =>
    have hi : i < lo := by omega
    unfold SMT.update_loop
    simp only [hi, if_true, ne_eq, not_true_eq_false, false_and, if_false]
    exact ih (i + 1) (by omega)

theorem update_loop_skip_phase (s : SMT) (p : Bytes) (cpl : Nat) (sn : List Bytes) :
    ∀ fuel i c nodes, i + fuel = s.depth → cpl ≤ fuel →
      SMT.update_loop s p cpl s.depth sn i fuel c nodes =
        SMT.update_loop s p cpl s.depth sn (s.depth - cpl) cpl c nodes := by
  intro fuel
  induction fuel with
  | zero =>
    intro i c nodes hif hcf
    have h1 : cpl = 0 := by omega
    subst h1
    have h2 : i = s.depth := by omega
    subst h2
    simp
  | succ fuel ih =>
    intro i c nodes hif hcf
    by_cases hc : cpl = fuel + 1
    · subst hc
      have h2 : i = s.depth - (fuel + 1) := by omega
      subst h2
      rfl
    · have hi : i < s.depth := by omega
      have hcond : ¬ cpl > s.depth - i - 1 := by omega
      conv_lhs => unfold SMT.update_loop
      simp only [hi, if_true, hcond, and_false, if_false]
      exact ih (i + 1) c nodes (by omega) (by omega)

theorem update_loop_combine_phase (s : SMT) (p : Bytes) (cpl : Nat) (sn : List Bytes)
    (hne : cpl ≠ s.depth) :
    ∀ fuel c nodes, fuel ≤ cpl → fuel ≤ s.depth →
      (SMT.update_loop s p cpl s.depth sn (s.depth - fuel) fuel c nodes).1 =
        chain_above s.tree_hasher p c fuel := by
  intro fuel
  induction fuel with
  | zero =>
    intro c nodes _ _
    simp [SMT.update_loop, chain_above]
  | succ fuel ih =>
    intro c nodes hf hfd
    have hi : s.depth - (fuel + 1) < s.depth := by omega
    have hd1 : s.depth - (s.depth - (fuel + 1)) - 1 = fuel := by omega
    have hcond : cpl > s.depth - (s.depth - (fuel + 1)) - 1 := by omega
    have hnext : s.depth - (fuel + 1) + 1 = s.depth - fuel := by omega
    have hcond2 : cpl > fuel := by omega
    conv_lhs => unfold SMT.update_loop
    simp only [hi, if_true, ne_eq, hne, not_false_eq_true, true_and, hcond, hd1, hnext, hcond2]
    by_cases hbit : get_msb_at p fuel = 0
    · simp only [hbit, if_true]
      rw [ih _ _ (by omega) (by omega)]
      simp [chain_above, hbit, SMT.placeholder]
    · simp only [hbit, if_false]
      rw [ih _ _ (by omega) (by omega)]
      simp [chain_above, hbit, SMT.placeholder]

theorem update_loop_result_hash (s : SMT) (p : Bytes) (cpl lo : Nat) (sn : List Bytes) :
    ∀ fuel i c nodes, (SMT.update_loop s p cpl lo sn i fuel c nodes).1 = c ∨
      ∃ d, (SMT.update_loop s p cpl lo sn i fuel c nodes).1 = s.tree_hasher.hasher.hash d := by
  intro fuel
  induction fuel with
  | zero =>
    intro i c nodes
    left
    rfl
  | succ fuel ih =>
    intro i c nodes
    unfold SMT.update_loop
    dsimp only
    split
    · exact ih (i + 1) c nodes
    · rename_i sd hsd
      right
      rcases ih (i + 1)
          ((if get_msb_at p (s.depth - i - 1) = 0 then s.tree_hasher.digest_node c sd
            else s.tree_hasher.digest_node sd c).1)
          (nodes.insert
            ((if get_msb_at p (s.depth - i - 1) = 0 then s.tree_hasher.digest_node c sd
              else s.tree_hasher.digest_node sd c).1)
            ((if get_msb_at p (s.depth - i - 1) = 0 then s.tree_hasher.digest_node c sd
              else s.tree_hasher.digest_node sd c).2)) with h | ⟨d, hd⟩
      · refine ⟨if get_msb_at p (s.depth - i - 1) = 0 then 1 :: (c ++ sd) else 1 :: (sd ++ c), ?_⟩
        rw [h]
        by_cases hbit : get_msb_at p (s.depth - i - 1) = 0 <;>
          simp [hbit, TreeHasher.digest_node]
      · exact ⟨d, hd⟩

theorem getLast?_snoc {α : Type} (l : List α) (a : α) : (l ++ [a]).getLast? = some a := by
  simp

theorem sidenodes_loop_leaf (s : SMT) (p : Bytes) :
    ∀ fuel i node sn0 pn0 res,
      SMT.sidenodes_loop s p i fuel node sn0 pn0 = some res →
      s.tree_hasher.is_leaf node = false →
      s.tree_hasher.is_leaf res.2.2 = true →
      ∃ d, res.2.1.getLast? = some d ∧ s.nodes.get d = some res.2.2 := by
  intro fuel
  induction fuel with
  | zero =>
    intro i node sn0 pn0 res h hnode hleaf
    unfold SMT.sidenodes_loop at h
    cases h
    dsimp only at hleaf
    rw [hnode] at hleaf
    cases hleaf
  | succ fuel ih =>
    intro i node sn0 pn0 res h hnode hleaf
    unfold SMT.sidenodes_loop at h
    dsimp only at h
    by_cases hbit : get_msb_at p i = 0
    · rw [if_pos hbit] at h
      dsimp only at h
      split at h
      · cases h
        simp [SMT.DEFAULT_VALUE, TreeHasher.is_leaf] at hleaf
      · split at h
        · cases h
        · rename_i nd hnd
          split at h
          · cases h
            exact ⟨_, getLast?_snoc _ _, by simpa using hnd⟩
          · rename_i hnl
            exact ih (i + 1) nd _ _ res h (by simpa using hnl) hleaf
    · rw [if_neg hbit] at h
      dsimp only at h
      split at h
      · cases h
        simp [SMT.DEFAULT_VALUE, TreeHasher.is_leaf] at hleaf
      · split at h
        · cases h
        · rename_i nd hnd
          split at h
          · cases h
            exact ⟨_, getLast?_snoc _ _, by simpa using hnd⟩
          · rename_i hnl
            exact ih (i + 1) nd _ _ res h (by simpa using hnl) hleaf

theorem sidenodes_terminal_leaf (s : SMT) (root p : Bytes)
    (res : List Bytes × List Bytes × Bytes) (h : s.sidenodes root p = some res)
    (hleaf : s.tree_hasher.is_leaf res.2.2 = true) :
    s.nodes.get (res.2.1.headD []) = some res.2.2 := by
  unfold SMT.sidenodes at h
  split at h
  · cases h
    simp [SMT.DEFAULT_VALUE, TreeHasher.is_leaf] at hleaf
  · split at h
    · cases h
    · rename_i node hget
      split at h
      · cases h
        simpa [List.headD] using hget
      · rename_i hnl
        rw [Option.map_eq_some'] at h
        obtain ⟨r, hr, hres⟩ := h
        subst hres
        obtain ⟨d, hd1, hd2⟩ :=
          sidenodes_loop_leaf s p s.depth 0 node [] [root] r hr
            (by simpa using hnl) hleaf
        have hh : ((r.2.1.reverse).headD []) = d := by
          rw [List.headD_eq_head?_getD, List.head?_reverse, hd1]
          rfl
        dsimp only
        rw [hh]
        exact hd2

/-! ## Concrete refutations and failing-input evaluations -/

/-- C1: the claim fails on the code.  `t1` holds the single key `[0]`
    (path `[101]`, root `[129]`); deleting the absent key `[1]`
    (path `[102]`, which terminates at the non-matching leaf) does not leave
    the root unchanged: `_delete` only checks for a placeholder, so it deletes
    the unrelated leaf record and returns the placeholder root, leaving a
    stale value record behind. -/
theorem delete_absent_key_wipes_tree :
    t1.root = [129] ∧ tTH.zero_hash = [0] ∧
    (t1.del [1]).map SMT.root = some [0] ∧
    (t1.del [1]).map SMT.nodes = some [] ∧
    (t1.del [1]).map SMT.values = some [([101], [50])] := by
  decide

/-- C4: the claim fails on the code.  In the two-key tree `t2` the full proof
    for key `[0]` contains placeholder sidenodes, and `generate_compact_proof`
    then calls `set_msb_at` on the empty bitmask, which indexes out of bounds
    (a Rust panic, modelled as `none`): no compact proof is returned at all. -/
theorem compact_proof_panics_on_placeholder :
    t2.generate_proof [0] t2.root =
      some ⟨[[161], [0], [0], [0], [0], [0], [0]], []⟩ ∧
    t2.generate_compact_proof [0] t2.root = none := by
  decide

/-- C5: the claim fails on the code.  `set_msb_at` never grows its buffer:
    with `data = []` and `i = 0` it indexes `data[0]` out of bounds (a Rust
    panic, modelled as `none`); in range it does set the MSB-first bit. -/
theorem set_msb_at_out_of_range_panics :
    set_msb_at [] 0 = none ∧ set_msb_at [0, 0] 9 = some [0, 64] := by
  decide

/-- C3 counterexample: on a freshly created empty tree, `get` returns the
    one-byte string `[0x00]` (`vec![0]` in the source), not a zero-length
    byte string. -/
theorem get_empty_tree_not_nil :
    t0.get [5] = some [0] ∧ ([0] : Bytes) ≠ ([] : Bytes) := by
  decide

/-- C6 counterexample: in the single-leaf tree `t1`, the proof for the absent
    key `[1]` carries `pathnodes[0] = [129]`, the terminal leaf's digest —
    the node-store key — and not the leaf's entire payload `[0, 101, 151]`. -/
theorem nm_leaf_is_not_payload :
    (t1.generate_proof [1] t1.root).map SparseMerkleProof.non_membership_leaf_node
      = some [129] ∧
    t1.nodes.get [129] = some [0, 101, 151] ∧
    ([129] : Bytes) ≠ [0, 101, 151] := by
  decide

/-- C7 counterexample: inserting keys `[0]` then `[1]` (paths `[101]`,
    `[102]`, common prefix length 6) into the empty toy tree yields root
    `[201]`, not the bridging internal node `[183]`: `_update` wraps the
    bridge in one internal node per shared prefix bit, each with a
    placeholder sibling. -/
theorem two_insert_root_not_bridge :
    (t1.update [1] [51]).map SMT.root = some [201] ∧
    bridge_of tHasher [0] [50] [1] [51] = [183] ∧
    ([201] : Bytes) ≠ [183] := by
  decide

/-- Inserting the first key into an empty tree stores exactly the new leaf
    record and the raw value, and the root becomes the leaf digest. -/
theorem update_empty (H : Hasher) (key value : Bytes) (hv : value ≠ []) :
    (SMT.new (TreeHasher.new H)).update key value = some
      { tree_hasher := TreeHasher.new H,
        nodes := [(H.hash (0 :: (H.hash key ++ H.hash value)), 0 :: (H.hash key ++ H.hash value))],
        values := [(H.hash key, value)],
        root := H.hash (0 :: (H.hash key ++ H.hash value)) } := by
  have hside : (SMT.new (TreeHasher.new H)).sidenodes (SMT.new (TreeHasher.new H)).root
      ((SMT.new (TreeHasher.new H)).tree_hasher.path key) =
      some ([], [(TreeHasher.new H).zero_hash], SMT.DEFAULT_VALUE) := by
    simp [SMT.sidenodes, SMT.new, SMT.placeholder]
  unfold SMT.update SMT.update_for_root
  dsimp only
  rw [hside]
  dsimp only
  rw [if_neg (show ¬(value = SMT.DEFAULT_VALUE) from hv)]
  unfold SMT.update_raw
  dsimp only
  have hph : ([(TreeHasher.new H).zero_hash].headD [] : Bytes) =
      (SMT.new (TreeHasher.new H)).placeholder := rfl
  rw [if_pos hph]
  dsimp only
  rw [if_neg (show ¬((SMT.new (TreeHasher.new H)).depth ≠ (SMT.new (TreeHasher.new H)).depth)
    from fun h => h rfl)]
  rw [if_neg (show ¬(SMT.DEFAULT_VALUE ≠ SMT.DEFAULT_VALUE) from fun h => h rfl)]
  dsimp only
  rw [update_loop_cpl_depth _ _ _ _ _ _ _ _ (by simp)]
  rfl

theorem parse_leaf_spec (th : TreeHasher) (p v : Bytes)
    (hlen : p.length = th.hasher.output_size) :
    th.parse_leaf (0 :: (p ++ v)) = (p, v) := by
  unfold TreeHasher.parse_leaf
  rw [← hlen]
  simp [List.take_left, List.drop_left]

theorem update_into_single_leaf (s : SMT) (H : Hasher) (p1 vh1 k2 v2 : Bytes)
    (hth : s.tree_hasher = TreeHasher.new H)
    (hroot : s.root = H.hash (0 :: (p1 ++ vh1)))
    (hget : s.nodes.get s.root = some (0 :: (p1 ++ vh1)))
    (hv2 : v2 ≠ [])
    (hlen1 : p1.length = H.output_size)
    (hlen2 : (H.hash k2).length = H.output_size)
    (hb1 : ∀ b ∈ p1, b < 256) (hb2 : ∀ b ∈ H.hash k2, b < 256)
    (hne : p1 ≠ H.hash k2)
    (hnz : s.root ≠ List.replicate H.output_size 0)
    (s2 : SMT) (hupd : s.update k2 v2 = some s2) :
    s2.root = chain_above (TreeHasher.new H) (H.hash k2)
      ((if get_msb_at (H.hash k2) (common_prefix_len p1 (H.hash k2)) = 0 then
          (TreeHasher.new H).digest_node
            (H.hash (0 :: (H.hash k2 ++ H.hash v2))) (H.hash (0 :: (p1 ++ vh1)))
        else
          (TreeHasher.new H).digest_node
            (H.hash (0 :: (p1 ++ vh1))) (H.hash (0 :: (H.hash k2 ++ H.hash v2)))).1)
      (common_prefix_len p1 (H.hash k2)) := by
  have hpath : s.tree_hasher.path k2 = H.hash k2 := by rw [hth]; rfl
  have hph : s.placeholder = List.replicate H.output_size 0 := by
    rw [SMT.placeholder, hth]; rfl
  have hdepth : s.depth = H.output_size * 8 := by rw [SMT.depth, hth]; rfl
  have hclt : common_prefix_len p1 (H.hash k2) < H.output_size * 8 := by
    have := common_prefix_len_lt_of_ne p1 (H.hash k2)
      (by rw [hlen1, hlen2]) hb1 hb2 hne
    rwa [hlen1] at this
  have hside : s.sidenodes s.root (s.tree_hasher.path k2) =
      some ([], [s.root], 0 :: (p1 ++ vh1)) := by
    unfold SMT.sidenodes
    rw [if_neg (by rw [hph]; exact hnz)]
    rw [hget]
    dsimp only
    rw [if_pos (by simp [hth, TreeHasher.is_leaf])]
  unfold SMT.update SMT.update_for_root at hupd
  dsimp only at hupd
  rw [hside] at hupd
  dsimp only at hupd
  rw [if_neg (show ¬(v2 = SMT.DEFAULT_VALUE) from hv2)] at hupd
  unfold SMT.update_raw at hupd
  dsimp only at hupd
  rw [if_neg (show ¬(([s.root].headD [] : Bytes) = s.placeholder) by
    dsimp only [List.headD]
    rw [hph]; exact hnz)] at hupd
  have hparse : s.tree_hasher.parse_leaf (0 :: (p1 ++ vh1)) = (p1, vh1) := by
    rw [hth]
    exact parse_leaf_spec _ _ _ hlen1
  rw [hparse, hpath] at hupd
  dsimp only at hupd
  rw [if_pos (show common_prefix_len p1 (H.hash k2) ≠ s.depth by
    rw [hdepth]; omega)] at hupd
  dsimp only at hupd
  cases hupd
  dsimp only
  simp only [List.length_nil, Nat.sub_zero, List.headD, List.drop, List.foldl]
  rw [update_loop_skip_phase s (H.hash k2) (common_prefix_len p1 (H.hash k2)) []
    s.depth 0 _ _ (by omega) (by rw [hdepth]; omega)]
  rw [update_loop_combine_phase s (H.hash k2) (common_prefix_len p1 (H.hash k2)) []
    (by rw [hdepth]; omega) (common_prefix_len p1 (H.hash k2)) _ _ (le_refl _)
    (by rw [hdepth]; omega)]
  rw [hth, hroot]
  dsimp only [TreeHasher.digest_leaf, TreeHasher.digest, TreeHasher.new]


/-- C7 amended claim theorem. -/
theorem two_insert_root_eq_chain (H : Hasher) (k1 v1 k2 v2 : Bytes)
    (hv1 : v1 ≠ []) (hv2 : v2 ≠ [])
    (hlen1 : (H.hash k1).length = H.output_size)
    (hlen2 : (H.hash k2).length = H.output_size)
    (hb1 : ∀ b ∈ H.hash k1, b < 256)
    (hb2 : ∀ b ∈ H.hash k2, b < 256)
    (hne : H.hash k1 ≠ H.hash k2)
    (hnz : H.hash (0 :: (H.hash k1 ++ H.hash v1)) ≠ List.replicate H.output_size 0)
    (s1 s2 : SMT)
    (hu1 : (SMT.new (TreeHasher.new H)).update k1 v1 = some s1)
    (hu2 : s1.update k2 v2 = some s2) :
    s2.root = chain_above (TreeHasher.new H) (H.hash k2)
      (bridge_of H k1 v1 k2 v2) (common_prefix_len (H.hash k1) (H.hash k2)) := by
  rw [update_empty H k1 v1 hv1] at hu1
  cases hu1
  have hmain := update_into_single_leaf _ H (H.hash k1) (H.hash v1) k2 v2 rfl rfl
    (by simp [Store.get]) hv2 hlen1 hlen2 hb1 hb2 hne hnz s2 hu2
  rw [hmain]
  simp only [bridge_of, leaf_digest_of, TreeHasher.digest_leaf, TreeHasher.digest, apply_ite]
  rfl

/-- C7 amended, witnessed at the toy instance: the hypotheses hold for
    `tHash` on keys `[0]`, `[1]` and the theorem applies to `t1`, `t2`. -/
theorem two_insert_root_eq_chain_witness :
    t2.root = chain_above tTH (tHash [1]) (bridge_of tHasher [0] [50] [1] [51])
      (common_prefix_len (tHash [0]) (tHash [1])) :=
  two_insert_root_eq_chain tHasher [0] [50] [1] [51]
    (by decide) (by decide) (by decide) (by decide) (by decide) (by decide)
    (by decide) (by decide) t1 t2 rfl rfl

theorem sidenodes_of_root_ph (s : SMT) (root p : Bytes) (h : root = s.placeholder) :
    s.sidenodes root p = some ([], [root], SMT.DEFAULT_VALUE) := by
  unfold SMT.sidenodes
  rw [if_pos h]

theorem smt_get_of_values (s2 : SMT) (key v : Bytes)
    (hroot : s2.root ≠ s2.placeholder)
    (hval : s2.values.get (s2.tree_hasher.path key) = some v) :
    s2.get key = some v := by
  unfold SMT.get
  rw [if_neg hroot]
  exact hval

theorem update_loop_root_ne_ph (s : SMT) (p : Bytes) (cpl lo : Nat) (sn : List Bytes)
    (i fuel : Nat) (c : Bytes) (nodes : Store)
    (hc : ∃ d, c = s.tree_hasher.hasher.hash d)
    (hnz : ∀ x, s.tree_hasher.hasher.hash x ≠ s.tree_hasher.zero_hash) :
    (SMT.update_loop s p cpl lo sn i fuel c nodes).1 ≠ s.tree_hasher.zero_hash := by
  rcases update_loop_result_hash s p cpl lo sn fuel i c nodes with h | ⟨d, hd⟩
  · rw [h]
    obtain ⟨d, hd⟩ := hc
    rw [hd]
    exact hnz d
  · rw [hd]
    exact hnz d

/-- C2. -/
theorem get_after_update (s : SMT) (key value : Bytes)
    (hv : value ≠ [])
    (hnz : ∀ x, s.tree_hasher.hasher.hash x ≠ s.tree_hasher.zero_hash)
    (hwf : ∀ sn pn old,
      s.sidenodes s.root (s.tree_hasher.path key) = some (sn, pn, old) →
      pn.headD [] ≠ s.placeholder →
      (s.tree_hasher.parse_leaf old).2 = s.tree_hasher.digest value →
      s.values.get (s.tree_hasher.path key) = some value)
    (s2 : SMT) (hupd : s.update key value = some s2) :
    s2.get key = some value := by
  unfold SMT.update SMT.update_for_root at hupd
  dsimp only at hupd
  cases hres : s.sidenodes s.root (s.tree_hasher.path key) with
  | none =>
    rw [hres] at hupd
    cases hupd
  | some r =>
    obtain ⟨sn, pn, old⟩ := r
    rw [hres] at hupd
    dsimp only at hupd
    rw [if_neg (show ¬(value = SMT.DEFAULT_VALUE) from hv)] at hupd
    cases hupd
    unfold SMT.update_raw
    dsimp only
    by_cases hph : pn.headD [] = s.placeholder
    · rw [if_pos hph]
      dsimp only
      rw [if_neg (show ¬(s.depth ≠ s.depth) from fun h => h rfl)]
      rw [if_neg (show ¬(SMT.DEFAULT_VALUE ≠ SMT.DEFAULT_VALUE) from fun h => h rfl)]
      dsimp only
      apply smt_get_of_values
      · exact update_loop_root_ne_ph s _ _ _ _ _ _ _ _ ⟨_, rfl⟩ hnz
      · exact Store.get_insert_self _ _ _
    · rw [if_neg hph]
      dsimp only
      by_cases hcpl :
          common_prefix_len (s.tree_hasher.parse_leaf old).1 (s.tree_hasher.path key) ≠ s.depth
      · rw [if_pos hcpl]
        dsimp only
        apply smt_get_of_values
        · refine update_loop_root_ne_ph s _ _ _ _ _ _ _ _ ?_ hnz
          by_cases hb : get_msb_at (s.tree_hasher.path key)
              (common_prefix_len (s.tree_hasher.parse_leaf old).1 (s.tree_hasher.path key)) = 0
          · exact ⟨1 :: ((s.tree_hasher.digest_leaf (s.tree_hasher.path key) (s.tree_hasher.digest value)).1 ++ pn.headD []), by rw [if_pos hb]; rfl⟩
          · exact ⟨1 :: (pn.headD [] ++ (s.tree_hasher.digest_leaf (s.tree_hasher.path key) (s.tree_hasher.digest value)).1), by rw [if_neg hb]; rfl⟩
        · exact Store.get_insert_self _ _ _
      · rw [if_neg hcpl]
        by_cases hpv : (s.tree_hasher.parse_leaf old).2 ≠ SMT.DEFAULT_VALUE
        · rw [if_pos hpv]
          by_cases heq : (s.tree_hasher.parse_leaf old).2 = s.tree_hasher.digest value
          · rw [if_pos heq]
            apply smt_get_of_values
            · intro hr
              have hshape := sidenodes_of_root_ph s s.root (s.tree_hasher.path key) hr
              rw [hres] at hshape
              have hpn : pn = [s.root] := by
                have := Option.some.inj hshape
                exact congrArg (fun t => t.2.1) this
              rw [hpn] at hph
              exact hph hr
            · exact hwf sn pn old hres hph heq
          · rw [if_neg heq]
            dsimp only
            apply smt_get_of_values
            · exact update_loop_root_ne_ph s _ _ _ _ _ _ _ _ ⟨_, rfl⟩ hnz
            · exact Store.get_insert_self _ _ _
        · rw [if_neg hpv]
          dsimp only
          apply smt_get_of_values
          · exact update_loop_root_ne_ph s _ _ _ _ _ _ _ _ ⟨_, rfl⟩ hnz
          · exact Store.get_insert_self _ _ _

theorem tHash_foldl_pos (l : Bytes) (a : Nat) (ha : 0 < a) :
    0 < l.foldl (fun a b => (a * 31 + b + 7) % 255 + 1) a := by
  induction l generalizing a with
  | nil => exact ha
  | cons hd tl ih => exact ih _ (Nat.succ_pos _)

theorem tHash_ne_zero_hash (x : Bytes) : tHash x ≠ [0] := by
  unfold tHash
  intro h
  have h1 : x.foldl (fun a b => (a * 31 + b + 7) % 255 + 1) 3 = 0 := by
    injection h
  have h2 := tHash_foldl_pos x 3 (by omega)
  omega

/-- C2 witness. -/
theorem get_after_update_witness : t1.get [0] = some [50] :=
  get_after_update t0 [0] [50] (by decide)
    (fun x => tHash_ne_zero_hash x)
    (by
      intro sn pn old h1 h2 _
      exfalso
      apply h2
      have h1' : (([] : List Bytes), ([[0]] : List Bytes), ([] : Bytes)) = (sn, pn, old) :=
        Option.some.inj h1
      have hpn : ([[0]] : List Bytes) = pn := congrArg (fun t => t.2.1) h1'
      rw [← hpn]
      decide)
    t1 rfl

/-- C10. -/
theorem insert_same_value_idempotent (s : SMT) (key value : Bytes)
    (sn pn : List Bytes) (old : Bytes)
    (hv : value ≠ [])
    (hside : s.sidenodes s.root (s.tree_hasher.path key) = some (sn, pn, old))
    (hleaf : s.tree_hasher.is_leaf old = true)
    (hph : pn.headD [] ≠ s.placeholder)
    (hmatch : (s.tree_hasher.parse_leaf old).1 = s.tree_hasher.path key)
    (hvh : (s.tree_hasher.parse_leaf old).2 = s.tree_hasher.digest value)
    (hlen : (s.tree_hasher.path key).length = s.tree_hasher.hasher.output_size)
    (hvne : s.tree_hasher.digest value ≠ [])
    (hca : pn.headD [] = s.tree_hasher.hasher.hash old) :
    ∃ s2, s.update key value = some s2 ∧ s2.root = s.root ∧ s2.values = s.values ∧
      s.nodes.get (s.tree_hasher.hasher.hash old) = some old ∧
      ∀ k, s2.nodes.get k = s.nodes.get k := by
  -- reconstruct the old payload byte for byte
  have htake : old.take 1 = [0] := by
    have := hleaf
    unfold TreeHasher.is_leaf at this
    exact of_decide_eq_true this
  obtain ⟨t, hold⟩ : ∃ t, old = 0 :: t := by
    cases old with
    | nil => simp [List.take] at htake
    | cons b t =>
      have hb : b = 0 := by simpa using htake
      exact ⟨t, by rw [hb]⟩
  have hparse1 : (s.tree_hasher.parse_leaf old).1 =
      t.take s.tree_hasher.hasher.output_size := by
    rw [hold]; rfl
  have hparse2 : (s.tree_hasher.parse_leaf old).2 =
      t.drop s.tree_hasher.hasher.output_size := by
    rw [hold]
    unfold TreeHasher.parse_leaf
    simp [List.drop_succ_cons]
  have hod : old = 0 :: (s.tree_hasher.path key ++ s.tree_hasher.digest value) := by
    rw [hold]
    have ht : t = t.take s.tree_hasher.hasher.output_size ++
        t.drop s.tree_hasher.hasher.output_size := (List.take_append_drop _ _).symm
    rw [hparse1] at hmatch
    rw [hparse2] at hvh
    rw [ht, hmatch, hvh]
  -- the leaf record _update recomputes is byte-identical to the stored one
  have hget_old : s.nodes.get (pn.headD []) = some old :=
    sidenodes_terminal_leaf s s.root (s.tree_hasher.path key) (sn, pn, old) hside hleaf
  -- common prefix of the leaf path with itself covers the whole depth
  have hcpl : common_prefix_len (s.tree_hasher.parse_leaf old).1 (s.tree_hasher.path key)
      = s.depth := by
    rw [hmatch, common_prefix_len_self, hlen, SMT.depth]
  -- run the update
  unfold SMT.update SMT.update_for_root
  dsimp only
  rw [hside]
  dsimp only
  rw [if_neg (show ¬(value = SMT.DEFAULT_VALUE) from hv)]
  unfold SMT.update_raw
  dsimp only
  rw [if_neg hph]
  dsimp only
  rw [if_neg (show ¬(common_prefix_len (s.tree_hasher.parse_leaf old).1
      (s.tree_hasher.path key) ≠ s.depth) from fun h => h hcpl)]
  rw [if_pos (show (s.tree_hasher.parse_leaf old).2 ≠ SMT.DEFAULT_VALUE by
    rw [hvh]; exact hvne)]
  rw [if_pos hvh]
  refine ⟨_, rfl, rfl, rfl, ?_, ?_⟩
  · rw [← hca]
    exact hget_old
  · intro k
    dsimp only
    by_cases hk : k = (s.tree_hasher.digest_leaf (s.tree_hasher.path key)
        (s.tree_hasher.digest value)).1
    · subst hk
      rw [Store.get_insert_self]
      have hd : (s.tree_hasher.digest_leaf (s.tree_hasher.path key)
          (s.tree_hasher.digest value)).2 = old := by
        rw [hod]
        rfl
      have hh : (s.tree_hasher.digest_leaf (s.tree_hasher.path key)
          (s.tree_hasher.digest value)).1 = s.tree_hasher.hasher.hash old := by
        rw [hod]
        rfl
      rw [hd, hh, ← hca]
      exact hget_old.symm
    · exact Store.get_insert_ne _ _ _ _ hk




/-- C10 witness. -/
theorem insert_same_value_idempotent_witness :
    ∃ s2, t1.update [0] [50] = some s2 ∧ s2.root = t1.root ∧ s2.values = t1.values ∧
      t1.nodes.get (t1.tree_hasher.hasher.hash [0, 101, 151]) = some [0, 101, 151] ∧
      ∀ k, s2.nodes.get k = t1.nodes.get k :=
  insert_same_value_idempotent t1 [0] [50] [] [[129]] [0, 101, 151]
    (by decide) (by decide) (by decide) (by decide) (by decide) (by decide)
    (by decide) (by decide) (by decide)

/-- C3 amended. -/
theorem get_sentinel_or_raw_value :
    (∀ (th : TreeHasher) (key : Bytes), (SMT.new th).get key = some [0]) ∧
    (∀ (s : SMT) (key v : Bytes), s.root ≠ s.placeholder →
      s.values.get (s.tree_hasher.path key) = some v → s.get key = some v) ∧
    (∀ (s : SMT) (key : Bytes), s.root ≠ s.placeholder →
      s.values.get (s.tree_hasher.path key) = none → s.get key = none) := by
  refine ⟨?_, ?_, ?_⟩
  · intro th key
    unfold SMT.get
    rw [if_pos (show (SMT.new th).root = (SMT.new th).placeholder from rfl)]
  · intro s key v hr hv
    unfold SMT.get
    rw [if_neg hr]
    exact hv
  · intro s key hr hv
    unfold SMT.get
    rw [if_neg hr]
    exact hv

/-- C3 amended witness. -/
theorem get_sentinel_or_raw_value_witness :
    t0.get [7] = some [0] ∧ t1.get [0] = some [50] ∧ t1.get [1] = none := by
  obtain ⟨h1, h2, h3⟩ := get_sentinel_or_raw_value
  exact ⟨h1 tTH [7], h2 t1 [0] [50] (by decide) (by decide),
    h3 t1 [1] (by decide) (by decide)⟩

/-- C6 amended. -/
theorem nm_leaf_digest (s : SMT) (key root : Bytes) (sn pn : List Bytes) (old : Bytes)
    (hside : s.sidenodes root (s.tree_hasher.path key) = some (sn, pn, old)) :
    ∃ pr, s.generate_proof key root = some pr ∧ pr.sidenodes = sn ∧
      ((pn.headD [] = s.placeholder ∨
          (s.tree_hasher.parse_leaf old).1 = s.tree_hasher.path key) →
        pr.non_membership_leaf_node = []) ∧
      (pn.headD [] ≠ s.placeholder →
        (s.tree_hasher.parse_leaf old).1 ≠ s.tree_hasher.path key →
        pr.non_membership_leaf_node = pn.headD []) ∧
      (pn.headD [] ≠ s.placeholder →
        (s.tree_hasher.parse_leaf old).1 ≠ s.tree_hasher.path key →
        s.tree_hasher.is_leaf old = true →
        s.nodes.get pr.non_membership_leaf_node = some old) := by
  unfold SMT.generate_proof
  dsimp only
  rw [hside]
  dsimp only
  refine ⟨_, rfl, rfl, ?_, ?_, ?_⟩
  · intro h
    cases h with
    | inl h1 =>
      rw [if_neg (fun hne => hne h1)]
    | inr h2 =>
      by_cases hph : pn.headD [] = s.placeholder
      · rw [if_neg (fun hne => hne hph)]
      · rw [if_pos hph, if_neg (fun hne => hne h2)]
  · intro hph hpm
    rw [if_pos hph, if_pos hpm]
  · intro hph hpm hleaf
    rw [if_pos hph, if_pos hpm]
    exact sidenodes_terminal_leaf s root (s.tree_hasher.path key) (sn, pn, old) hside hleaf

/-- C6 amended witness. -/
theorem nm_leaf_digest_witness :
    ∃ pr, t1.generate_proof [1] t1.root = some pr ∧
      pr.non_membership_leaf_node = [[129]].headD [] ∧
      t1.nodes.get pr.non_membership_leaf_node = some [0, 101, 151] := by
  obtain ⟨pr, h1, _, _, h4, h5⟩ :=
    nm_leaf_digest t1 [1] t1.root [] [[129]] [0, 101, 151] (by decide)
  exact ⟨pr, h1, h4 (by decide) (by decide), h5 (by decide) (by decide) (by decide)⟩

theorem eq_of_bits_eq (v1 v2 : Bytes) (hlen : v1.length = v2.length)
    (hb1 : ∀ b ∈ v1, b < 256) (hb2 : ∀ b ∈ v2, b < 256)
    (hbits : ∀ j < v1.length * 8, get_msb_at v1 j = get_msb_at v2 j) : v1 = v2 := by
  apply List.ext_getElem hlen
  intro m hm1 hm2
  apply byte_eq_of_msb_eq _ _ (hb1 _ (List.getElem_mem hm1)) (hb2 _ (List.getElem_mem hm2))
  intro r hr
  have hb := hbits (8 * m + r) (by omega)
  rw [get_msb_at_spec v1 m r hr, get_msb_at_spec v2 m r hr] at hb
  have hd1 : v1.getD m 0 = v1[m] := List.getD_eq_getElem v1 0 hm1
  have hd2 : v2.getD m 0 = v2[m] := List.getD_eq_getElem v2 0 hm2
  rw [hd1, hd2] at hb
  exact ite_one_zero_inj hb

theorem SetOk_child (th : TreeHasher) (ℓ fuel : Nat) (S : List (Bytes × Bytes))
    (h : SetOk th ℓ (fuel + 1) S) (b : Nat) :
    SetOk th (ℓ + 1) fuel (childF ℓ b S) := by
  obtain ⟨hal, hpaths, hpw, hagree⟩ := h
  refine ⟨by omega, ?_, ?_, ?_⟩
  · intro pv hpv
    exact hpaths pv (List.mem_of_mem_filter hpv)
  · exact hpw.filter _
  · intro x hx y hy j hj
    have hx' := List.mem_filter.mp hx
    have hy' := List.mem_filter.mp hy
    by_cases hjl : j < ℓ
    · exact hagree x hx'.1 y hy'.1 j hjl
    · have hje : j = ℓ := by omega
      subst hje
      have hbx : get_msb_at x.1 j = b := by simpa using hx'.2
      have hby : get_msb_at y.1 j = b := by simpa using hy'.2
      rw [hbx, hby]

theorem SetOk_ge2_fuel_pos (th : TreeHasher) (ℓ : Nat) (S : List (Bytes × Bytes))
    (h : SetOk th ℓ 0 S) (h2 : 2 ≤ S.length) : False := by
  obtain ⟨hal, hpaths, hpw, hagree⟩ := h
  match S, h2 with
  | a :: b :: t, _ =>
    have hne : a.1 ≠ b.1 := by
      have := List.pairwise_cons.mp hpw
      exact this.1 b (List.mem_cons_self _ _)
    apply hne
    have ha := hpaths a (by simp)
    have hb := hpaths b (by simp)
    apply eq_of_bits_eq a.1 b.1 (by rw [ha.1, hb.1]) ha.2 hb.2
    intro j hj
    apply hagree a (by simp) b (by simp) j
    rw [ha.1] at hj
    omega

theorem cthash_nil (th : TreeHasher) (fuel ℓ : Nat) :
    cthash th fuel ℓ [] = th.zero_hash := by
  cases fuel <;> rfl

theorem cthash_singleton (th : TreeHasher) (fuel ℓ : Nat) (pv : Bytes × Bytes) :
    cthash th fuel ℓ [pv] = (th.digest_leaf pv.1 pv.2).1 := by
  cases fuel <;> rfl

theorem ctrecords_singleton (th : TreeHasher) (fuel ℓ : Nat) (pv : Bytes × Bytes) :
    ctrecords th fuel ℓ [pv] = [th.digest_leaf pv.1 pv.2] := by
  cases fuel <;> rfl

theorem cthash_node (th : TreeHasher) (fuel ℓ : Nat) (a b : Bytes × Bytes)
    (t : List (Bytes × Bytes)) :
    cthash th (fuel + 1) ℓ (a :: b :: t) =
      (th.digest_node (cthash th fuel (ℓ + 1) (childF ℓ 0 (a :: b :: t)))
        (cthash th fuel (ℓ + 1) (childF ℓ 1 (a :: b :: t)))).1 := rfl

theorem ctrecords_node (th : TreeHasher) (fuel ℓ : Nat) (a b : Bytes × Bytes)
    (t : List (Bytes × Bytes)) :
    ctrecords th (fuel + 1) ℓ (a :: b :: t) =
      th.digest_node (cthash th fuel (ℓ + 1) (childF ℓ 0 (a :: b :: t)))
          (cthash th fuel (ℓ + 1) (childF ℓ 1 (a :: b :: t))) ::
        (ctrecords th fuel (ℓ + 1) (childF ℓ 0 (a :: b :: t)) ++
          ctrecords th fuel (ℓ + 1) (childF ℓ 1 (a :: b :: t))) := rfl

theorem cthash_len (th : TreeHasher) (fuel ℓ : Nat) (S : List (Bytes × Bytes))
    (hok : HashOk th) (hso : SetOk th ℓ fuel S) :
    (cthash th fuel ℓ S).length = th.hasher.output_size := by
  match fuel, S with
  | _, [] =>
    rw [cthash_nil, hok.1]
    exact List.length_replicate _ _
  | _, [pv] =>
    rw [cthash_singleton]
    exact hok.2.2.1 _
  | 0, a :: b :: t =>
    exact (SetOk_ge2_fuel_pos th ℓ _ hso (by simp)).elim
  | fuel + 1, a :: b :: t =>
    rw [cthash_node]
    exact hok.2.2.1 _

theorem cthash_ne_zero (th : TreeHasher) (fuel ℓ : Nat) (S : List (Bytes × Bytes))
    (hok : HashOk th) (hso : SetOk th ℓ fuel S) (hne : S ≠ []) :
    cthash th fuel ℓ S ≠ th.zero_hash := by
  match fuel, S with
  | _, [] => exact absurd rfl hne
  | _, [pv] =>
    rw [cthash_singleton, hok.1]
    exact hok.2.2.2.1 _
  | 0, a :: b :: t =>
    exact (SetOk_ge2_fuel_pos th ℓ _ hso (by simp)).elim
  | fuel + 1, a :: b :: t =>
    rw [cthash_node, hok.1]
    exact hok.2.2.2.1 _

theorem pairwise_key_eq {α β : Type} (l : List (α × β)) (a b : α × β)
    (h : l.Pairwise (fun x y => x.1 ≠ y.1)) (ha : a ∈ l) (hb : b ∈ l)
    (hk : a.1 = b.1) : a = b := by
  induction l with
  | nil => cases ha
  | cons x t ih =>
    rcases List.mem_cons.mp ha with rfl | ha'
    · rcases List.mem_cons.mp hb with rfl | hb'
      · rfl
      · exact absurd hk ((List.pairwise_cons.mp h).1 b hb')
    · rcases List.mem_cons.mp hb with rfl | hb'
      · exact absurd hk.symm ((List.pairwise_cons.mp h).1 a ha')
      · exact ih (List.pairwise_cons.mp h).2 ha' hb'

theorem foldl_del_get (L : List Bytes) (st : Store) (k : Bytes) :
    (L.foldl (fun n d => n.del d) st).get k = if k ∈ L then none else st.get k := by
  induction L generalizing st with
  | nil => simp
  | cons d t ih =>
    rw [List.foldl_cons, ih]
    by_cases hk : k = d
    · subst hk
      by_cases hmem : k ∈ t
      · simp [hmem]
      · simp [hmem, Store.get_del_self]
    · by_cases hmem : k ∈ t
      · simp [hmem, hk]
      · simp [hmem, hk, Store.get_del_ne st d k hk]

theorem stored_self (th : TreeHasher) (nodes : Store) (fuel ℓ : Nat)
    (a b : Bytes × Bytes) (t : List (Bytes × Bytes))
    (hst : Stored th nodes (fuel + 1) ℓ (a :: b :: t)) :
    nodes.get (th.digest_node (cthash th fuel (ℓ + 1) (childF ℓ 0 (a :: b :: t)))
        (cthash th fuel (ℓ + 1) (childF ℓ 1 (a :: b :: t)))).1 =
      some (th.digest_node (cthash th fuel (ℓ + 1) (childF ℓ 0 (a :: b :: t)))
        (cthash th fuel (ℓ + 1) (childF ℓ 1 (a :: b :: t)))).2 := by
  apply hst
  rw [ctrecords_node]
  exact List.mem_cons_self _ _

theorem stored_child0 (th : TreeHasher) (nodes : Store) (fuel ℓ : Nat)
    (a b : Bytes × Bytes) (t : List (Bytes × Bytes))
    (hst : Stored th nodes (fuel + 1) ℓ (a :: b :: t)) :
    Stored th nodes fuel (ℓ + 1) (childF ℓ 0 (a :: b :: t)) := by
  intro r hr
  apply hst
  rw [ctrecords_node]
  exact List.mem_cons_of_mem _ (List.mem_append_left _ hr)

theorem stored_child1 (th : TreeHasher) (nodes : Store) (fuel ℓ : Nat)
    (a b : Bytes × Bytes) (t : List (Bytes × Bytes))
    (hst : Stored th nodes (fuel + 1) ℓ (a :: b :: t)) :
    Stored th nodes fuel (ℓ + 1) (childF ℓ 1 (a :: b :: t)) := by
  intro r hr
  apply hst
  rw [ctrecords_node]
  exact List.mem_cons_of_mem _ (List.mem_append_right _ hr)

theorem stored_leaf_mem (th : TreeHasher) (nodes : Store) (fuel ℓ : Nat)
    (S : List (Bytes × Bytes)) (pv : Bytes × Bytes)
    (hst : Stored th nodes fuel ℓ S) (hmem : S = [pv]) :
    nodes.get (th.digest_leaf pv.1 pv.2).1 = some (th.digest_leaf pv.1 pv.2).2 := by
  subst hmem
  apply hst
  rw [ctrecords_singleton]
  exact List.mem_singleton.mpr rfl


theorem parse_node_spec (th : TreeHasher) (l r : Bytes)
    (hlen : l.length = th.hasher.output_size) :
    th.parse_node (1 :: (l ++ r)) = (l, r) := by
  unfold TreeHasher.parse_node
  rw [← hlen]
  simp [List.take_left, List.drop_left]

theorem sidenodes_loop_canon (s : SMT) (p : Bytes) (hok : HashOk s.tree_hasher) :
    ∀ fuel ℓ (S : List (Bytes × Bytes)) (sn0 pn0 : List Bytes),
      SetOk s.tree_hasher ℓ (fuel + 1) S → 2 ≤ S.length →
      Stored s.tree_hasher s.nodes (fuel + 1) ℓ S →
      SMT.sidenodes_loop s p ℓ (fuel + 1)
          (1 :: (cthash s.tree_hasher fuel (ℓ + 1) (childF ℓ 0 S) ++
                 cthash s.tree_hasher fuel (ℓ + 1) (childF ℓ 1 S)))
          sn0 pn0 =
        some (sn0 ++ (descend s.tree_hasher p (fuel + 1) ℓ S).1,
              pn0 ++ (descend s.tree_hasher p (fuel + 1) ℓ S).2.1,
              (descend s.tree_hasher p (fuel + 1) ℓ S).2.2) := by
  intro fuel
  induction fuel with
  | zero =>
    intro ℓ S sn0 pn0 hso h2 hst
    match S, h2 with
    | a :: b :: t, _ =>
    conv_lhs => unfold SMT.sidenodes_loop
    unfold descend
    dsimp only
    rw [parse_node_spec _ _ _
      (cthash_len _ _ _ _ hok (SetOk_child _ _ _ _ hso 0))]
    by_cases hbit : get_msb_at p ℓ = 0
    · simp only [if_pos hbit]
      rcases hsc : childF ℓ 0 (a :: b :: t) with _ | ⟨qv, _ | ⟨q2, ct⟩⟩
      · rw [if_pos (by rw [cthash_nil]; rfl)]
        rw [cthash_nil]
        rfl
      · rw [if_neg (by
          rw [cthash_singleton]
          exact fun h => hok.2.2.2.1 _ (h.trans hok.1))]
        rw [cthash_singleton,
          stored_leaf_mem _ _ _ _ _ qv
            (by rw [← hsc]; exact stored_child0 _ _ _ _ _ _ _ hst) rfl]
        dsimp only
        rw [if_pos (by simp [TreeHasher.is_leaf, TreeHasher.digest_leaf])]
      · exact (SetOk_ge2_fuel_pos s.tree_hasher (ℓ + 1) (qv :: q2 :: ct)
          (by rw [← hsc]; exact SetOk_child _ _ _ _ hso 0) (by simp)).elim
    · simp only [if_neg hbit]
      rcases hsc : childF ℓ 1 (a :: b :: t) with _ | ⟨qv, _ | ⟨q2, ct⟩⟩
      · rw [if_pos (by rw [cthash_nil]; rfl)]
        rw [cthash_nil]
        rfl
      · rw [if_neg (by
          rw [cthash_singleton]
          exact fun h => hok.2.2.2.1 _ (h.trans hok.1))]
        rw [cthash_singleton,
          stored_leaf_mem _ _ _ _ _ qv
            (by rw [← hsc]; exact stored_child1 _ _ _ _ _ _ _ hst) rfl]
        dsimp only
        rw [if_pos (by simp [TreeHasher.is_leaf, TreeHasher.digest_leaf])]
      · exact (SetOk_ge2_fuel_pos s.tree_hasher (ℓ + 1) (qv :: q2 :: ct)
          (by rw [← hsc]; exact SetOk_child _ _ _ _ hso 1) (by simp)).elim
  | succ f ih =>
    intro ℓ S sn0 pn0 hso h2 hst
    match S, h2 with
    | a :: b :: t, _ =>
    conv_lhs => unfold SMT.sidenodes_loop
    unfold descend
    dsimp only
    rw [parse_node_spec _ _ _
      (cthash_len _ _ _ _ hok (SetOk_child _ _ _ _ hso 0))]
    by_cases hbit : get_msb_at p ℓ = 0
    · simp only [if_pos hbit]
      rcases hsc : childF ℓ 0 (a :: b :: t) with _ | ⟨qv, _ | ⟨q2, ct⟩⟩
      · rw [if_pos (by rw [cthash_nil]; rfl)]
        rw [cthash_nil]
        rfl
      · rw [if_neg (by
          rw [cthash_singleton]
          exact fun h => hok.2.2.2.1 _ (h.trans hok.1))]
        rw [cthash_singleton,
          stored_leaf_mem _ _ _ _ _ qv
            (by rw [← hsc]; exact stored_child0 _ _ _ _ _ _ _ hst) rfl]
        dsimp only
        rw [if_pos (by simp [TreeHasher.is_leaf, TreeHasher.digest_leaf])]
      · rw [if_neg (by
          exact cthash_ne_zero _ _ _ _ hok
            (by rw [← hsc]; exact SetOk_child _ _ _ _ hso 0) (by simp))]
        rw [cthash_node,
          stored_self _ _ _ _ _ _ _
            (by rw [← hsc]; exact stored_child0 _ _ _ _ _ _ _ hst)]
        dsimp only
        rw [if_neg (by simp [TreeHasher.is_leaf, TreeHasher.digest_node])]
        rw [show (s.tree_hasher.digest_node
            (cthash s.tree_hasher f (ℓ + 1 + 1) (childF (ℓ + 1) 0 (qv :: q2 :: ct)))
            (cthash s.tree_hasher f (ℓ + 1 + 1) (childF (ℓ + 1) 1 (qv :: q2 :: ct)))).2 =
          1 :: (cthash s.tree_hasher f (ℓ + 1 + 1) (childF (ℓ + 1) 0 (qv :: q2 :: ct)) ++
            cthash s.tree_hasher f (ℓ + 1 + 1) (childF (ℓ + 1) 1 (qv :: q2 :: ct))) from rfl]
        rw [ih (ℓ + 1) (qv :: q2 :: ct) _ _
          (by rw [← hsc]; exact SetOk_child _ _ _ _ hso 0) (by simp)
          (by rw [← hsc]; exact stored_child0 _ _ _ _ _ _ _ hst)]
        simp [List.append_assoc]
    · simp only [if_neg hbit]
      rcases hsc : childF ℓ 1 (a :: b :: t) with _ | ⟨qv, _ | ⟨q2, ct⟩⟩
      · rw [if_pos (by rw [cthash_nil]; rfl)]
        rw [cthash_nil]
        rfl
      · rw [if_neg (by
          rw [cthash_singleton]
          exact fun h => hok.2.2.2.1 _ (h.trans hok.1))]
        rw [cthash_singleton,
          stored_leaf_mem _ _ _ _ _ qv
            (by rw [← hsc]; exact stored_child1 _ _ _ _ _ _ _ hst) rfl]
        dsimp only
        rw [if_pos (by simp [TreeHasher.is_leaf, TreeHasher.digest_leaf])]
      · rw [if_neg (by
          exact cthash_ne_zero _ _ _ _ hok
            (by rw [← hsc]; exact SetOk_child _ _ _ _ hso 1) (by simp))]
        rw [cthash_node,
          stored_self _ _ _ _ _ _ _
            (by rw [← hsc]; exact stored_child1 _ _ _ _ _ _ _ hst)]
        dsimp only
        rw [if_neg (by simp [TreeHasher.is_leaf, TreeHasher.digest_node])]
        rw [show (s.tree_hasher.digest_node
            (cthash s.tree_hasher f (ℓ + 1 + 1) (childF (ℓ + 1) 0 (qv :: q2 :: ct)))
            (cthash s.tree_hasher f (ℓ + 1 + 1) (childF (ℓ + 1) 1 (qv :: q2 :: ct)))).2 =
          1 :: (cthash s.tree_hasher f (ℓ + 1 + 1) (childF (ℓ + 1) 0 (qv :: q2 :: ct)) ++
            cthash s.tree_hasher f (ℓ + 1 + 1) (childF (ℓ + 1) 1 (qv :: q2 :: ct))) from rfl]
        rw [ih (ℓ + 1) (qv :: q2 :: ct) _ _
          (by rw [← hsc]; exact SetOk_child _ _ _ _ hso 1) (by simp)
          (by rw [← hsc]; exact stored_child1 _ _ _ _ _ _ _ hst)]
        simp [List.append_assoc]

theorem Store.mem_del (s : Store) (k : Bytes) (kv : Bytes × Bytes) :
    kv ∈ s.del k ↔ kv ∈ s ∧ kv.1 ≠ k := by
  induction s with
  | nil => simp [Store.del]
  | cons hd tl ih =>
    match hd with
    | (k', v) =>
      unfold Store.del
      by_cases h : k' = k
      · subst h
        rw [if_pos rfl, ih]
        constructor
        · rintro ⟨h1, h2⟩
          exact ⟨List.mem_cons_of_mem _ h1, h2⟩
        · rintro ⟨h1, h2⟩
          rcases List.mem_cons.mp h1 with h1 | h1
          · subst h1
            exact absurd rfl h2
          · exact ⟨h1, h2⟩
      · rw [if_neg h]
        constructor
        · intro hm
          rcases List.mem_cons.mp hm with hm | hm
          · subst hm
            exact ⟨List.mem_cons_self _ _, h⟩
          · obtain ⟨h1, h2⟩ := ih.mp hm
            exact ⟨List.mem_cons_of_mem _ h1, h2⟩
        · rintro ⟨h1, h2⟩
          rcases List.mem_cons.mp h1 with h1 | h1
          · subst h1
            exact List.mem_cons_self _ _
          · exact List.mem_cons_of_mem _ (ih.mpr ⟨h1, h2⟩)

theorem Store.mem_insert (s : Store) (k v : Bytes) (kv : Bytes × Bytes) :
    kv ∈ s.insert k v ↔ kv = (k, v) ∨ (kv ∈ s ∧ kv.1 ≠ k) := by
  unfold Store.insert
  rw [List.mem_cons, Store.mem_del]

theorem KeysDistinct.del (s : Store) (k : Bytes) (h : KeysDistinct s) :
    KeysDistinct (s.del k) := by
  induction s with
  | nil => exact h
  | cons hd tl ih =>
    match hd with
    | (k', v) =>
      unfold Store.del
      rcases List.pairwise_cons.mp h with ⟨h1, h2⟩
      by_cases hk : k' = k
      · rw [if_pos hk]
        exact ih h2
      · rw [if_neg hk]
        refine List.pairwise_cons.mpr ⟨?_, ih h2⟩
        intro a ha
        exact h1 a ((Store.mem_del tl k a).mp ha).1

theorem KeysDistinct.insert (s : Store) (k v : Bytes) (h : KeysDistinct s) :
    KeysDistinct (s.insert k v) := by
  unfold Store.insert
  refine List.pairwise_cons.mpr ⟨?_, h.del s k⟩
  intro a ha
  intro hcon
  exact ((Store.mem_del s k a).mp ha).2 hcon.symm

theorem Store.get_iff_mem (s : Store) (k : Bytes) (v : Bytes)
    (h : KeysDistinct s) : s.get k = some v ↔ (k, v) ∈ s := by
  induction s with
  | nil => simp [Store.get]
  | cons hd tl ih =>
    match hd with
    | (k', v') =>
      rcases List.pairwise_cons.mp h with ⟨h1, h2⟩
      unfold Store.get
      by_cases hk : k' = k
      · subst hk
        rw [if_pos rfl]
        constructor
        · intro hv
          cases hv
          exact List.mem_cons_self _ _
        · intro hm
          rcases List.mem_cons.mp hm with hm | hm
          · cases hm
            rfl
          · exact absurd rfl (h1 (k', v) hm)
      · rw [if_neg hk, ih h2]
        constructor
        · exact fun hm => List.mem_cons_of_mem _ hm
        · intro hm
          rcases List.mem_cons.mp hm with hm | hm
          · cases hm
            exact absurd rfl hk
          · exact hm

theorem mem_foldl_del (K : List Bytes) :
    ∀ (st : Store) (kv : Bytes × Bytes),
      kv ∈ K.foldl (fun n d => n.del d) st ↔ kv ∈ st ∧ kv.1 ∉ K := by
  induction K with
  | nil => simp
  | cons k K ih =>
    intro st kv
    rw [List.foldl_cons, ih, Store.mem_del, List.mem_cons]
    constructor
    · rintro ⟨⟨h1, h2⟩, h3⟩
      exact ⟨h1, fun h => h.elim (fun h => h2 h) h3⟩
    · rintro ⟨h1, h2⟩
      exact ⟨⟨h1, fun h => h2 (Or.inl h)⟩, fun h => h2 (Or.inr h)⟩

theorem KeysDistinct.foldl_del (K : List Bytes) :
    ∀ (st : Store), KeysDistinct st →
      KeysDistinct (K.foldl (fun n d => n.del d) st) := by
  induction K with
  | nil => exact fun st h => h
  | cons k K ih =>
    intro st h
    exact ih _ (h.del st k)

theorem mem_insertAll (rs : List (Bytes × Bytes)) :
    ∀ (st : Store) (kv : Bytes × Bytes),
      rs.Pairwise (fun a b => a.1 ≠ b.1) →
      (kv ∈ insertAll st rs ↔
        kv ∈ rs ∨ (kv ∈ st ∧ kv.1 ∉ rs.map Prod.fst)) := by
  induction rs with
  | nil => simp [insertAll]
  | cons r rs ih =>
    intro st kv h
    rcases List.pairwise_cons.mp h with ⟨h1, h2⟩
    have hstep : insertAll st (r :: rs) = insertAll (st.insert r.1 r.2) rs := rfl
    rw [hstep, ih _ _ h2, Store.mem_insert]
    simp only [List.mem_cons, List.map_cons, List.mem_map]
    constructor
    · rintro (hm | ⟨(hr | ⟨hm, hne⟩), hnk⟩)
      · exact Or.inl (Or.inr hm)
      · exact Or.inl (Or.inl (by rw [hr]))
      · refine Or.inr ⟨hm, ?_⟩
        intro hcon
        rcases hcon with hcon | ⟨x, hx, hxe⟩
        · exact hne hcon
        · exact hnk ⟨x, hx, hxe⟩
    · rintro ((hr | hm) | ⟨hm, hnk⟩)
      · subst hr
        refine Or.inr ⟨Or.inl rfl, ?_⟩
        intro ⟨x, hx, hxe⟩
        exact h1 x hx hxe.symm
      · exact Or.inl hm
      · refine Or.inr ⟨Or.inr ⟨hm, fun hc => hnk (Or.inl hc)⟩,
          fun hc => hnk (Or.inr hc)⟩

theorem KeysDistinct.insertAll (rs : List (Bytes × Bytes)) :
    ∀ (st : Store), KeysDistinct st → KeysDistinct (SMTVerif.insertAll st rs) := by
  induction rs with
  | nil => exact fun st h => h
  | cons r rs ih =>
    intro st h
    exact ih _ (h.insert st r.1 r.2)

theorem cthash_perm (th : TreeHasher) :
    ∀ (fuel ℓ : Nat) (S1 S2 : List (Bytes × Bytes)), S1.Perm S2 →
      cthash th fuel ℓ S1 = cthash th fuel ℓ S2 := by
  intro fuel
  induction fuel with
  | zero =>
    intro ℓ S1 S2 h
    have hlen := h.length_eq
    match S1, S2, hlen with
    | [], [], _ => rfl
    | [a], [b], _ =>
      have hab : a = b := by
        have := List.perm_singleton.mp h
        exact (List.cons_eq_cons.mp this).1
      rw [hab]
    | a1 :: a2 :: t1, b1 :: b2 :: t2, _ => rfl
  | succ f ih =>
    intro ℓ S1 S2 h
    have hlen := h.length_eq
    match S1, S2, hlen with
    | [], [], _ => rfl
    | [a], [b], _ =>
      have hab : a = b := by
        have := List.perm_singleton.mp h
        exact (List.cons_eq_cons.mp this).1
      rw [hab]
    | a1 :: a2 :: t1, b1 :: b2 :: t2, _ =>
      rw [cthash_node, cthash_node,
        ih (ℓ + 1) (childF ℓ 0 (a1 :: a2 :: t1)) (childF ℓ 0 (b1 :: b2 :: t2))
          (List.Perm.filter _ h),
        ih (ℓ + 1) (childF ℓ 1 (a1 :: a2 :: t1)) (childF ℓ 1 (b1 :: b2 :: t2))
          (List.Perm.filter _ h)]

theorem common_prefix_aux_lb (v1 v2 : Bytes) :
    ∀ (fuel i count : Nat), count ≤ common_prefix_aux v1 v2 i fuel count := by
  intro fuel
  induction fuel with
  | zero => intro i count; exact Nat.le_refl _
  | succ f ih =>
    intro i count
    unfold common_prefix_aux
    by_cases h : get_msb_at v1 i = get_msb_at v2 i
    · rw [if_pos h]
      exact Nat.le_trans (Nat.le_succ _) (ih (i + 1) (count + 1))
    · rw [if_neg h]

theorem common_prefix_aux_agrees (v1 v2 : Bytes) :
    ∀ (fuel i count j : Nat),
      j < common_prefix_aux v1 v2 i fuel count - count →
      get_msb_at v1 (i + j) = get_msb_at v2 (i + j) := by
  intro fuel
  induction fuel with
  | zero =>
    intro i count j hj
    unfold common_prefix_aux at hj
    omega
  | succ f ih =>
    intro i count j hj
    unfold common_prefix_aux at hj
    by_cases h : get_msb_at v1 i = get_msb_at v2 i
    · rw [if_pos h] at hj
      match j with
      | 0 => exact h
      | j + 1 =>
        have := ih (i + 1) (count + 1) j (by
          have hlb := common_prefix_aux_lb v1 v2 f (i + 1) (count + 1)
          omega)
        rw [show i + (j + 1) = i + 1 + j from by omega]
        exact this
    · rw [if_neg h] at hj
      omega

theorem common_prefix_aux_stop (v1 v2 : Bytes) :
    ∀ (fuel i count : Nat),
      common_prefix_aux v1 v2 i fuel count - count < fuel →
      get_msb_at v1 (i + (common_prefix_aux v1 v2 i fuel count - count)) ≠
        get_msb_at v2 (i + (common_prefix_aux v1 v2 i fuel count - count)) := by
  intro fuel
  induction fuel with
  | zero =>
    intro i count h
    omega
  | succ f ih =>
    intro i count h
    unfold common_prefix_aux at h ⊢
    by_cases hb : get_msb_at v1 i = get_msb_at v2 i
    · rw [if_pos hb] at h ⊢
      have hlb := common_prefix_aux_lb v1 v2 f (i + 1) (count + 1)
      have hrec := ih (i + 1) (count + 1) (by omega)
      have heq : i + (common_prefix_aux v1 v2 (i + 1) f (count + 1) - count) =
          i + 1 + (common_prefix_aux v1 v2 (i + 1) f (count + 1) - (count + 1)) := by
        omega
      rw [heq]
      exact hrec
    · rw [if_neg hb] at h ⊢
      have : count - count = 0 := by omega
      rw [this, Nat.add_zero]
      exact hb

theorem common_prefix_aux_ge (v1 v2 : Bytes) :
    ∀ (fuel i count m : Nat), m ≤ fuel →
      (∀ j < m, get_msb_at v1 (i + j) = get_msb_at v2 (i + j)) →
      count + m ≤ common_prefix_aux v1 v2 i fuel count := by
  intro fuel
  induction fuel with
  | zero =>
    intro i count m hm _
    have : m = 0 := by omega
    subst this
    simp [common_prefix_aux]
  | succ f ih =>
    intro i count m hm hagree
    match m with
    | 0 => simpa using common_prefix_aux_lb v1 v2 (f + 1) i count
    | m + 1 =>
      unfold common_prefix_aux
      have h0 : get_msb_at v1 i = get_msb_at v2 i := by
        have := hagree 0 (by omega)
        simpa using this
      rw [if_pos h0]
      have := ih (i + 1) (count + 1) m (by omega) (by
        intro j hj
        have := hagree (j + 1) (by omega)
        rw [show i + (j + 1) = i + 1 + j from by omega] at this
        exact this)
      omega

theorem common_prefix_len_agrees (v1 v2 : Bytes) (j : Nat)
    (hj : j < common_prefix_len v1 v2) :
    get_msb_at v1 j = get_msb_at v2 j := by
  have := common_prefix_aux_agrees v1 v2 (v1.length * 8) 0 0 j (by
    unfold common_prefix_len at hj
    omega)
  simpa using this

theorem common_prefix_len_stop (v1 v2 : Bytes)
    (h : common_prefix_len v1 v2 < v1.length * 8) :
    get_msb_at v1 (common_prefix_len v1 v2) ≠
      get_msb_at v2 (common_prefix_len v1 v2) := by
  have := common_prefix_aux_stop v1 v2 (v1.length * 8) 0 0 (by
    unfold common_prefix_len at h
    omega)
  unfold common_prefix_len at *
  simpa using this

theorem common_prefix_len_ge (v1 v2 : Bytes) (m : Nat) (hm : m ≤ v1.length * 8)
    (hagree : ∀ j < m, get_msb_at v1 j = get_msb_at v2 j) :
    m ≤ common_prefix_len v1 v2 := by
  have := common_prefix_aux_ge v1 v2 (v1.length * 8) 0 0 m hm (by
    intro j hj
    simpa using hagree j hj)
  simpa using this

theorem ctrecords_nil (th : TreeHasher) (fuel ℓ : Nat) :
    ctrecords th fuel ℓ [] = [] := by
  cases fuel <;> rfl

theorem get_msb_at_zero_or_one (v : Bytes) (i : Nat) :
    get_msb_at v i = 0 ∨ get_msb_at v i = 1 := by
  unfold get_msb_at
  by_cases h : Nat.testBit (v.getD (i / 8) 0) (7 - i % 8)
  · rw [if_pos h]
    right
    rfl
  · rw [if_neg h]
    left
    rfl

theorem chain_segR_peel (th : TreeHasher) (p : Bytes) :
    ∀ (k ℓ : Nat) (c : Bytes),
      chain_segR th p ℓ (k + 1) c =
        ((if get_msb_at p ℓ = 0 then
            th.digest_node (chain_segR th p (ℓ + 1) k c).1 th.zero_hash
          else
            th.digest_node th.zero_hash (chain_segR th p (ℓ + 1) k c).1).1,
         (chain_segR th p (ℓ + 1) k c).2 ++
           [if get_msb_at p ℓ = 0 then
              th.digest_node (chain_segR th p (ℓ + 1) k c).1 th.zero_hash
            else
              th.digest_node th.zero_hash (chain_segR th p (ℓ + 1) k c).1]) := by
  intro k
  induction k with
  | zero =>
    intro ℓ c
    simp [chain_segR]
  | succ k ih =>
    intro ℓ c
    have harg : ℓ + (k + 1) = ℓ + 1 + k := by omega
    have h1 : (chain_segR th p (ℓ + 1) (k + 1) c).1 =
        (chain_segR th p (ℓ + 1) k
          ((if get_msb_at p (ℓ + 1 + k) = 0 then th.digest_node c th.zero_hash
            else th.digest_node th.zero_hash c).1)).1 := rfl
    have h2 : (chain_segR th p (ℓ + 1) (k + 1) c).2 =
        (if get_msb_at p (ℓ + 1 + k) = 0 then th.digest_node c th.zero_hash
          else th.digest_node th.zero_hash c) ::
        (chain_segR th p (ℓ + 1) k
          ((if get_msb_at p (ℓ + 1 + k) = 0 then th.digest_node c th.zero_hash
            else th.digest_node th.zero_hash c).1)).2 := rfl
    conv_lhs => unfold chain_segR
    dsimp only
    rw [ih ℓ _, harg]
    rw [Prod.ext_iff]
    constructor
    · dsimp only
      rw [h1]
    · dsimp only
      rw [h2, h1]
      simp

theorem cthash_pair (th : TreeHasher) (p vh q w : Bytes)
    (hplen : p.length = th.hasher.output_size)
    (hqlen : q.length = th.hasher.output_size)
    (hpb : ∀ b ∈ p, b < 256) (hqb : ∀ b ∈ q, b < 256)
    (hne : q ≠ p) :
    ∀ (fuel ℓ : Nat), ℓ + fuel = th.hasher.output_size * 8 →
      ℓ ≤ common_prefix_len q p →
      cthash th fuel ℓ [(p, vh), (q, w)] =
        (chain_segR th p ℓ (common_prefix_len q p - ℓ)
          (if get_msb_at p (common_prefix_len q p) = 0 then
            (th.digest_node (th.digest_leaf p vh).1 (th.digest_leaf q w).1).1
          else
            (th.digest_node (th.digest_leaf q w).1 (th.digest_leaf p vh).1).1)).1 := by
  have hcpl : common_prefix_len q p < th.hasher.output_size * 8 := by
    have := common_prefix_len_lt_of_ne q p (hqlen.trans hplen.symm) hqb hpb hne
    rw [hqlen] at this
    exact this
  intro fuel
  induction fuel with
  | zero =>
    intro ℓ hal hle
    omega
  | succ f ih =>
    intro ℓ hal hle
    by_cases hstop : ℓ = common_prefix_len q p
    · subst hstop
      have hdiff : get_msb_at q (common_prefix_len q p) ≠
          get_msb_at p (common_prefix_len q p) := by
        apply common_prefix_len_stop q p
        rw [hqlen]
        exact hcpl
      rw [cthash_node]
      rw [Nat.sub_self]
      show _ = (if get_msb_at p (common_prefix_len q p) = 0 then
          (th.digest_node (th.digest_leaf p vh).1 (th.digest_leaf q w).1).1
        else
          (th.digest_node (th.digest_leaf q w).1 (th.digest_leaf p vh).1).1)
      rcases get_msb_at_zero_or_one p (common_prefix_len q p) with hbp | hbp
      · have hbq : get_msb_at q (common_prefix_len q p) = 1 := by
          rcases get_msb_at_zero_or_one q (common_prefix_len q p) with h | h
          · rw [h, hbp] at hdiff
            exact absurd rfl hdiff
          · exact h
        have hc0 : childF (common_prefix_len q p) 0 [(p, vh), (q, w)] = [(p, vh)] := by
          simp [childF, hbp, hbq]
        have hc1 : childF (common_prefix_len q p) 1 [(p, vh), (q, w)] = [(q, w)] := by
          simp [childF, hbp, hbq]
        rw [hc0, hc1, cthash_singleton, cthash_singleton, if_pos hbp]
      · have hbq : get_msb_at q (common_prefix_len q p) = 0 := by
          rcases get_msb_at_zero_or_one q (common_prefix_len q p) with h | h
          · exact h
          · rw [h, hbp] at hdiff
            exact absurd rfl hdiff
        have hc0 : childF (common_prefix_len q p) 0 [(p, vh), (q, w)] = [(q, w)] := by
          simp [childF, hbp, hbq]
        have hc1 : childF (common_prefix_len q p) 1 [(p, vh), (q, w)] = [(p, vh)] := by
          simp [childF, hbp, hbq]
        rw [hc0, hc1, cthash_singleton, cthash_singleton,
          if_neg (by rw [hbp]; exact one_ne_zero)]
    · have hlt : ℓ < common_prefix_len q p := by omega
      have hagree : get_msb_at q ℓ = get_msb_at p ℓ := common_prefix_len_agrees q p ℓ hlt
      have hk : common_prefix_len q p - ℓ = (common_prefix_len q p - (ℓ + 1)) + 1 := by
        omega
      rw [cthash_node, hk, chain_segR_peel]
      dsimp only
      rw [← ih (ℓ + 1) (by omega) (by omega)]
      rcases get_msb_at_zero_or_one p ℓ with hbp | hbp
      · have hbq : get_msb_at q ℓ = 0 := by rw [hagree, hbp]
        have hc0 : childF ℓ 0 [(p, vh), (q, w)] = [(p, vh), (q, w)] := by
          simp [childF, hbp, hbq]
        have hc1 : childF ℓ 1 [(p, vh), (q, w)] = [] := by
          simp [childF, hbp, hbq]
        rw [hc0, hc1, cthash_nil, if_pos hbp]
      · have hbq : get_msb_at q ℓ = 1 := by rw [hagree, hbp]
        have hc0 : childF ℓ 0 [(p, vh), (q, w)] = [] := by
          simp [childF, hbp, hbq]
        have hc1 : childF ℓ 1 [(p, vh), (q, w)] = [(p, vh), (q, w)] := by
          simp [childF, hbp, hbq]
        rw [hc0, hc1, cthash_nil, if_neg (by rw [hbp]; exact one_ne_zero)]

set_option maxHeartbeats 1600000 in
theorem ctrecords_pair (th : TreeHasher) (p vh q w : Bytes)
    (hplen : p.length = th.hasher.output_size)
    (hqlen : q.length = th.hasher.output_size)
    (hpb : ∀ b ∈ p, b < 256) (hqb : ∀ b ∈ q, b < 256)
    (hne : q ≠ p) :
    ∀ (fuel ℓ : Nat), ℓ + fuel = th.hasher.output_size * 8 →
      ℓ ≤ common_prefix_len q p →
      ∀ r, r ∈ ctrecords th fuel ℓ [(p, vh), (q, w)] ↔
        (r = th.digest_leaf p vh ∨ r = th.digest_leaf q w ∨
         r = (if get_msb_at p (common_prefix_len q p) = 0 then
                th.digest_node (th.digest_leaf p vh).1 (th.digest_leaf q w).1
              else th.digest_node (th.digest_leaf q w).1 (th.digest_leaf p vh).1) ∨
         r ∈ (chain_segR th p ℓ (common_prefix_len q p - ℓ)
               (if get_msb_at p (common_prefix_len q p) = 0 then
                 (th.digest_node (th.digest_leaf p vh).1 (th.digest_leaf q w).1).1
               else
                 (th.digest_node (th.digest_leaf q w).1 (th.digest_leaf p vh).1).1)).2) := by
  have hcpl : common_prefix_len q p < th.hasher.output_size * 8 := by
    have := common_prefix_len_lt_of_ne q p (hqlen.trans hplen.symm) hqb hpb hne
    rw [hqlen] at this
    exact this
  intro fuel
  induction fuel with
  | zero =>
    intro ℓ hal hle
    exact (by omega : False).elim
  | succ f ih =>
    intro ℓ hal hle r
    by_cases hstop : ℓ = common_prefix_len q p
    · subst hstop
      have hdiff : get_msb_at q (common_prefix_len q p) ≠
          get_msb_at p (common_prefix_len q p) := by
        apply common_prefix_len_stop q p
        rw [hqlen]
        exact hcpl
      rw [ctrecords_node, Nat.sub_self]
      have hch : ∀ x, (chain_segR th p (common_prefix_len q p) 0 x).2 = [] :=
        fun x => rfl
      rcases get_msb_at_zero_or_one p (common_prefix_len q p) with hbp | hbp
      · have hbq : get_msb_at q (common_prefix_len q p) = 1 := by
          rcases get_msb_at_zero_or_one q (common_prefix_len q p) with h | h
          · rw [h, hbp] at hdiff
            exact absurd rfl hdiff
          · exact h
        have hc0 : childF (common_prefix_len q p) 0 [(p, vh), (q, w)] = [(p, vh)] := by
          simp [childF, hbp, hbq]
        have hc1 : childF (common_prefix_len q p) 1 [(p, vh), (q, w)] = [(q, w)] := by
          simp [childF, hbp, hbq]
        rw [hc0, hc1, cthash_singleton, cthash_singleton,
          ctrecords_singleton, ctrecords_singleton]
        simp only [if_pos hbp, hch, List.mem_cons, List.mem_append,
          List.mem_singleton, List.not_mem_nil]
        tauto
      · have hbq : get_msb_at q (common_prefix_len q p) = 0 := by
          rcases get_msb_at_zero_or_one q (common_prefix_len q p) with h | h
          · exact h
          · rw [h, hbp] at hdiff
            exact absurd rfl hdiff
        have hc0 : childF (common_prefix_len q p) 0 [(p, vh), (q, w)] = [(q, w)] := by
          simp [childF, hbp, hbq]
        have hc1 : childF (common_prefix_len q p) 1 [(p, vh), (q, w)] = [(p, vh)] := by
          simp [childF, hbp, hbq]
        rw [hc0, hc1, cthash_singleton, cthash_singleton,
          ctrecords_singleton, ctrecords_singleton]
        simp only [if_neg (show ¬ get_msb_at p (common_prefix_len q p) = 0 from by rw [hbp]; exact one_ne_zero), hch,
          List.mem_cons, List.mem_append, List.mem_singleton, List.not_mem_nil]
        tauto
    · have hlt : ℓ < common_prefix_len q p := by omega
      have hagree : get_msb_at q ℓ = get_msb_at p ℓ := common_prefix_len_agrees q p ℓ hlt
      have hk : common_prefix_len q p - ℓ = (common_prefix_len q p - (ℓ + 1)) + 1 := by
        omega
      rw [ctrecords_node, hk, chain_segR_peel]
      dsimp only
      have hihm := ih (ℓ + 1) (by omega) (by omega) r
      have hihv := cthash_pair th p vh q w hplen hqlen hpb hqb hne f (ℓ + 1)
        (by omega) (by omega)
      rcases get_msb_at_zero_or_one p ℓ with hbp | hbp
      · have hbq : get_msb_at q ℓ = 0 := by rw [hagree, hbp]
        have hc0 : childF ℓ 0 [(p, vh), (q, w)] = [(p, vh), (q, w)] := by
          simp [childF, hbp, hbq]
        have hc1 : childF ℓ 1 [(p, vh), (q, w)] = [] := by
          simp [childF, hbp, hbq]
        rw [hc0, hc1, cthash_nil, hihv, ctrecords_nil]
        simp only [if_pos hbp, List.mem_cons, List.mem_append,
          List.mem_singleton, List.not_mem_nil, List.append_nil]
        rw [hihm]
        tauto
      · have hbq : get_msb_at q ℓ = 1 := by rw [hagree, hbp]
        have hc0 : childF ℓ 0 [(p, vh), (q, w)] = [] := by
          simp [childF, hbp, hbq]
        have hc1 : childF ℓ 1 [(p, vh), (q, w)] = [(p, vh), (q, w)] := by
          simp [childF, hbp, hbq]
        rw [hc0, hc1, cthash_nil, hihv, ctrecords_nil]
        simp only [if_neg (show ¬ get_msb_at p ℓ = 0 from by rw [hbp]; exact one_ne_zero),
          List.mem_cons, List.mem_append, List.mem_singleton, List.not_mem_nil,
          List.nil_append]
        rw [hihm]
        tauto

theorem combineUp_snoc (th : TreeHasher) (p : Bytes) :
    ∀ (l : List Bytes) (ℓ0 : Nat) (x : Bytes) (c : Bytes),
      combineUp th p ℓ0 (l ++ [x]) c =
        ((if get_msb_at p ℓ0 = 0 then
            th.digest_node (combineUp th p (ℓ0 + 1) l c).1 x
          else th.digest_node x (combineUp th p (ℓ0 + 1) l c).1).1,
         (combineUp th p (ℓ0 + 1) l c).2 ++
           [if get_msb_at p ℓ0 = 0 then
              th.digest_node (combineUp th p (ℓ0 + 1) l c).1 x
            else th.digest_node x (combineUp th p (ℓ0 + 1) l c).1]) := by
  intro l
  induction l with
  | nil =>
    intro ℓ0 x c
    simp [combineUp]
  | cons sd l ih =>
    intro ℓ0 x c
    have hlen : ((l ++ [x]).length : Nat) = l.length + 1 := by simp
    have h1 : combineUp th p ℓ0 (sd :: (l ++ [x])) c =
        ((combineUp th p ℓ0 (l ++ [x])
            ((if get_msb_at p (ℓ0 + (l ++ [x]).length) = 0 then
                th.digest_node c sd
              else th.digest_node sd c).1)).1,
         (if get_msb_at p (ℓ0 + (l ++ [x]).length) = 0 then
            th.digest_node c sd
          else th.digest_node sd c) ::
         (combineUp th p ℓ0 (l ++ [x])
            ((if get_msb_at p (ℓ0 + (l ++ [x]).length) = 0 then
                th.digest_node c sd
              else th.digest_node sd c).1)).2) := rfl
    have h2 : combineUp th p (ℓ0 + 1) (sd :: l) c =
        ((combineUp th p (ℓ0 + 1) l
            ((if get_msb_at p (ℓ0 + 1 + l.length) = 0 then
                th.digest_node c sd
              else th.digest_node sd c).1)).1,
         (if get_msb_at p (ℓ0 + 1 + l.length) = 0 then
            th.digest_node c sd
          else th.digest_node sd c) ::
         (combineUp th p (ℓ0 + 1) l
            ((if get_msb_at p (ℓ0 + 1 + l.length) = 0 then
                th.digest_node c sd
              else th.digest_node sd c).1)).2) := rfl
    show combineUp th p ℓ0 (sd :: (l ++ [x])) c = _
    rw [h1, ih, h2]
    rw [hlen, show ℓ0 + (l.length + 1) = ℓ0 + 1 + l.length from by omega]
    simp

theorem childF_cons (ℓ b : Nat) (pv : Bytes × Bytes) (S : List (Bytes × Bytes)) :
    childF ℓ b (pv :: S) =
      if get_msb_at pv.1 ℓ = b then pv :: childF ℓ b S else childF ℓ b S := by
  unfold childF
  rw [List.filter_cons]
  by_cases h : get_msb_at pv.1 ℓ = b
  · rw [if_pos (by simpa using h), if_pos h]
  · rw [if_neg (by simpa using h), if_neg h]

theorem childF_subset (ℓ b : Nat) (S : List (Bytes × Bytes)) :
    ∀ pv ∈ childF ℓ b S, pv ∈ S :=
  fun _ h => List.mem_of_mem_filter h

theorem SetOk_cons (th : TreeHasher) (ℓ fuel : Nat) (S : List (Bytes × Bytes))
    (p vh : Bytes) (hso : SetOk th ℓ fuel S)
    (hplen : p.length = th.hasher.output_size)
    (hpb : ∀ b ∈ p, b < 256)
    (hfresh : p ∉ S.map Prod.fst)
    (hag : ∀ qv ∈ S, ∀ j < ℓ, get_msb_at p j = get_msb_at qv.1 j) :
    SetOk th ℓ fuel ((p, vh) :: S) := by
  obtain ⟨h1, h2, h3, h4⟩ := hso
  refine ⟨h1, ?_, ?_, ?_⟩
  · intro pv hpv
    rcases List.mem_cons.mp hpv with h | h
    · subst h
      exact ⟨hplen, hpb⟩
    · exact h2 pv h
  · refine List.pairwise_cons.mpr ⟨?_, h3⟩
    intro a ha hcon
    exact hfresh (List.mem_map.mpr ⟨a, ha, hcon.symm⟩)
  · intro a ha b hb j hj
    rcases List.mem_cons.mp ha with ha | ha <;>
      rcases List.mem_cons.mp hb with hb | hb
    · subst ha; subst hb; rfl
    · subst ha
      exact hag b hb j hj
    · subst hb
      exact (hag a ha j hj).symm
    · exact h4 a ha b hb j hj

theorem ctrecords_mem_leaf (th : TreeHasher) :
    ∀ (fuel ℓ : Nat) (S : List (Bytes × Bytes)), SetOk th ℓ fuel S →
      ∀ qv ∈ S, th.digest_leaf qv.1 qv.2 ∈ ctrecords th fuel ℓ S := by
  intro fuel
  induction fuel with
  | zero =>
    intro ℓ S hso qv hqv
    match S, hqv with
    | [pv], hqv =>
      rcases List.mem_singleton.mp hqv with h
      subst h
      rw [ctrecords_singleton]
      exact List.mem_singleton.mpr rfl
    | a :: b :: t, hqv =>
      exact (SetOk_ge2_fuel_pos th ℓ (a :: b :: t) hso (by simp)).elim
  | succ f ih =>
    intro ℓ S hso qv hqv
    match S, hqv with
    | [pv], hqv =>
      rcases List.mem_singleton.mp hqv with h
      subst h
      rw [ctrecords_singleton]
      exact List.mem_singleton.mpr rfl
    | a :: b :: t, hqv =>
      rw [ctrecords_node]
      refine List.mem_cons_of_mem _ (List.mem_append.mpr ?_)
      rcases get_msb_at_zero_or_one qv.1 ℓ with hb | hb
      · left
        refine ih (ℓ + 1) _ (SetOk_child th ℓ f (a :: b :: t) hso 0) qv ?_
        unfold childF
        exact List.mem_filter.mpr ⟨hqv, by simp [hb]⟩
      · right
        refine ih (ℓ + 1) _ (SetOk_child th ℓ f (a :: b :: t) hso 1) qv ?_
        unfold childF
        exact List.mem_filter.mpr ⟨hqv, by simp [hb]⟩

theorem dpath_nil (th : TreeHasher) (p : Bytes) (fuel ℓ : Nat) :
    dpath th p fuel ℓ [] = [] := by
  cases fuel <;> rfl

theorem dpath_singleton (th : TreeHasher) (p : Bytes) (fuel ℓ : Nat)
    (pv : Bytes × Bytes) : dpath th p fuel ℓ [pv] = [] := by
  cases fuel <;> rfl

theorem dpath_node (th : TreeHasher) (p : Bytes) (fuel ℓ : Nat)
    (a b : Bytes × Bytes) (t : List (Bytes × Bytes)) :
    dpath th p (fuel + 1) ℓ (a :: b :: t) =
      th.digest_node (cthash th fuel (ℓ + 1) (childF ℓ 0 (a :: b :: t)))
          (cthash th fuel (ℓ + 1) (childF ℓ 1 (a :: b :: t))) ::
        dpath th p fuel (ℓ + 1)
          (if get_msb_at p ℓ = 0 then childF ℓ 0 (a :: b :: t)
           else childF ℓ 1 (a :: b :: t)) := rfl

theorem dpath_subset (th : TreeHasher) (p : Bytes) :
    ∀ (fuel ℓ : Nat) (S : List (Bytes × Bytes)),
      ∀ r ∈ dpath th p fuel ℓ S, r ∈ ctrecords th fuel ℓ S := by
  intro fuel
  induction fuel with
  | zero =>
    intro ℓ S r hr
    match S with
    | [] => rw [dpath_nil] at hr; cases hr
    | [pv] => rw [dpath_singleton] at hr; cases hr
    | a :: b :: t => cases hr
  | succ f ih =>
    intro ℓ S r hr
    match S with
    | [] => rw [dpath_nil] at hr; cases hr
    | [pv] => rw [dpath_singleton] at hr; cases hr
    | a :: b :: t =>
      rw [dpath_node] at hr
      rw [ctrecords_node]
      rcases List.mem_cons.mp hr with hr | hr
      · exact List.mem_cons.mpr (Or.inl hr)
      · refine List.mem_cons_of_mem _ (List.mem_append.mpr ?_)
        by_cases hbit : get_msb_at p ℓ = 0
        · rw [if_pos hbit] at hr
          exact Or.inl (ih (ℓ + 1) _ r hr)
        · rw [if_neg hbit] at hr
          exact Or.inr (ih (ℓ + 1) _ r hr)

theorem dpath_shape (th : TreeHasher) (p : Bytes) :
    ∀ (fuel ℓ : Nat) (S : List (Bytes × Bytes)),
      ∀ r ∈ dpath th p fuel ℓ S, ∃ x y, r = th.digest_node x y := by
  intro fuel
  induction fuel with
  | zero =>
    intro ℓ S r hr
    match S with
    | [] => rw [dpath_nil] at hr; cases hr
    | [pv] => rw [dpath_singleton] at hr; cases hr
    | a :: b :: t => cases hr
  | succ f ih =>
    intro ℓ S r hr
    match S with
    | [] => rw [dpath_nil] at hr; cases hr
    | [pv] => rw [dpath_singleton] at hr; cases hr
    | a :: b :: t =>
      rw [dpath_node] at hr
      rcases List.mem_cons.mp hr with hr | hr
      · exact ⟨_, _, hr⟩
      · by_cases hbit : get_msb_at p ℓ = 0
        · rw [if_pos hbit] at hr
          exact ih (ℓ + 1) _ r hr
        · rw [if_neg hbit] at hr
          exact ih (ℓ + 1) _ r hr

theorem pairwise_of_global {α : Type} (P : α → α → Prop) :
    ∀ (l : List α), (∀ a ∈ l, ∀ b ∈ l, P a b) → l.Pairwise P := by
  intro l
  induction l with
  | nil => intro _; exact List.Pairwise.nil
  | cons a l ih =>
    intro h
    refine List.pairwise_cons.mpr ⟨?_, ?_⟩
    · intro b hb
      exact h a (List.mem_cons_self _ _) b (List.mem_cons_of_mem _ hb)
    · exact ih fun x hx y hy =>
        h x (List.mem_cons_of_mem _ hx) y (List.mem_cons_of_mem _ hy)


theorem pairwise_append_disjoint {l1 l2 : List (Bytes × Bytes)}
    (h : (l1 ++ l2).Pairwise (fun x y => x.1 ≠ y.1)) :
    ∀ r ∈ l1, r ∉ l2 := by
  intro r h1 h2
  exact (List.pairwise_append.mp h).2.2 r h1 r h2 rfl

theorem pairwise_head_ne {x : Bytes × Bytes} {l : List (Bytes × Bytes)}
    (h : (x :: l).Pairwise (fun a b => a.1 ≠ b.1)) : ∀ r ∈ l, r ≠ x := by
  intro r hr he
  exact (List.pairwise_cons.mp h).1 r hr (by rw [he])

set_option maxHeartbeats 2000000 in
theorem cthash_insert_canon (th : TreeHasher) (p vh : Bytes)
    (hplen : p.length = th.hasher.output_size)
    (hpb : ∀ x ∈ p, x < 256) :
    ∀ (fuel ℓ : Nat) (S : List (Bytes × Bytes)),
      SetOk th ℓ fuel S → 2 ≤ S.length →
      p ∉ S.map Prod.fst →
      (∀ qv ∈ S, ∀ j < ℓ, get_msb_at p j = get_msb_at qv.1 j) →
      (ctrecords th fuel ℓ S).Pairwise (fun x y => x.1 ≠ y.1) →
      (cthash th fuel ℓ ((p, vh) :: S) =
        (combineUp th p ℓ ((descend th p fuel ℓ S).1.reverse)
          (insBase th p vh (ℓ + (descend th p fuel ℓ S).1.length)
            (descend th p fuel ℓ S).2.2).1).1 ∧
       ∀ r, r ∈ ctrecords th fuel ℓ ((p, vh) :: S) ↔
         (r ∈ (combineUp th p ℓ ((descend th p fuel ℓ S).1.reverse)
             (insBase th p vh (ℓ + (descend th p fuel ℓ S).1.length)
               (descend th p fuel ℓ S).2.2).1).2 ∨
          r ∈ (insBase th p vh (ℓ + (descend th p fuel ℓ S).1.length)
               (descend th p fuel ℓ S).2.2).2 ∨
          (r ∈ ctrecords th fuel ℓ S ∧ r ∉ dpath th p fuel ℓ S))) := by
  intro fuel
  induction fuel with
  | zero =>
    intro ℓ S hso h2 _ _ _
    exact (SetOk_ge2_fuel_pos th ℓ S hso h2).elim
  | succ f ih =>
    intro ℓ S hso h2 hfresh hag hnodup
    match S, h2, hso, hfresh, hag, hnodup with
    | a :: b :: t, _, hso, hfresh, hag, hnodup =>
    have halign : ℓ + (f + 1) = th.hasher.output_size * 8 := hso.1
    by_cases hbit : get_msb_at p ℓ = 0
    · have hc0p : childF ℓ 0 ((p, vh) :: a :: b :: t) =
          (p, vh) :: childF ℓ 0 (a :: b :: t) := by
        rw [childF_cons]
        exact if_pos hbit
      have hc1p : childF ℓ 1 ((p, vh) :: a :: b :: t) =
          childF ℓ 1 (a :: b :: t) := by
        rw [childF_cons]
        exact if_neg (by rw [hbit]; exact (by omega : ¬ (0 : Nat) = 1))
      rcases hsc : childF ℓ 0 (a :: b :: t) with _ | ⟨qv, _ | ⟨q2, ct⟩⟩
      · -- empty child on p's side: the new leaf sits alone below this node
        have hd : descend th p (f + 1) ℓ (a :: b :: t) =
            ([cthash th f (ℓ + 1) (childF ℓ 1 (a :: b :: t))],
             [th.zero_hash], ([] : Bytes)) := by
          unfold descend
          simp only [if_pos hbit]
          rw [hsc]
        have hbase : insBase th p vh (ℓ + 1) ([] : Bytes) =
            ((th.digest_leaf p vh).1, [th.digest_leaf p vh]) := rfl
        rw [hd]
        dsimp only
        rw [List.reverse_singleton, List.length_singleton, hbase]
        have hcu : combineUp th p ℓ [cthash th f (ℓ + 1) (childF ℓ 1 (a :: b :: t))]
            (th.digest_leaf p vh).1 =
            ((th.digest_node (th.digest_leaf p vh).1
                (cthash th f (ℓ + 1) (childF ℓ 1 (a :: b :: t)))).1,
             [th.digest_node (th.digest_leaf p vh).1
                (cthash th f (ℓ + 1) (childF ℓ 1 (a :: b :: t)))]) := by
          show combineUp th p ℓ ([] ++ [cthash th f (ℓ + 1) (childF ℓ 1 (a :: b :: t))])
              (th.digest_leaf p vh).1 = _
          rw [combineUp_snoc]
          simp only [if_pos hbit]
          rfl
        rw [hcu]
        constructor
        · rw [cthash_node, hc0p, hsc, hc1p, cthash_singleton]
        · intro r
          rw [ctrecords_node, hc0p, hsc, hc1p, ctrecords_singleton,
            ctrecords_node, hsc, ctrecords_nil, dpath_node,
            if_pos hbit, hsc, dpath_nil, cthash_singleton]
          have hne1 : ∀ x, x ∈ ctrecords th f (ℓ + 1) (childF ℓ 1 (a :: b :: t)) →
              x ≠ th.digest_node (cthash th f (ℓ + 1) ([] : List (Bytes × Bytes)))
                (cthash th f (ℓ + 1) (childF ℓ 1 (a :: b :: t))) := by
            intro x hx
            refine pairwise_head_ne ?_ x hx
            have := hnodup
            rw [ctrecords_node, hsc, ctrecords_nil] at this
            simpa using this
          have hr1 := hne1 r
          simp only [List.mem_cons, List.mem_append, List.mem_singleton,
            List.not_mem_nil, List.nil_append, or_false, false_or]
          constructor
          · rintro (h | h | h)
            · exact Or.inl h
            · exact Or.inr (Or.inl h)
            · exact Or.inr (Or.inr ⟨Or.inr h, fun hc => hr1 h hc⟩)
          · rintro (h | h | ⟨(h | h), hnr⟩)
            · exact Or.inl h
            · exact Or.inr (Or.inl h)
            · exact absurd h hnr
            · exact Or.inr (Or.inr h)
      · -- singleton child on p's side: extension chain over the two leaves
        rcases qv with ⟨q, w⟩
        have hqmem : (q, w) ∈ a :: b :: t := by
          have : (q, w) ∈ childF ℓ 0 (a :: b :: t) := by
            rw [hsc]
            exact List.mem_singleton.mpr rfl
          exact childF_subset _ _ _ _ this
        have hqlen : q.length = th.hasher.output_size := (hso.2.1 (q, w) hqmem).1
        have hqb : ∀ x ∈ q, x < 256 := (hso.2.1 (q, w) hqmem).2
        have hqbit : get_msb_at q ℓ = 0 := by
          have : (q, w) ∈ childF ℓ 0 (a :: b :: t) := by
            rw [hsc]
            exact List.mem_singleton.mpr rfl
          have := List.of_mem_filter this
          simpa using this
        have hqne : q ≠ p := by
          intro he
          exact hfresh (List.mem_map.mpr ⟨(q, w), hqmem, by rw [he]⟩)
        have hcge : ℓ + 1 ≤ common_prefix_len q p := by
          apply common_prefix_len_ge q p (ℓ + 1) (by rw [hqlen]; omega)
          intro j hj
          rcases Nat.lt_succ_iff_lt_or_eq.mp hj with hj | hj
          · exact (hag (q, w) hqmem j hj).symm
          · subst hj
            rw [hqbit, hbit]
        have hd : descend th p (f + 1) ℓ (a :: b :: t) =
            ([cthash th f (ℓ + 1) (childF ℓ 1 (a :: b :: t))],
             [(th.digest_leaf q w).1], (th.digest_leaf q w).2) := by
          unfold descend
          simp only [if_pos hbit]
          rw [hsc]
        have htne : (th.digest_leaf q w).2 ≠ [] := by
          show (0 : Nat) :: (q ++ w) ≠ []
          exact List.cons_ne_nil _ _
        have hparse : th.parse_leaf ((th.digest_leaf q w).2) = (q, w) := by
          show th.parse_leaf (0 :: (q ++ w)) = (q, w)
          exact parse_leaf_spec th q w hqlen
        have hbase : insBase th p vh (ℓ + 1) ((th.digest_leaf q w).2) =
            ((chain_segR th p (ℓ + 1) (common_prefix_len q p - (ℓ + 1))
                (if get_msb_at p (common_prefix_len q p) = 0 then
                  (th.digest_node (th.digest_leaf p vh).1 (th.digest_leaf q w).1).1
                else
                  (th.digest_node (th.digest_leaf q w).1 (th.digest_leaf p vh).1).1)).1,
             th.digest_leaf p vh :: th.digest_leaf q w ::
               (if get_msb_at p (common_prefix_len q p) = 0 then
                  th.digest_node (th.digest_leaf p vh).1 (th.digest_leaf q w).1
                else
                  th.digest_node (th.digest_leaf q w).1 (th.digest_leaf p vh).1) ::
               (chain_segR th p (ℓ + 1) (common_prefix_len q p - (ℓ + 1))
                (if get_msb_at p (common_prefix_len q p) = 0 then
                  (th.digest_node (th.digest_leaf p vh).1 (th.digest_leaf q w).1).1
                else
                  (th.digest_node (th.digest_leaf q w).1 (th.digest_leaf p vh).1).1)).2) := by
          unfold insBase
          rw [if_neg htne, hparse]
        have hpair := cthash_pair th p vh q w hplen hqlen hpb hqb hqne f (ℓ + 1)
          (by omega) hcge
        have hpairrec := ctrecords_pair th p vh q w hplen hqlen hpb hqb hqne f (ℓ + 1)
          (by omega) hcge
        rw [hd]
        dsimp only
        rw [List.reverse_singleton, List.length_singleton, hbase]
        have hcu : combineUp th p ℓ [cthash th f (ℓ + 1) (childF ℓ 1 (a :: b :: t))]
            ((chain_segR th p (ℓ + 1) (common_prefix_len q p - (ℓ + 1))
                (if get_msb_at p (common_prefix_len q p) = 0 then
                  (th.digest_node (th.digest_leaf p vh).1 (th.digest_leaf q w).1).1
                else
                  (th.digest_node (th.digest_leaf q w).1 (th.digest_leaf p vh).1).1)).1) =
            ((th.digest_node
                ((chain_segR th p (ℓ + 1) (common_prefix_len q p - (ℓ + 1))
                  (if get_msb_at p (common_prefix_len q p) = 0 then
                    (th.digest_node (th.digest_leaf p vh).1 (th.digest_leaf q w).1).1
                  else
                    (th.digest_node (th.digest_leaf q w).1 (th.digest_leaf p vh).1).1)).1)
                (cthash th f (ℓ + 1) (childF ℓ 1 (a :: b :: t)))).1,
             [th.digest_node
                ((chain_segR th p (ℓ + 1) (common_prefix_len q p - (ℓ + 1))
                  (if get_msb_at p (common_prefix_len q p) = 0 then
                    (th.digest_node (th.digest_leaf p vh).1 (th.digest_leaf q w).1).1
                  else
                    (th.digest_node (th.digest_leaf q w).1 (th.digest_leaf p vh).1).1)).1)
                (cthash th f (ℓ + 1) (childF ℓ 1 (a :: b :: t)))]) := by
          show combineUp th p ℓ ([] ++ [cthash th f (ℓ + 1) (childF ℓ 1 (a :: b :: t))])
              _ = _
          rw [combineUp_snoc]
          simp only [if_pos hbit]
          rfl
        rw [hcu]
        constructor
        · rw [cthash_node, hc0p, hsc, hc1p, hpair]
        · intro r
          rw [ctrecords_node, hc0p, hsc, hc1p, hpair,
            ctrecords_node, hsc, ctrecords_singleton, dpath_node,
            if_pos hbit, hsc, dpath_singleton]
          have hnodup2 := hnodup
          rw [ctrecords_node, hsc, ctrecords_singleton] at hnodup2
          have hne1 : ∀ x, x ∈ ctrecords th f (ℓ + 1) (childF ℓ 1 (a :: b :: t)) →
              x ≠ th.digest_node (cthash th f (ℓ + 1) [(q, w)])
                (cthash th f (ℓ + 1) (childF ℓ 1 (a :: b :: t))) := by
            intro x hx
            refine pairwise_head_ne hnodup2 x ?_
            exact List.mem_append.mpr (Or.inr hx)
          have hne2 : th.digest_leaf q w ≠
              th.digest_node (cthash th f (ℓ + 1) [(q, w)])
                (cthash th f (ℓ + 1) (childF ℓ 1 (a :: b :: t))) := by
            refine pairwise_head_ne hnodup2 _ ?_
            exact List.mem_append.mpr (Or.inl (List.mem_singleton.mpr rfl))
          have hr1 := hne1 r
          have hrec := hpairrec r
          simp only [List.mem_cons, List.mem_append, List.mem_singleton,
            List.not_mem_nil, or_false, false_or] at hrec ⊢
          rw [hrec]
          constructor
          · rintro (h | (h | h | h | h) | h)
            · exact Or.inl h
            · exact Or.inr (Or.inl (Or.inl h))
            · exact Or.inr (Or.inl (Or.inr (Or.inl h)))
            · exact Or.inr (Or.inl (Or.inr (Or.inr (Or.inl h))))
            · exact Or.inr (Or.inl (Or.inr (Or.inr (Or.inr h))))
            · exact Or.inr (Or.inr ⟨Or.inr (Or.inr h), fun hc => hne1 r h hc⟩)
          · rintro (h | (h | h | h | h) | ⟨(h | h | h), hnr⟩)
            · exact Or.inl h
            · exact Or.inr (Or.inl (Or.inl h))
            · exact Or.inr (Or.inl (Or.inr (Or.inl h)))
            · exact Or.inr (Or.inl (Or.inr (Or.inr (Or.inl h))))
            · exact Or.inr (Or.inl (Or.inr (Or.inr (Or.inr h))))
            · exact absurd h hnr
            · exact Or.inr (Or.inl (Or.inr (Or.inl h)))
            · exact Or.inr (Or.inr h)
      · -- two or more below on p's side: recurse
        have hszc : SetOk th (ℓ + 1) f (qv :: q2 :: ct) := by
          rw [← hsc]
          exact SetOk_child th ℓ f (a :: b :: t) hso 0
        have hsub : ∀ x, x ∈ (qv :: q2 :: ct) → x ∈ a :: b :: t := by
          intro x hx
          rw [← hsc] at hx
          exact childF_subset _ _ _ x hx
        have hfresh2 : p ∉ (qv :: q2 :: ct).map Prod.fst := by
          intro hmem
          rcases List.mem_map.mp hmem with ⟨x, hx, he⟩
          exact hfresh (List.mem_map.mpr ⟨x, hsub x hx, he⟩)
        have hag2 : ∀ x ∈ (qv :: q2 :: ct), ∀ j < ℓ + 1,
            get_msb_at p j = get_msb_at x.1 j := by
          intro x hx j hj
          rcases Nat.lt_succ_iff_lt_or_eq.mp hj with hj | hj
          · exact hag x (hsub x hx) j hj
          · rw [hj]
            have hx' : x ∈ childF ℓ 0 (a :: b :: t) := by rw [hsc]; exact hx
            have := List.of_mem_filter hx'
            have hxb : get_msb_at x.1 ℓ = 0 := by simpa using this
            rw [hxb, hbit]
        have hnodup2 := hnodup
        rw [ctrecords_node, hsc] at hnodup2
        have htail := (List.pairwise_cons.mp hnodup2).2
        have hnodupc : (ctrecords th f (ℓ + 1) (qv :: q2 :: ct)).Pairwise
            (fun x y => x.1 ≠ y.1) := (List.pairwise_append.mp htail).1
        obtain ⟨ihv, ihr⟩ := ih (ℓ + 1) (qv :: q2 :: ct) hszc (by simp)
          hfresh2 hag2 hnodupc
        have hd : descend th p (f + 1) ℓ (a :: b :: t) =
            (cthash th f (ℓ + 1) (childF ℓ 1 (a :: b :: t)) ::
              (descend th p f (ℓ + 1) (qv :: q2 :: ct)).1,
             cthash th f (ℓ + 1) (qv :: q2 :: ct) ::
              (descend th p f (ℓ + 1) (qv :: q2 :: ct)).2.1,
             (descend th p f (ℓ + 1) (qv :: q2 :: ct)).2.2) := by
          conv_lhs => unfold descend
          simp only [if_pos hbit]
          rw [hsc]
        rw [hd]
        dsimp only
        rw [List.reverse_cons, List.length_cons,
          show ℓ + ((descend th p f (ℓ + 1) (qv :: q2 :: ct)).1.length + 1) =
            ℓ + 1 + (descend th p f (ℓ + 1) (qv :: q2 :: ct)).1.length from by omega,
          combineUp_snoc]
        simp only [if_pos hbit]
        rw [← ihv]
        constructor
        · rw [cthash_node, hc0p, hsc, hc1p]
        · intro r
          rw [ctrecords_node, hc0p, hsc, hc1p, ctrecords_node, hsc,
            dpath_node, if_pos hbit, hsc]
          have hr2 := ihr r
          have hdisj := pairwise_append_disjoint htail
          have hdsub := dpath_subset th p f (ℓ + 1) (qv :: q2 :: ct)
          have hne1 : ∀ x, x ∈ ctrecords th f (ℓ + 1) (qv :: q2 :: ct) →
              x ≠ th.digest_node (cthash th f (ℓ + 1) (qv :: q2 :: ct))
                (cthash th f (ℓ + 1) (childF ℓ 1 (a :: b :: t))) :=
            fun x hx => pairwise_head_ne hnodup2 x (List.mem_append.mpr (Or.inl hx))
          have hne1' : ∀ x, x ∈ ctrecords th f (ℓ + 1) (childF ℓ 1 (a :: b :: t)) →
              x ≠ th.digest_node (cthash th f (ℓ + 1) (qv :: q2 :: ct))
                (cthash th f (ℓ + 1) (childF ℓ 1 (a :: b :: t))) :=
            fun x hx => pairwise_head_ne hnodup2 x (List.mem_append.mpr (Or.inr hx))
          simp only [List.mem_cons, List.mem_append, List.mem_singleton,
            List.not_mem_nil, or_false, false_or] at hr2 ⊢
          rw [hr2]
          constructor
          · rintro (h | h | h)
            · exact Or.inl (Or.inr h)
            · rcases h with (h | h | ⟨hm, hnd⟩)
              · exact Or.inl (Or.inl h)
              · exact Or.inr (Or.inl h)
              · refine Or.inr (Or.inr ⟨Or.inr (Or.inl hm), ?_⟩)
                rintro (hc | hc)
                · exact hne1 r hm hc
                · exact hnd hc
            · refine Or.inr (Or.inr ⟨Or.inr (Or.inr h), ?_⟩)
              rintro (hc | hc)
              · exact hne1' r h hc
              · exact hdisj r (hdsub r hc) h
          · rintro (h | h | ⟨hm, hnd⟩)
            · rcases h with h | h
              · exact Or.inr (Or.inl (Or.inl h))
              · exact Or.inl h
            · exact Or.inr (Or.inl (Or.inr (Or.inl h)))
            · rcases hm with hm | hm | hm
              · exact absurd (Or.inl hm) hnd
              · refine Or.inr (Or.inl (Or.inr (Or.inr ⟨hm, ?_⟩)))
                intro hc
                exact hnd (Or.inr hc)
              · exact Or.inr (Or.inr hm)
    · have hbit1 : get_msb_at p ℓ = 1 := by
        rcases get_msb_at_zero_or_one p ℓ with h | h
        · exact absurd h hbit
        · exact h
      have hc0p : childF ℓ 0 ((p, vh) :: a :: b :: t) =
          childF ℓ 0 (a :: b :: t) := by
        rw [childF_cons]
        exact if_neg hbit
      have hc1p : childF ℓ 1 ((p, vh) :: a :: b :: t) =
          (p, vh) :: childF ℓ 1 (a :: b :: t) := by
        rw [childF_cons]
        exact if_pos hbit1
      rcases hsc : childF ℓ 1 (a :: b :: t) with _ | ⟨qv, _ | ⟨q2, ct⟩⟩
      · have hd : descend th p (f + 1) ℓ (a :: b :: t) =
            ([cthash th f (ℓ + 1) (childF ℓ 0 (a :: b :: t))],
             [th.zero_hash], ([] : Bytes)) := by
          unfold descend
          simp only [if_neg hbit]
          rw [hsc]
        have hbase : insBase th p vh (ℓ + 1) ([] : Bytes) =
            ((th.digest_leaf p vh).1, [th.digest_leaf p vh]) := rfl
        rw [hd]
        dsimp only
        rw [List.reverse_singleton, List.length_singleton, hbase]
        have hcu : combineUp th p ℓ [cthash th f (ℓ + 1) (childF ℓ 0 (a :: b :: t))]
            (th.digest_leaf p vh).1 =
            ((th.digest_node (cthash th f (ℓ + 1) (childF ℓ 0 (a :: b :: t)))
                (th.digest_leaf p vh).1).1,
             [th.digest_node (cthash th f (ℓ + 1) (childF ℓ 0 (a :: b :: t)))
                (th.digest_leaf p vh).1]) := by
          show combineUp th p ℓ ([] ++ [cthash th f (ℓ + 1) (childF ℓ 0 (a :: b :: t))])
              (th.digest_leaf p vh).1 = _
          rw [combineUp_snoc]
          simp only [if_neg hbit]
          rfl
        rw [hcu]
        constructor
        · rw [cthash_node, hc0p, hc1p, hsc, cthash_singleton]
        · intro r
          rw [ctrecords_node, hc0p, hc1p, hsc, ctrecords_singleton,
            ctrecords_node, hsc, ctrecords_nil, dpath_node,
            if_neg hbit, hsc, dpath_nil, cthash_singleton]
          have hne1 : ∀ x, x ∈ ctrecords th f (ℓ + 1) (childF ℓ 0 (a :: b :: t)) →
              x ≠ th.digest_node (cthash th f (ℓ + 1) (childF ℓ 0 (a :: b :: t)))
                (cthash th f (ℓ + 1) ([] : List (Bytes × Bytes))) := by
            intro x hx
            refine pairwise_head_ne ?_ x hx
            have := hnodup
            rw [ctrecords_node, hsc, ctrecords_nil] at this
            simpa using this
          have hr1 := hne1 r
          simp only [List.mem_cons, List.mem_append, List.mem_singleton,
            List.not_mem_nil, List.append_nil, or_false, false_or]
          constructor
          · rintro (h | h | h)
            · exact Or.inl h
            · exact Or.inr (Or.inr ⟨Or.inr h, fun hc => hr1 h hc⟩)
            · exact Or.inr (Or.inl h)
          · rintro (h | h | ⟨(h | h), hnr⟩)
            · exact Or.inl h
            · exact Or.inr (Or.inr h)
            · exact absurd h hnr
            · exact Or.inr (Or.inl h)
      · rcases qv with ⟨q, w⟩
        have hqmem : (q, w) ∈ a :: b :: t := by
          have : (q, w) ∈ childF ℓ 1 (a :: b :: t) := by
            rw [hsc]
            exact List.mem_singleton.mpr rfl
          exact childF_subset _ _ _ _ this
        have hqlen : q.length = th.hasher.output_size := (hso.2.1 (q, w) hqmem).1
        have hqb : ∀ x ∈ q, x < 256 := (hso.2.1 (q, w) hqmem).2
        have hqbit : get_msb_at q ℓ = 1 := by
          have : (q, w) ∈ childF ℓ 1 (a :: b :: t) := by
            rw [hsc]
            exact List.mem_singleton.mpr rfl
          have := List.of_mem_filter this
          simpa using this
        have hqne : q ≠ p := by
          intro he
          exact hfresh (List.mem_map.mpr ⟨(q, w), hqmem, by rw [he]⟩)
        have hcge : ℓ + 1 ≤ common_prefix_len q p := by
          apply common_prefix_len_ge q p (ℓ + 1) (by rw [hqlen]; omega)
          intro j hj
          rcases Nat.lt_succ_iff_lt_or_eq.mp hj with hj | hj
          · exact (hag (q, w) hqmem j hj).symm
          · rw [hj, hqbit, hbit1]
        have hd : descend th p (f + 1) ℓ (a :: b :: t) =
            ([cthash th f (ℓ + 1) (childF ℓ 0 (a :: b :: t))],
             [(th.digest_leaf q w).1], (th.digest_leaf q w).2) := by
          unfold descend
          simp only [if_neg hbit]
          rw [hsc]
        have htne : (th.digest_leaf q w).2 ≠ [] := by
          show (0 : Nat) :: (q ++ w) ≠ []
          exact List.cons_ne_nil _ _
        have hparse : th.parse_leaf ((th.digest_leaf q w).2) = (q, w) := by
          show th.parse_leaf (0 :: (q ++ w)) = (q, w)
          exact parse_leaf_spec th q w hqlen
        have hbase : insBase th p vh (ℓ + 1) ((th.digest_leaf q w).2) =
            ((chain_segR th p (ℓ + 1) (common_prefix_len q p - (ℓ + 1))
                (if get_msb_at p (common_prefix_len q p) = 0 then
                  (th.digest_node (th.digest_leaf p vh).1 (th.digest_leaf q w).1).1
                else
                  (th.digest_node (th.digest_leaf q w).1 (th.digest_leaf p vh).1).1)).1,
             th.digest_leaf p vh :: th.digest_leaf q w ::
               (if get_msb_at p (common_prefix_len q p) = 0 then
                  th.digest_node (th.digest_leaf p vh).1 (th.digest_leaf q w).1
                else
                  th.digest_node (th.digest_leaf q w).1 (th.digest_leaf p vh).1) ::
               (chain_segR th p (ℓ + 1) (common_prefix_len q p - (ℓ + 1))
                (if get_msb_at p (common_prefix_len q p) = 0 then
                  (th.digest_node (th.digest_leaf p vh).1 (th.digest_leaf q w).1).1
                else
                  (th.digest_node (th.digest_leaf q w).1 (th.digest_leaf p vh).1).1)).2) := by
          unfold insBase
          rw [if_neg htne, hparse]
        have hpair := cthash_pair th p vh q w hplen hqlen hpb hqb hqne f (ℓ + 1)
          (by omega) hcge
        have hpairrec := ctrecords_pair th p vh q w hplen hqlen hpb hqb hqne f (ℓ + 1)
          (by omega) hcge
        rw [hd]
        dsimp only
        rw [List.reverse_singleton, List.length_singleton, hbase]
        have hcu : combineUp th p ℓ [cthash th f (ℓ + 1) (childF ℓ 0 (a :: b :: t))]
            ((chain_segR th p (ℓ + 1) (common_prefix_len q p - (ℓ + 1))
                (if get_msb_at p (common_prefix_len q p) = 0 then
                  (th.digest_node (th.digest_leaf p vh).1 (th.digest_leaf q w).1).1
                else
                  (th.digest_node (th.digest_leaf q w).1 (th.digest_leaf p vh).1).1)).1) =
            ((th.digest_node
                (cthash th f (ℓ + 1) (childF ℓ 0 (a :: b :: t)))
                ((chain_segR th p (ℓ + 1) (common_prefix_len q p - (ℓ + 1))
                  (if get_msb_at p (common_prefix_len q p) = 0 then
                    (th.digest_node (th.digest_leaf p vh).1 (th.digest_leaf q w).1).1
                  else
                    (th.digest_node (th.digest_leaf q w).1 (th.digest_leaf p vh).1).1)).1)).1,
             [th.digest_node
                (cthash th f (ℓ + 1) (childF ℓ 0 (a :: b :: t)))
                ((chain_segR th p (ℓ + 1) (common_prefix_len q p - (ℓ + 1))
                  (if get_msb_at p (common_prefix_len q p) = 0 then
                    (th.digest_node (th.digest_leaf p vh).1 (th.digest_leaf q w).1).1
                  else
                    (th.digest_node (th.digest_leaf q w).1 (th.digest_leaf p vh).1).1)).1)]) := by
          show combineUp th p ℓ ([] ++ [cthash th f (ℓ + 1) (childF ℓ 0 (a :: b :: t))])
              _ = _
          rw [combineUp_snoc]
          simp only [if_neg hbit]
          rfl
        rw [hcu]
        constructor
        · rw [cthash_node, hc0p, hc1p, hsc, hpair]
        · intro r
          rw [ctrecords_node, hc0p, hc1p, hsc, hpair,
            ctrecords_node, hsc, ctrecords_singleton, dpath_node,
            if_neg hbit, hsc, dpath_singleton]
          have hnodup2 := hnodup
          rw [ctrecords_node, hsc, ctrecords_singleton] at hnodup2
          have hne1 : ∀ x, x ∈ ctrecords th f (ℓ + 1) (childF ℓ 0 (a :: b :: t)) →
              x ≠ th.digest_node (cthash th f (ℓ + 1) (childF ℓ 0 (a :: b :: t)))
                (cthash th f (ℓ + 1) [(q, w)]) := by
            intro x hx
            refine pairwise_head_ne hnodup2 x ?_
            exact List.mem_append.mpr (Or.inl hx)
          have hne2 : th.digest_leaf q w ≠
              th.digest_node (cthash th f (ℓ + 1) (childF ℓ 0 (a :: b :: t)))
                (cthash th f (ℓ + 1) [(q, w)]) := by
            refine pairwise_head_ne hnodup2 _ ?_
            exact List.mem_append.mpr (Or.inr (List.mem_singleton.mpr rfl))
          have hr1 := hne1 r
          have hrec := hpairrec r
          simp only [List.mem_cons, List.mem_append, List.mem_singleton,
            List.not_mem_nil, or_false, false_or] at hrec ⊢
          rw [hrec]
          constructor
          · rintro (h | h | (h | h | h | h))
            · exact Or.inl h
            · exact Or.inr (Or.inr ⟨Or.inr (Or.inl h), fun hc => hne1 r h hc⟩)
            · exact Or.inr (Or.inl (Or.inl h))
            · exact Or.inr (Or.inl (Or.inr (Or.inl h)))
            · exact Or.inr (Or.inl (Or.inr (Or.inr (Or.inl h))))
            · exact Or.inr (Or.inl (Or.inr (Or.inr (Or.inr h))))
          · rintro (h | (h | h | h | h) | ⟨(h | h | h), hnr⟩)
            · exact Or.inl h
            · exact Or.inr (Or.inr (Or.inl h))
            · refine Or.inr (Or.inr ?_)
              exact Or.inr (Or.inl h)
            · exact Or.inr (Or.inr (Or.inr (Or.inr (Or.inl h))))
            · exact Or.inr (Or.inr (Or.inr (Or.inr (Or.inr h))))
            · exact absurd h hnr
            · exact Or.inr (Or.inl h)
            · exact Or.inr (Or.inr (Or.inr (Or.inl h)))
      · have hszc : SetOk th (ℓ + 1) f (qv :: q2 :: ct) := by
          rw [← hsc]
          exact SetOk_child th ℓ f (a :: b :: t) hso 1
        have hsub : ∀ x, x ∈ (qv :: q2 :: ct) → x ∈ a :: b :: t := by
          intro x hx
          rw [← hsc] at hx
          exact childF_subset _ _ _ x hx
        have hfresh2 : p ∉ (qv :: q2 :: ct).map Prod.fst := by
          intro hmem
          rcases List.mem_map.mp hmem with ⟨x, hx, he⟩
          exact hfresh (List.mem_map.mpr ⟨x, hsub x hx, he⟩)
        have hag2 : ∀ x ∈ (qv :: q2 :: ct), ∀ j < ℓ + 1,
            get_msb_at p j = get_msb_at x.1 j := by
          intro x hx j hj
          rcases Nat.lt_succ_iff_lt_or_eq.mp hj with hj | hj
          · exact hag x (hsub x hx) j hj
          · rw [hj]
            have hx' : x ∈ childF ℓ 1 (a :: b :: t) := by rw [hsc]; exact hx
            have := List.of_mem_filter hx'
            have hxb : get_msb_at x.1 ℓ = 1 := by simpa using this
            rw [hxb, hbit1]
        have hnodup2 := hnodup
        rw [ctrecords_node, hsc] at hnodup2
        have htail := (List.pairwise_cons.mp hnodup2).2
        have hnodupc : (ctrecords th f (ℓ + 1) (qv :: q2 :: ct)).Pairwise
            (fun x y => x.1 ≠ y.1) := (List.pairwise_append.mp htail).2.1
        obtain ⟨ihv, ihr⟩ := ih (ℓ + 1) (qv :: q2 :: ct) hszc (by simp)
          hfresh2 hag2 hnodupc
        have hd : descend th p (f + 1) ℓ (a :: b :: t) =
            (cthash th f (ℓ + 1) (childF ℓ 0 (a :: b :: t)) ::
              (descend th p f (ℓ + 1) (qv :: q2 :: ct)).1,
             cthash th f (ℓ + 1) (qv :: q2 :: ct) ::
              (descend th p f (ℓ + 1) (qv :: q2 :: ct)).2.1,
             (descend th p f (ℓ + 1) (qv :: q2 :: ct)).2.2) := by
          conv_lhs => unfold descend
          simp only [if_neg hbit]
          rw [hsc]
        rw [hd]
        dsimp only
        rw [List.reverse_cons, List.length_cons,
          show ℓ + ((descend th p f (ℓ + 1) (qv :: q2 :: ct)).1.length + 1) =
            ℓ + 1 + (descend th p f (ℓ + 1) (qv :: q2 :: ct)).1.length from by omega,
          combineUp_snoc]
        simp only [if_neg hbit]
        rw [← ihv]
        constructor
        · rw [cthash_node, hc0p, hc1p, hsc]
        · intro r
          rw [ctrecords_node, hc0p, hc1p, hsc, ctrecords_node, hsc,
            dpath_node, if_neg hbit, hsc]
          have hr2 := ihr r
          have hdisj := pairwise_append_disjoint htail
          have hdsub := dpath_subset th p f (ℓ + 1) (qv :: q2 :: ct)
          have hne1 : ∀ x, x ∈ ctrecords th f (ℓ + 1) (qv :: q2 :: ct) →
              x ≠ th.digest_node (cthash th f (ℓ + 1) (childF ℓ 0 (a :: b :: t)))
                (cthash th f (ℓ + 1) (qv :: q2 :: ct)) :=
            fun x hx => pairwise_head_ne hnodup2 x (List.mem_append.mpr (Or.inr hx))
          have hne1x : ∀ x, x ∈ ctrecords th f (ℓ + 1) (childF ℓ 0 (a :: b :: t)) →
              x ≠ th.digest_node (cthash th f (ℓ + 1) (childF ℓ 0 (a :: b :: t)))
                (cthash th f (ℓ + 1) (qv :: q2 :: ct)) :=
            fun x hx => pairwise_head_ne hnodup2 x (List.mem_append.mpr (Or.inl hx))
          simp only [List.mem_cons, List.mem_append, List.mem_singleton,
            List.not_mem_nil, or_false, false_or] at hr2 ⊢
          rw [hr2]
          constructor
          · rintro (h | h | h)
            · exact Or.inl (Or.inr h)
            · refine Or.inr (Or.inr ⟨Or.inr (Or.inl h), ?_⟩)
              rintro (hc | hc)
              · exact hne1x r h hc
              · exact hdisj r h (hdsub r hc)
            · rcases h with (h | h | ⟨hm, hnd⟩)
              · exact Or.inl (Or.inl h)
              · exact Or.inr (Or.inl h)
              · refine Or.inr (Or.inr ⟨Or.inr (Or.inr hm), ?_⟩)
                rintro (hc | hc)
                · exact hne1 r hm hc
                · exact hnd hc
          · rintro (h | h | ⟨hm, hnd⟩)
            · rcases h with h | h
              · exact Or.inr (Or.inr (Or.inl h))
              · exact Or.inl h
            · exact Or.inr (Or.inr (Or.inr (Or.inl h)))
            · rcases hm with hm | hm | hm
              · exact absurd (Or.inl hm) hnd
              · exact Or.inr (Or.inl hm)
              · refine Or.inr (Or.inr (Or.inr (Or.inr ⟨hm, ?_⟩)))
                intro hc
                exact hnd (Or.inr hc)


theorem update_loop_skip_full (s : SMT) (p : Bytes) (lo : Nat) (sn : List Bytes)
    (hlo : lo ≤ s.depth) :
    ∀ fuel i c nodes, i + fuel = s.depth → i ≤ lo →
      SMT.update_loop s p s.depth lo sn i fuel c nodes =
        SMT.update_loop s p s.depth lo sn lo (s.depth - lo) c nodes := by
  intro fuel
  induction fuel with
  | zero =>
    intro i c nodes hif hi
    have h1 : i = s.depth := by omega
    have h2 : lo = i := by omega
    subst h2
    rw [show s.depth - lo = 0 from by omega]
  | succ fuel ih =>
    intro i c nodes hif hi
    by_cases he : i = lo
    · subst he
      rw [show s.depth - i = fuel + 1 from by omega]
    · have hilt : i < lo := by omega
      conv_lhs => unfold SMT.update_loop
      simp only [hilt, if_true, ne_eq, not_true_eq_false, false_and, if_false]
      exact ih (i + 1) c nodes (by omega) (by omega)

theorem update_loop_skip_lt (s : SMT) (p : Bytes) (cpl lo : Nat) (sn : List Bytes)
    (hne : cpl ≠ s.depth) (hcl : s.depth - cpl ≤ lo) (hcd : cpl ≤ s.depth) :
    ∀ fuel i c nodes, i + fuel = s.depth → i ≤ s.depth - cpl →
      SMT.update_loop s p cpl lo sn i fuel c nodes =
        SMT.update_loop s p cpl lo sn (s.depth - cpl) cpl c nodes := by
  intro fuel
  induction fuel with
  | zero =>
    intro i c nodes hif hi
    have h1 : i = s.depth := by omega
    have h2 : cpl = 0 := by omega
    subst h2
    rw [show s.depth - 0 = i from by omega]
  | succ fuel ih =>
    intro i c nodes hif hi
    by_cases he : i = s.depth - cpl
    · subst he
      rw [show (fuel + 1 : Nat) = cpl from by omega]
    · have hilt : i < s.depth - cpl := by omega
      have hlo2 : i < lo := by omega
      have hcond : ¬ cpl > s.depth - i - 1 := by omega
      conv_lhs => unfold SMT.update_loop
      simp only [hlo2, if_true, hcond, and_false, if_false]
      exact ih (i + 1) c nodes (by omega) (by omega)

theorem update_loop_chain_phase (s : SMT) (p : Bytes) (cpl lo : Nat)
    (sn : List Bytes) (hne : cpl ≠ s.depth) (hlo : lo = s.depth - sn.length)
    (hsn : sn.length ≤ s.depth) (hcd : cpl ≤ s.depth) :
    ∀ k c nodes, k ≤ cpl - sn.length → sn.length + k ≤ s.depth →
      SMT.update_loop s p cpl lo sn (lo - k) (sn.length + k) c nodes =
        SMT.update_loop s p cpl lo sn lo sn.length
          (chain_segR s.tree_hasher p sn.length k c).1
          (insertAll nodes (chain_segR s.tree_hasher p sn.length k c).2) := by
  intro k
  induction k with
  | zero =>
    intro c nodes _ _
    rfl
  | succ k ih =>
    intro c nodes hk hsk
    have hilt : lo - (k + 1) < lo := by omega
    have hcond : cpl > s.depth - (lo - (k + 1)) - 1 := by omega
    have hbitpos : s.depth - (lo - (k + 1)) - 1 = sn.length + k := by omega
    have hcond2 : cpl > sn.length + k := by omega
    conv_lhs => unfold SMT.update_loop
    simp only [hilt, if_true, ne_eq, hne, not_false_eq_true, true_and, hcond,
      if_true, hbitpos, hcond2, Nat.add_eq]
    have hnext : lo - (k + 1) + 1 = lo - k := by omega
    rw [hnext]
    have hplc : s.placeholder = s.tree_hasher.zero_hash := rfl
    rw [hplc]
    by_cases hbit : get_msb_at p (sn.length + k) = 0
    · simp only [if_pos hbit]
      rw [ih _ _ (by omega) (by omega)]
      have hch : chain_segR s.tree_hasher p sn.length (k + 1) c =
          ((chain_segR s.tree_hasher p sn.length k
              (s.tree_hasher.digest_node c s.tree_hasher.zero_hash).1).1,
           s.tree_hasher.digest_node c s.tree_hasher.zero_hash ::
             (chain_segR s.tree_hasher p sn.length k
               (s.tree_hasher.digest_node c s.tree_hasher.zero_hash).1).2) := by
        conv_lhs => unfold chain_segR
        simp only [if_pos hbit]
      rw [hch]
      rfl
    · simp only [if_neg hbit]
      rw [ih _ _ (by omega) (by omega)]
      have hch : chain_segR s.tree_hasher p sn.length (k + 1) c =
          ((chain_segR s.tree_hasher p sn.length k
              (s.tree_hasher.digest_node s.tree_hasher.zero_hash c).1).1,
           s.tree_hasher.digest_node s.tree_hasher.zero_hash c ::
             (chain_segR s.tree_hasher p sn.length k
               (s.tree_hasher.digest_node s.tree_hasher.zero_hash c).1).2) := by
        conv_lhs => unfold chain_segR
        simp only [if_neg hbit]
      rw [hch]
      rfl

theorem update_loop_sn_phase (s : SMT) (p : Bytes) (cpl lo : Nat)
    (sn : List Bytes) (hlo : lo = s.depth - sn.length) (hsn : sn.length ≤ s.depth) :
    ∀ k c nodes, k ≤ sn.length →
      SMT.update_loop s p cpl lo sn (s.depth - k) k c nodes =
        ((combineUp s.tree_hasher p 0 (sn.drop (sn.length - k)) c).1,
         insertAll nodes (combineUp s.tree_hasher p 0 (sn.drop (sn.length - k)) c).2) := by
  intro k
  induction k with
  | zero =>
    intro c nodes _
    rw [show sn.length - 0 = sn.length from by omega, List.drop_length]
    rfl
  | succ k ih =>
    intro c nodes hk
    have hidx : sn.length - (k + 1) < sn.length := by omega
    have hdrop : sn.drop (sn.length - (k + 1)) =
        sn[sn.length - (k + 1)] :: sn.drop (sn.length - k) := by
      rw [List.drop_eq_getElem_cons hidx,
        show sn.length - (k + 1) + 1 = sn.length - k from by omega]
    have hrest : (sn.drop (sn.length - k)).length = k := by
      rw [List.length_drop]
      omega
    have hnlt : ¬ s.depth - (k + 1) < lo := by omega
    have hgd : sn.getD (s.depth - (k + 1) - lo) [] = sn[sn.length - (k + 1)] := by
      rw [show s.depth - (k + 1) - lo = sn.length - (k + 1) from by omega]
      exact List.getD_eq_getElem sn [] hidx
    have hbitpos : s.depth - (s.depth - (k + 1)) - 1 = k := by omega
    conv_lhs => unfold SMT.update_loop
    simp only [hnlt, if_false, hgd, hbitpos]
    have hnext : s.depth - (k + 1) + 1 = s.depth - k := by omega
    rw [hnext]
    rw [hdrop]
    by_cases hbit : get_msb_at p k = 0
    · simp only [if_pos hbit]
      rw [ih _ _ (by omega)]
      have hcu : combineUp s.tree_hasher p 0
          (sn[sn.length - (k + 1)] :: sn.drop (sn.length - k)) c =
          ((combineUp s.tree_hasher p 0 (sn.drop (sn.length - k))
              (s.tree_hasher.digest_node c sn[sn.length - (k + 1)]).1).1,
           s.tree_hasher.digest_node c sn[sn.length - (k + 1)] ::
             (combineUp s.tree_hasher p 0 (sn.drop (sn.length - k))
               (s.tree_hasher.digest_node c sn[sn.length - (k + 1)]).1).2) := by
        conv_lhs => unfold combineUp
        simp only [hrest, Nat.zero_add, if_pos hbit]
      rw [hcu]
      rfl
    · simp only [if_neg hbit]
      rw [ih _ _ (by omega)]
      have hcu : combineUp s.tree_hasher p 0
          (sn[sn.length - (k + 1)] :: sn.drop (sn.length - k)) c =
          ((combineUp s.tree_hasher p 0 (sn.drop (sn.length - k))
              (s.tree_hasher.digest_node sn[sn.length - (k + 1)] c).1).1,
           s.tree_hasher.digest_node sn[sn.length - (k + 1)] c ::
             (combineUp s.tree_hasher p 0 (sn.drop (sn.length - k))
               (s.tree_hasher.digest_node sn[sn.length - (k + 1)] c).1).2) := by
        conv_lhs => unfold combineUp
        simp only [hrest, Nat.zero_add, if_neg hbit]
      rw [hcu]
      rfl

theorem insertAll_append (st : Store) (l1 l2 : List (Bytes × Bytes)) :
    insertAll st (l1 ++ l2) = insertAll (insertAll st l1) l2 := by
  unfold insertAll
  rw [List.foldl_append]

theorem update_loop_full_chain (s : SMT) (p : Bytes) (cpl : Nat) (sn : List Bytes)
    (hne : cpl ≠ s.depth) (hcl : sn.length ≤ cpl) (hcd : cpl ≤ s.depth) :
    ∀ c nodes,
      SMT.update_loop s p cpl (s.depth - sn.length) sn 0 s.depth c nodes =
        ((combineUp s.tree_hasher p 0 sn
            (chain_segR s.tree_hasher p sn.length (cpl - sn.length) c).1).1,
         insertAll nodes ((chain_segR s.tree_hasher p sn.length (cpl - sn.length) c).2 ++
           (combineUp s.tree_hasher p 0 sn
             (chain_segR s.tree_hasher p sn.length (cpl - sn.length) c).1).2)) := by
  intro c nodes
  rw [update_loop_skip_lt s p cpl (s.depth - sn.length) sn hne (by omega) hcd
    s.depth 0 c nodes (by omega) (by omega)]
  have hchain := update_loop_chain_phase s p cpl (s.depth - sn.length) sn hne rfl
    (by omega) hcd (cpl - sn.length) c nodes (by omega) (by omega)
  rw [show s.depth - sn.length - (cpl - sn.length) = s.depth - cpl from by omega,
    show sn.length + (cpl - sn.length) = cpl from by omega] at hchain
  rw [hchain]
  have hsnp := update_loop_sn_phase s p cpl (s.depth - sn.length) sn rfl (by omega)
    sn.length (chain_segR s.tree_hasher p sn.length (cpl - sn.length) c).1
    (insertAll nodes (chain_segR s.tree_hasher p sn.length (cpl - sn.length) c).2)
    (Nat.le_refl _)
  rw [Nat.sub_self, List.drop_zero] at hsnp
  rw [hsnp, insertAll_append]

theorem update_loop_full_nochain (s : SMT) (p : Bytes) (sn : List Bytes)
    (hsn : sn.length ≤ s.depth) :
    ∀ c nodes,
      SMT.update_loop s p s.depth (s.depth - sn.length) sn 0 s.depth c nodes =
        ((combineUp s.tree_hasher p 0 sn c).1,
         insertAll nodes (combineUp s.tree_hasher p 0 sn c).2) := by
  intro c nodes
  rw [update_loop_skip_full s p (s.depth - sn.length) sn (by omega)
    s.depth 0 c nodes (by omega) (by omega)]
  have h1 : s.depth - (s.depth - sn.length) = sn.length := by omega
  rw [h1]
  have := update_loop_sn_phase s p s.depth (s.depth - sn.length) sn rfl hsn
    sn.length c nodes (Nat.le_refl _)
  rw [Nat.sub_self, List.drop_zero] at this
  exact this

theorem canon_stored (s : SMT) (S : List (Bytes × Bytes)) (hC : Canon s S) :
    Stored s.tree_hasher s.nodes s.depth 0 S := by
  intro r hr
  rw [Store.get_iff_mem _ _ _ hC.2.1]
  rw [hC.2.2]
  simpa using hr

theorem Store.mem_insert_of_funct (st : Store) (k v : Bytes) (kv : Bytes × Bytes)
    (hm : kv ∈ st) (hf : kv.1 = k → kv = (k, v)) : kv ∈ st.insert k v := by
  rw [Store.mem_insert]
  by_cases he : kv.1 = k
  · exact Or.inl (hf he)
  · exact Or.inr ⟨hm, he⟩

theorem mem_insertAll_cases (rs : List (Bytes × Bytes)) :
    ∀ (st : Store) (kv : Bytes × Bytes),
      kv ∈ insertAll st rs → kv ∈ rs ∨ kv ∈ st := by
  induction rs with
  | nil => exact fun st kv h => Or.inr h
  | cons r rs ih =>
    intro st kv h
    rcases ih _ kv h with h | h
    · exact Or.inl (List.mem_cons_of_mem _ h)
    · rcases (Store.mem_insert _ _ _ _).mp h with h | ⟨h, _⟩
      · refine Or.inl (List.mem_cons.mpr (Or.inl ?_))
        rw [h]
      · exact Or.inr h

theorem mem_insertAll_of_mem (rs : List (Bytes × Bytes)) :
    ∀ (st : Store) (kv : Bytes × Bytes), kv ∈ st →
      (∀ r' ∈ rs, r'.1 = kv.1 → r' = kv) → kv ∈ insertAll st rs := by
  induction rs with
  | nil => exact fun st kv h _ => h
  | cons r rs ih =>
    intro st kv h hf
    refine ih _ kv ?_ fun r' hr' he => hf r' (List.mem_cons_of_mem _ hr') he
    refine Store.mem_insert_of_funct st r.1 r.2 kv h fun he => ?_
    have := hf r (List.mem_cons_self _ _) he.symm
    rw [← this]

theorem mem_insertAll_of_mem_list (rs : List (Bytes × Bytes)) :
    ∀ (st : Store) (kv : Bytes × Bytes), kv ∈ rs →
      (∀ x ∈ rs, ∀ y ∈ rs, x.1 = y.1 → x = y) → kv ∈ insertAll st rs := by
  induction rs with
  | nil => exact fun st kv h _ => absurd h (List.not_mem_nil kv)
  | cons r rs ih =>
    intro st kv h hf
    rcases List.mem_cons.mp h with h | h
    · subst h
      refine mem_insertAll_of_mem rs _ kv ?_ ?_
      · show kv ∈ (kv.1, kv.2) :: Store.del st kv.1
        exact List.mem_cons.mpr (Or.inl rfl)
      · intro r' hr' he
        exact hf r' (List.mem_cons_of_mem _ hr') kv (List.mem_cons_self _ _) he
    · exact ih _ kv h fun x hx y hy he =>
        hf x (List.mem_cons_of_mem _ hx) y (List.mem_cons_of_mem _ hy) he

theorem leaf_ne_node (th : TreeHasher) (q w x y : Bytes) :
    th.digest_leaf q w ≠ th.digest_node x y := by
  intro h
  have h2 := congrArg Prod.snd h
  have : (0 : Nat) :: (q ++ w) = 1 :: (x ++ y) := h2
  have := (List.cons_eq_cons.mp this).1
  omega

theorem digest_leaf_inj (th : TreeHasher) (q w p vh : Bytes)
    (hlen : q.length = p.length)
    (h : th.digest_leaf q w = th.digest_leaf p vh) : q = p ∧ w = vh := by
  have h2 := congrArg Prod.snd h
  have h3 : (0 : Nat) :: (q ++ w) = 0 :: (p ++ vh) := h2
  have h4 := (List.cons_eq_cons.mp h3).2
  have := List.append_inj h4 hlen
  exact this

theorem descend_struct (th : TreeHasher) (p : Bytes) :
    ∀ (fuel ℓ : Nat) (S : List (Bytes × Bytes)),
      SetOk th ℓ fuel S → 2 ≤ S.length →
      p ∉ S.map Prod.fst →
      (∀ qv ∈ S, ∀ j < ℓ, get_msb_at p j = get_msb_at qv.1 j) →
      1 ≤ (descend th p fuel ℓ S).1.length ∧
      ℓ + (descend th p fuel ℓ S).1.length ≤ th.hasher.output_size * 8 ∧
      (descend th p fuel ℓ S).2.1.length = (descend th p fuel ℓ S).1.length ∧
      ((dpath th p fuel ℓ S).map Prod.fst =
        cthash th fuel ℓ S :: (descend th p fuel ℓ S).2.1.dropLast) ∧
      ((descend th p fuel ℓ S).2.2 = [] ∧
         (descend th p fuel ℓ S).2.1.getLast? = some th.zero_hash ∨
       ∃ q w, (q, w) ∈ S ∧ q ≠ p ∧
         q.length = th.hasher.output_size ∧ (∀ x ∈ q, x < 256) ∧
         (descend th p fuel ℓ S).2.2 = (th.digest_leaf q w).2 ∧
         (descend th p fuel ℓ S).2.1.getLast? = some (th.digest_leaf q w).1 ∧
         ℓ + (descend th p fuel ℓ S).1.length ≤ common_prefix_len q p) := by
  intro fuel
  induction fuel with
  | zero =>
    intro ℓ S hso h2 _ _
    exact (SetOk_ge2_fuel_pos th ℓ S hso h2).elim
  | succ f ih =>
    intro ℓ S hso h2 hfresh hag
    match S, h2, hso, hfresh, hag with
    | a :: b :: t, _, hso, hfresh, hag =>
    have halign : ℓ + (f + 1) = th.hasher.output_size * 8 := hso.1
    by_cases hbit : get_msb_at p ℓ = 0
    · rcases hsc : childF ℓ 0 (a :: b :: t) with _ | ⟨qv, _ | ⟨q2, ct⟩⟩
      · have hd : descend th p (f + 1) ℓ (a :: b :: t) =
            ([cthash th f (ℓ + 1) (childF ℓ 1 (a :: b :: t))],
             [th.zero_hash], ([] : Bytes)) := by
          unfold descend
          simp only [if_pos hbit]
          rw [hsc]
        rw [hd]
        refine ⟨by simp, by simp; omega, by simp, ?_, Or.inl ⟨rfl, rfl⟩⟩
        rw [dpath_node, if_pos hbit, hsc, dpath_nil, cthash_node, hsc]
        rfl
      · rcases qv with ⟨q, w⟩
        have hqmem : (q, w) ∈ a :: b :: t := by
          have : (q, w) ∈ childF ℓ 0 (a :: b :: t) := by
            rw [hsc]; exact List.mem_singleton.mpr rfl
          exact childF_subset _ _ _ _ this
        have hqlen : q.length = th.hasher.output_size := (hso.2.1 (q, w) hqmem).1
        have hqb : ∀ x ∈ q, x < 256 := (hso.2.1 (q, w) hqmem).2
        have hqbit : get_msb_at q ℓ = 0 := by
          have : (q, w) ∈ childF ℓ 0 (a :: b :: t) := by
            rw [hsc]; exact List.mem_singleton.mpr rfl
          have := List.of_mem_filter this
          simpa using this
        have hqne : q ≠ p := by
          intro he
          exact hfresh (List.mem_map.mpr ⟨(q, w), hqmem, by rw [he]⟩)
        have hcge : ℓ + 1 ≤ common_prefix_len q p := by
          apply common_prefix_len_ge q p (ℓ + 1) (by rw [hqlen]; omega)
          intro j hj
          rcases Nat.lt_succ_iff_lt_or_eq.mp hj with hj | hj
          · exact (hag (q, w) hqmem j hj).symm
          · rw [hj, hqbit, hbit]
        have hd : descend th p (f + 1) ℓ (a :: b :: t) =
            ([cthash th f (ℓ + 1) (childF ℓ 1 (a :: b :: t))],
             [(th.digest_leaf q w).1], (th.digest_leaf q w).2) := by
          unfold descend
          simp only [if_pos hbit]
          rw [hsc]
        rw [hd]
        refine ⟨by simp, by simp; omega, by simp, ?_,
          Or.inr ⟨q, w, hqmem, hqne, hqlen, hqb, rfl, rfl, by simpa using hcge⟩⟩
        rw [dpath_node, if_pos hbit, hsc, dpath_singleton, cthash_node, hsc]
        rfl
      · have hszc : SetOk th (ℓ + 1) f (qv :: q2 :: ct) := by
          rw [← hsc]
          exact SetOk_child th ℓ f (a :: b :: t) hso 0
        have hsub : ∀ x, x ∈ (qv :: q2 :: ct) → x ∈ a :: b :: t := by
          intro x hx
          rw [← hsc] at hx
          exact childF_subset _ _ _ x hx
        have hfresh2 : p ∉ (qv :: q2 :: ct).map Prod.fst := by
          intro hmem
          rcases List.mem_map.mp hmem with ⟨x, hx, he⟩
          exact hfresh (List.mem_map.mpr ⟨x, hsub x hx, he⟩)
        have hag2 : ∀ x ∈ (qv :: q2 :: ct), ∀ j < ℓ + 1,
            get_msb_at p j = get_msb_at x.1 j := by
          intro x hx j hj
          rcases Nat.lt_succ_iff_lt_or_eq.mp hj with hj | hj
          · exact hag x (hsub x hx) j hj
          · rw [hj]
            have hx' : x ∈ childF ℓ 0 (a :: b :: t) := by rw [hsc]; exact hx
            have := List.of_mem_filter hx'
            have hxb : get_msb_at x.1 ℓ = 0 := by simpa using this
            rw [hxb, hbit]
        obtain ⟨ih1, ih2, ih3, ih4, ih5⟩ := ih (ℓ + 1) (qv :: q2 :: ct) hszc
          (by simp) hfresh2 hag2
        have hd : descend th p (f + 1) ℓ (a :: b :: t) =
            (cthash th f (ℓ + 1) (childF ℓ 1 (a :: b :: t)) ::
              (descend th p f (ℓ + 1) (qv :: q2 :: ct)).1,
             cthash th f (ℓ + 1) (qv :: q2 :: ct) ::
              (descend th p f (ℓ + 1) (qv :: q2 :: ct)).2.1,
             (descend th p f (ℓ + 1) (qv :: q2 :: ct)).2.2) := by
          conv_lhs => unfold descend
          simp only [if_pos hbit]
          rw [hsc]
        rw [hd]
        dsimp only
        obtain ⟨y, ys, hr21⟩ : ∃ y ys,
            (descend th p f (ℓ + 1) (qv :: q2 :: ct)).2.1 = y :: ys := by
          rcases hr : (descend th p f (ℓ + 1) (qv :: q2 :: ct)).2.1 with _ | ⟨y, ys⟩
          · rw [hr] at ih3
            simp only [List.length_nil] at ih3
            omega
          · exact ⟨y, ys, rfl⟩
        refine ⟨by simp, ?_, ?_, ?_, ?_⟩
        · simp only [List.length_cons]
          omega
        · simp only [List.length_cons]
          omega
        · rw [hr21] at ih4
          rw [dpath_node, if_pos hbit, hsc, List.map_cons, ih4, cthash_node, hsc, hr21]
          rfl
        · rcases ih5 with ⟨h1, h2⟩ | ⟨q, w, hm, hne, hlen, hb, ht, hlast, hcpl⟩
          · rw [hr21] at h2
            refine Or.inl ⟨h1, ?_⟩
            rw [hr21,
              show (cthash th f (ℓ + 1) (qv :: q2 :: ct) :: y :: ys).getLast? =
                (y :: ys).getLast? from List.getLast?_cons_cons, h2]
          · rw [hr21] at hlast
            refine Or.inr ⟨q, w, hsub _ hm, hne, hlen, hb, ht, ?_, ?_⟩
            · rw [hr21,
                show (cthash th f (ℓ + 1) (qv :: q2 :: ct) :: y :: ys).getLast? =
                  (y :: ys).getLast? from List.getLast?_cons_cons, hlast]
            · simp only [List.length_cons]
              omega
    · have hbit1 : get_msb_at p ℓ = 1 := by
        rcases get_msb_at_zero_or_one p ℓ with h | h
        · exact absurd h hbit
        · exact h
      rcases hsc : childF ℓ 1 (a :: b :: t) with _ | ⟨qv, _ | ⟨q2, ct⟩⟩
      · have hd : descend th p (f + 1) ℓ (a :: b :: t) =
            ([cthash th f (ℓ + 1) (childF ℓ 0 (a :: b :: t))],
             [th.zero_hash], ([] : Bytes)) := by
          unfold descend
          simp only [if_neg hbit]
          rw [hsc]
        rw [hd]
        refine ⟨by simp, by simp; omega, by simp, ?_, Or.inl ⟨rfl, rfl⟩⟩
        rw [dpath_node, if_neg hbit, hsc, dpath_nil, cthash_node, hsc]
        rfl
      · rcases qv with ⟨q, w⟩
        have hqmem : (q, w) ∈ a :: b :: t := by
          have : (q, w) ∈ childF ℓ 1 (a :: b :: t) := by
            rw [hsc]; exact List.mem_singleton.mpr rfl
          exact childF_subset _ _ _ _ this
        have hqlen : q.length = th.hasher.output_size := (hso.2.1 (q, w) hqmem).1
        have hqb : ∀ x ∈ q, x < 256 := (hso.2.1 (q, w) hqmem).2
        have hqbit : get_msb_at q ℓ = 1 := by
          have : (q, w) ∈ childF ℓ 1 (a :: b :: t) := by
            rw [hsc]; exact List.mem_singleton.mpr rfl
          have := List.of_mem_filter this
          simpa using this
        have hqne : q ≠ p := by
          intro he
          exact hfresh (List.mem_map.mpr ⟨(q, w), hqmem, by rw [he]⟩)
        have hcge : ℓ + 1 ≤ common_prefix_len q p := by
          apply common_prefix_len_ge q p (ℓ + 1) (by rw [hqlen]; omega)
          intro j hj
          rcases Nat.lt_succ_iff_lt_or_eq.mp hj with hj | hj
          · exact (hag (q, w) hqmem j hj).symm
          · rw [hj, hqbit, hbit1]
        have hd : descend th p (f + 1) ℓ (a :: b :: t) =
            ([cthash th f (ℓ + 1) (childF ℓ 0 (a :: b :: t))],
             [(th.digest_leaf q w).1], (th.digest_leaf q w).2) := by
          unfold descend
          simp only [if_neg hbit]
          rw [hsc]
        rw [hd]
        refine ⟨by simp, by simp; omega, by simp, ?_,
          Or.inr ⟨q, w, hqmem, hqne, hqlen, hqb, rfl, rfl, by simpa using hcge⟩⟩
        rw [dpath_node, if_neg hbit, hsc, dpath_singleton, cthash_node, hsc]
        rfl
      · have hszc : SetOk th (ℓ + 1) f (qv :: q2 :: ct) := by
          rw [← hsc]
          exact SetOk_child th ℓ f (a :: b :: t) hso 1
        have hsub : ∀ x, x ∈ (qv :: q2 :: ct) → x ∈ a :: b :: t := by
          intro x hx
          rw [← hsc] at hx
          exact childF_subset _ _ _ x hx
        have hfresh2 : p ∉ (qv :: q2 :: ct).map Prod.fst := by
          intro hmem
          rcases List.mem_map.mp hmem with ⟨x, hx, he⟩
          exact hfresh (List.mem_map.mpr ⟨x, hsub x hx, he⟩)
        have hag2 : ∀ x ∈ (qv :: q2 :: ct), ∀ j < ℓ + 1,
            get_msb_at p j = get_msb_at x.1 j := by
          intro x hx j hj
          rcases Nat.lt_succ_iff_lt_or_eq.mp hj with hj | hj
          · exact hag x (hsub x hx) j hj
          · rw [hj]
            have hx' : x ∈ childF ℓ 1 (a :: b :: t) := by rw [hsc]; exact hx
            have := List.of_mem_filter hx'
            have hxb : get_msb_at x.1 ℓ = 1 := by simpa using this
            rw [hxb, hbit1]
        obtain ⟨ih1, ih2, ih3, ih4, ih5⟩ := ih (ℓ + 1) (qv :: q2 :: ct) hszc
          (by simp) hfresh2 hag2
        have hd : descend th p (f + 1) ℓ (a :: b :: t) =
            (cthash th f (ℓ + 1) (childF ℓ 0 (a :: b :: t)) ::
              (descend th p f (ℓ + 1) (qv :: q2 :: ct)).1,
             cthash th f (ℓ + 1) (qv :: q2 :: ct) ::
              (descend th p f (ℓ + 1) (qv :: q2 :: ct)).2.1,
             (descend th p f (ℓ + 1) (qv :: q2 :: ct)).2.2) := by
          conv_lhs => unfold descend
          simp only [if_neg hbit]
          rw [hsc]
        rw [hd]
        dsimp only
        obtain ⟨y, ys, hr21⟩ : ∃ y ys,
            (descend th p f (ℓ + 1) (qv :: q2 :: ct)).2.1 = y :: ys := by
          rcases hr : (descend th p f (ℓ + 1) (qv :: q2 :: ct)).2.1 with _ | ⟨y, ys⟩
          · rw [hr] at ih3
            simp only [List.length_nil] at ih3
            omega
          · exact ⟨y, ys, rfl⟩
        refine ⟨by simp, ?_, ?_, ?_, ?_⟩
        · simp only [List.length_cons]
          omega
        · simp only [List.length_cons]
          omega
        · rw [hr21] at ih4
          rw [dpath_node, if_neg hbit, hsc, List.map_cons, ih4, cthash_node, hsc, hr21]
          rfl
        · rcases ih5 with ⟨h1, h2⟩ | ⟨q, w, hm, hne, hlen, hb, ht, hlast, hcpl⟩
          · rw [hr21] at h2
            refine Or.inl ⟨h1, ?_⟩
            rw [hr21,
              show (cthash th f (ℓ + 1) (qv :: q2 :: ct) :: y :: ys).getLast? =
                (y :: ys).getLast? from List.getLast?_cons_cons, h2]
          · rw [hr21] at hlast
            refine Or.inr ⟨q, w, hsub _ hm, hne, hlen, hb, ht, ?_, ?_⟩
            · rw [hr21,
                show (cthash th f (ℓ + 1) (qv :: q2 :: ct) :: y :: ys).getLast? =
                  (y :: ys).getLast? from List.getLast?_cons_cons, hlast]
            · simp only [List.length_cons]
              omega


theorem store_step (st : Store) (Rold Rnew Pre L : List (Bytes × Bytes))
    (K : List Bytes)
    (hmem : ∀ kv, kv ∈ st ↔ kv ∈ Rold)
    (hnodnew : ∀ x ∈ Rnew, ∀ y ∈ Rnew, x.1 = y.1 → x = y)
    (hPre : ∀ r ∈ Pre, r ∈ Rnew)
    (hL : ∀ r ∈ L, r ∈ Rnew)
    (hK : ∀ k ∈ K, ∀ r ∈ Rnew, r.1 ≠ k)
    (hsurv : ∀ r ∈ Rold, r.1 ∉ K → r ∈ Rnew)
    (hcov : ∀ r ∈ Rnew, r ∈ Pre ∨ r ∈ L ∨ r ∈ Rold) :
    ∀ kv, kv ∈ insertAll (K.foldl (fun n d => n.del d) (insertAll st Pre)) L ↔
      kv ∈ Rnew := by
  intro kv
  constructor
  · intro h
    rcases mem_insertAll_cases _ _ _ h with h | h
    · exact hL kv h
    · rw [mem_foldl_del] at h
      rcases mem_insertAll_cases _ _ _ h.1 with h1 | h1
      · exact hPre kv h1
      · exact hsurv kv ((hmem kv).mp h1) h.2
  · intro h
    have hnotK : kv.1 ∉ K := fun hk => hK kv.1 hk kv h rfl
    rcases hcov kv h with hc | hc | hc
    · refine mem_insertAll_of_mem _ _ _ ?_ ?_
      · rw [mem_foldl_del]
        refine ⟨mem_insertAll_of_mem_list _ _ _ hc
          (fun x hx y hy he => hnodnew x (hPre x hx) y (hPre y hy) he), hnotK⟩
      · intro r' hr' he
        exact hnodnew r' (hL r' hr') kv h he
    · exact mem_insertAll_of_mem_list _ _ _ hc
        (fun x hx y hy he => hnodnew x (hL x hx) y (hL y hy) he)
    · refine mem_insertAll_of_mem _ _ _ ?_ ?_
      · rw [mem_foldl_del]
        refine ⟨mem_insertAll_of_mem _ _ _ ((hmem kv).mpr hc) ?_, hnotK⟩
        intro r' hr' he
        exact hnodnew r' (hPre r' hr') kv h he
      · intro r' hr' he
        exact hnodnew r' (hL r' hr') kv h he

theorem reverse_drop_one {α : Type} (l : List α) :
    l.reverse.drop 1 = l.dropLast.reverse := by
  induction l with
  | nil => rfl
  | cons a l ih =>
    match l with
    | [] => rfl
    | b :: m =>
      rw [List.reverse_cons]
      rw [List.drop_append_of_le_length (by simp)]
      rw [ih]
      rw [show (a :: b :: m).dropLast = a :: (b :: m).dropLast from rfl]
      rw [List.reverse_cons]

theorem update_canon_nil (s : SMT) (key value : Bytes)
    (hC : Canon s [])
    (hval : value ≠ []) :
    ∃ s', s.update key value = some s' ∧ s'.tree_hasher = s.tree_hasher ∧
      Canon s' [(s.tree_hasher.path key, s.tree_hasher.digest value)] := by
  obtain ⟨hroot, hkd, hmem⟩ := hC
  have hrp : s.root = s.placeholder := by
    rw [hroot, cthash_nil]
    rfl
  have hside := sidenodes_of_root_ph s s.root (s.tree_hasher.path key) hrp
  refine ⟨{ s with
      nodes := s.nodes.insert
        (s.tree_hasher.digest_leaf (s.tree_hasher.path key)
          (s.tree_hasher.digest value)).1
        (s.tree_hasher.digest_leaf (s.tree_hasher.path key)
          (s.tree_hasher.digest value)).2,
      values := s.values.insert (s.tree_hasher.path key) value,
      root := (s.tree_hasher.digest_leaf (s.tree_hasher.path key)
        (s.tree_hasher.digest value)).1 }, ?_, rfl, ?_, ?_, ?_⟩
  · unfold SMT.update SMT.update_for_root
    dsimp only
    rw [hside]
    dsimp only
    rw [if_neg (show ¬(value = SMT.DEFAULT_VALUE) from hval)]
    unfold SMT.update_raw
    dsimp only
    rw [if_pos (show ([s.root].headD [] : Bytes) = s.placeholder from hrp)]
    dsimp only
    rw [if_neg (show ¬(s.depth ≠ s.depth) from fun h => h rfl),
      if_neg (show ¬(SMT.DEFAULT_VALUE ≠ SMT.DEFAULT_VALUE) from fun h => h rfl)]
    dsimp only
    rw [update_loop_cpl_depth _ _ _ _ _ _ _ _ (by simp)]
    rfl
  · show _ = cthash s.tree_hasher _ 0 _
    rw [cthash_singleton]
  · exact KeysDistinct.insert s.nodes _ _ hkd
  · intro kv
    show kv ∈ Store.insert _ _ _ ↔ _
    rw [Store.mem_insert, ctrecords_singleton, List.mem_singleton]
    constructor
    · rintro (h | ⟨h, _⟩)
      · rw [h]
      · exact absurd ((hmem kv).mp h)
          (by rw [ctrecords_nil]; exact List.not_mem_nil kv)
    · intro h
      exact Or.inl (by rw [h])

set_option maxHeartbeats 2000000 in
theorem update_canon_single (s : SMT) (q0 w0 : Bytes) (key value : Bytes)
    (hok : HashOk s.tree_hasher)
    (hso : SetOk s.tree_hasher 0 s.depth [(q0, w0)])
    (hC : Canon s [(q0, w0)])
    (hval : value ≠ [])
    (hfresh : s.tree_hasher.path key ∉ [(q0, w0)].map Prod.fst)
    (hnod2 : (ctrecords s.tree_hasher s.depth 0
        ((s.tree_hasher.path key, s.tree_hasher.digest value) :: [(q0, w0)])).Pairwise
        (fun x y => x.1 ≠ y.1)) :
    ∃ s', s.update key value = some s' ∧ s'.tree_hasher = s.tree_hasher ∧
      Canon s' ((s.tree_hasher.path key, s.tree_hasher.digest value) :: [(q0, w0)]) := by
  obtain ⟨hroot, hkd, hmem⟩ := hC
  have hq0len : q0.length = s.tree_hasher.hasher.output_size :=
    (hso.2.1 (q0, w0) (by simp)).1
  have hq0b : ∀ x ∈ q0, x < 256 := (hso.2.1 (q0, w0) (by simp)).2
  have hplen : (s.tree_hasher.path key).length = s.tree_hasher.hasher.output_size :=
    hok.2.2.1 key
  have hpb : ∀ x ∈ s.tree_hasher.path key, x < 256 := hok.2.2.2.2 key
  have hpne : q0 ≠ s.tree_hasher.path key := by
    intro he
    exact hfresh (by simp [he])
  have hdepth8 : s.depth = s.tree_hasher.hasher.output_size * 8 := rfl
  have hcpl_lt : common_prefix_len q0 (s.tree_hasher.path key) < s.depth := by
    have := common_prefix_len_lt_of_ne q0 (s.tree_hasher.path key)
      (hq0len.trans hplen.symm) hq0b hpb hpne
    rw [hq0len] at this
    rw [hdepth8]
    exact this
  have hcne : common_prefix_len q0 (s.tree_hasher.path key) ≠ s.depth := by omega
  have hrl : s.root = (s.tree_hasher.digest_leaf q0 w0).1 := by
    rw [hroot, cthash_singleton]
  have hrnp : s.root ≠ s.placeholder := by
    rw [hrl]
    show s.tree_hasher.hasher.hash _ ≠ s.tree_hasher.zero_hash
    rw [hok.1]
    exact hok.2.2.2.1 _
  have hside : s.sidenodes s.root (s.tree_hasher.path key) =
      some ([], [s.root], (s.tree_hasher.digest_leaf q0 w0).2) := by
    unfold SMT.sidenodes
    rw [if_neg hrnp]
    have hget : Store.get s.nodes s.root =
        some (s.tree_hasher.digest_leaf q0 w0).2 := by
      rw [hrl, Store.get_iff_mem _ _ _ hkd, hmem, ctrecords_singleton]
      exact List.mem_singleton.mpr rfl
    rw [hget]
    dsimp only
    rw [if_pos (show s.tree_hasher.is_leaf (s.tree_hasher.digest_leaf q0 w0).2 = true
      from by simp [TreeHasher.is_leaf, TreeHasher.digest_leaf])]
  have hparse : s.tree_hasher.parse_leaf ((s.tree_hasher.digest_leaf q0 w0).2) =
      (q0, w0) := by
    show s.tree_hasher.parse_leaf (0 :: (q0 ++ w0)) = (q0, w0)
    exact parse_leaf_spec s.tree_hasher q0 w0 hq0len
  have happ : ∀ (c : Prop) [Decidable c] (x y : Bytes × Bytes),
      (if c then x else y).1 = if c then x.1 else y.1 := by
    intro c hc x y
    by_cases h : c
    · rw [if_pos h, if_pos h]
    · rw [if_neg h, if_neg h]
  have hpairrec := ctrecords_pair s.tree_hasher (s.tree_hasher.path key)
    (s.tree_hasher.digest value) q0 w0 hplen hq0len hpb hq0b hpne s.depth 0
    (by rw [hdepth8]; omega) (by omega)
  have hpairval := cthash_pair s.tree_hasher (s.tree_hasher.path key)
    (s.tree_hasher.digest value) q0 w0 hplen hq0len hpb hq0b hpne s.depth 0
    (by rw [hdepth8]; omega) (by omega)
  rw [Nat.sub_zero, ← happ] at hpairval
  conv at hpairrec =>
    intro r
    rw [Nat.sub_zero, ← happ]
  have hnodnew : ∀ x ∈ ctrecords s.tree_hasher s.depth 0
      ((s.tree_hasher.path key, s.tree_hasher.digest value) :: [(q0, w0)]),
      ∀ y ∈ ctrecords s.tree_hasher s.depth 0
      ((s.tree_hasher.path key, s.tree_hasher.digest value) :: [(q0, w0)]),
      x.1 = y.1 → x = y :=
    fun x hx y hy he => pairwise_key_eq _ x y hnod2 hx hy he
  refine ⟨?_, ?_, ?_, ?_, ?_, ?_⟩
  rotate_left
  · unfold SMT.update SMT.update_for_root
    dsimp only
    rw [hside]
    dsimp only
    rw [if_neg (show ¬(value = SMT.DEFAULT_VALUE) from hval)]
    unfold SMT.update_raw
    dsimp only
    rw [if_neg (show ¬(([s.root].headD [] : Bytes) = s.placeholder) from hrnp)]
    dsimp only
    rw [hparse]
    dsimp only
    rw [if_pos hcne]
    dsimp only
    rw [show ([s.root].headD [] : Bytes) = (s.tree_hasher.digest_leaf q0 w0).1
      from hrl]
    rw [update_loop_full_chain s _ _ [] hcne (by simp) (by omega)]
    exact rfl
  · rfl
  · exact hpairval.symm
  · show KeysDistinct (insertAll _ _)
    exact KeysDistinct.insertAll _ _
      (KeysDistinct.foldl_del _ _
        (KeysDistinct.insert _ _ _ (KeysDistinct.insert _ _ _ hkd)))
  · intro kv
    refine store_step s.nodes (ctrecords s.tree_hasher s.depth 0 [(q0, w0)]) _
      [s.tree_hasher.digest_leaf (s.tree_hasher.path key) (s.tree_hasher.digest value),
       if get_msb_at (s.tree_hasher.path key)
           (common_prefix_len q0 (s.tree_hasher.path key)) = 0 then
         s.tree_hasher.digest_node
           (s.tree_hasher.digest_leaf (s.tree_hasher.path key)
             (s.tree_hasher.digest value)).1 (s.tree_hasher.digest_leaf q0 w0).1
       else
         s.tree_hasher.digest_node (s.tree_hasher.digest_leaf q0 w0).1
           (s.tree_hasher.digest_leaf (s.tree_hasher.path key)
             (s.tree_hasher.digest value)).1]
      _ (List.drop 1 [s.root]) hmem hnodnew ?_ ?_ ?_ ?_ ?_ kv
    · intro r hr
      rcases List.mem_cons.mp hr with h | h
      · exact (hpairrec r).mpr (Or.inl h)
      · rcases List.mem_cons.mp h with h | h
        · exact (hpairrec r).mpr (Or.inr (Or.inr (Or.inl h)))
        · exact absurd h (List.not_mem_nil r)
    · intro r hr
      rcases List.mem_append.mp hr with h | h
      · exact (hpairrec r).mpr (Or.inr (Or.inr (Or.inr h)))
      · exact absurd h (List.not_mem_nil r)
    · intro k hk
      exact absurd hk (by simp)
    · intro r hr _
      rw [ctrecords_singleton, List.mem_singleton] at hr
      exact (hpairrec r).mpr (Or.inr (Or.inl hr))
    · intro r hr
      rcases (hpairrec r).mp hr with h | h | h | h
      · exact Or.inl (by rw [h]; exact List.mem_cons_self _ _)
      · refine Or.inr (Or.inr ?_)
        rw [ctrecords_singleton, List.mem_singleton]
        exact h
      · exact Or.inl (by rw [h]; exact List.mem_cons_of_mem _ (List.mem_cons_self _ _))
      · exact Or.inr (Or.inl (List.mem_append.mpr (Or.inl h)))



theorem sidenodes_ge2 (s : SMT) (S : List (Bytes × Bytes)) (p : Bytes)
    (hok : HashOk s.tree_hasher)
    (hso : SetOk s.tree_hasher 0 s.depth S)
    (h2 : 2 ≤ S.length)
    (hC : Canon s S) :
    s.sidenodes s.root p =
      some ((descend s.tree_hasher p s.depth 0 S).1.reverse,
            (descend s.tree_hasher p s.depth 0 S).2.1.reverse ++ [s.root],
            (descend s.tree_hasher p s.depth 0 S).2.2) := by
  have hst := canon_stored s S hC
  obtain ⟨hroot, hkd, hmem⟩ := hC
  have hdpos : 0 < s.depth := by
    have h1 := hok.2.1
    show 0 < s.tree_hasher.hasher.output_size * 8
    omega
  obtain ⟨f, hf⟩ : ∃ f, s.depth = f + 1 := ⟨s.depth - 1, by omega⟩
  match S, h2, hso, hst, hroot, hmem with
  | a :: b :: t, _, hso, hst, hroot, hmem =>
  have hrn : s.root ≠ s.placeholder := by
    rw [hroot]
    exact cthash_ne_zero _ _ _ _ hok hso (by simp)
  rw [hf] at hso hst hroot
  have hgetmem : (s.root,
      (1 : Nat) :: (cthash s.tree_hasher f (0 + 1) (childF 0 0 (a :: b :: t)) ++
        cthash s.tree_hasher f (0 + 1) (childF 0 1 (a :: b :: t)))) ∈ s.nodes := by
    rw [hmem, hf, ctrecords_node]
    refine List.mem_cons.mpr (Or.inl ?_)
    rw [hroot, cthash_node]
    rfl
  have hget : Store.get s.nodes s.root = some
      ((1 : Nat) :: (cthash s.tree_hasher f (0 + 1) (childF 0 0 (a :: b :: t)) ++
        cthash s.tree_hasher f (0 + 1) (childF 0 1 (a :: b :: t)))) := by
    rw [Store.get_iff_mem _ _ _ hkd]
    exact hgetmem
  unfold SMT.sidenodes
  rw [if_neg hrn, hget]
  dsimp only
  rw [if_neg (show ¬(s.tree_hasher.is_leaf
      ((1 : Nat) :: (cthash s.tree_hasher f (0 + 1) (childF 0 0 (a :: b :: t)) ++
        cthash s.tree_hasher f (0 + 1) (childF 0 1 (a :: b :: t)))) = true)
    from by simp [TreeHasher.is_leaf])]
  rw [hf]
  rw [sidenodes_loop_canon s p hok f 0 (a :: b :: t) [] [s.root] hso (by simp) hst]
  simp [List.reverse_append]

set_option maxHeartbeats 4000000 in
theorem update_canon_ge2 (s : SMT) (S : List (Bytes × Bytes)) (key value : Bytes)
    (hok : HashOk s.tree_hasher)
    (hso : SetOk s.tree_hasher 0 s.depth S)
    (h2 : 2 ≤ S.length)
    (hC : Canon s S)
    (hval : value ≠ [])
    (hfresh : s.tree_hasher.path key ∉ S.map Prod.fst)
    (hnod : (ctrecords s.tree_hasher s.depth 0 S).Pairwise (fun x y => x.1 ≠ y.1))
    (hnod2 : (ctrecords s.tree_hasher s.depth 0
        ((s.tree_hasher.path key, s.tree_hasher.digest value) :: S)).Pairwise
        (fun x y => x.1 ≠ y.1))
    (hdel : ∀ r ∈ dpath s.tree_hasher (s.tree_hasher.path key) s.depth 0 S,
      r.1 ∉ (ctrecords s.tree_hasher s.depth 0
        ((s.tree_hasher.path key, s.tree_hasher.digest value) :: S)).map Prod.fst) :
    ∃ s', s.update key value = some s' ∧ s'.tree_hasher = s.tree_hasher ∧
      Canon s' ((s.tree_hasher.path key, s.tree_hasher.digest value) :: S) := by
  have hsn := sidenodes_ge2 s S (s.tree_hasher.path key) hok hso h2 hC
  obtain ⟨hroot, hkd, hmem⟩ := hC
  have hplen : (s.tree_hasher.path key).length = s.tree_hasher.hasher.output_size :=
    hok.2.2.1 key
  have hpb : ∀ x ∈ s.tree_hasher.path key, x < 256 := hok.2.2.2.2 key
  have hdepth8 : s.depth = s.tree_hasher.hasher.output_size * 8 := rfl
  have hag : ∀ qv ∈ S, ∀ j < 0, get_msb_at (s.tree_hasher.path key) j =
      get_msb_at qv.1 j := fun qv _ j hj => absurd hj (Nat.not_lt_zero j)
  have hcanon := cthash_insert_canon s.tree_hasher (s.tree_hasher.path key)
    (s.tree_hasher.digest value) hplen hpb s.depth 0 S hso h2 hfresh hag hnod
  obtain ⟨hd1, hd2, hd3, hd4, hterm⟩ := descend_struct s.tree_hasher
    (s.tree_hasher.path key) s.depth 0 S hso h2 hfresh hag
  simp only [Nat.zero_add] at hcanon
  have happ : ∀ (c : Prop) [Decidable c] (x y : Bytes × Bytes),
      (if c then x else y).1 = if c then x.1 else y.1 := by
    intro c hc x y
    by_cases h : c
    · rw [if_pos h, if_pos h]
    · rw [if_neg h, if_neg h]
  have hnodnew : ∀ x ∈ ctrecords s.tree_hasher s.depth 0
      ((s.tree_hasher.path key, s.tree_hasher.digest value) :: S),
      ∀ y ∈ ctrecords s.tree_hasher s.depth 0
      ((s.tree_hasher.path key, s.tree_hasher.digest value) :: S),
      x.1 = y.1 → x = y :=
    fun x hx y hy he => pairwise_key_eq _ x y hnod2 hx hy he
  have hpnne : (descend s.tree_hasher (s.tree_hasher.path key) s.depth 0 S).2.1 ≠
      [] := by
    intro h
    rw [h] at hd3
    simp only [List.length_nil] at hd3
    omega
  have hKmain : ∀ k, (k ∈ (descend s.tree_hasher (s.tree_hasher.path key) s.depth 0
        S).2.1.dropLast ∨ k = s.root) →
      ∀ r ∈ ctrecords s.tree_hasher s.depth 0
        ((s.tree_hasher.path key, s.tree_hasher.digest value) :: S), r.1 ≠ k := by
    intro k hk r hr he
    have hkd2 : k ∈ (dpath s.tree_hasher (s.tree_hasher.path key) s.depth 0 S).map
        Prod.fst := by
      rw [hd4, List.mem_cons]
      rcases hk with h | h
      · exact Or.inr h
      · exact Or.inl (by rw [← hroot, ← h])
    rcases List.mem_map.mp hkd2 with ⟨r0, hr0, hr0k⟩
    exact hdel r0 hr0 (List.mem_map.mpr ⟨r, hr, by rw [he, hr0k]⟩)
  have hndp : ∀ r : Bytes × Bytes,
      (r.1 ∉ (descend s.tree_hasher (s.tree_hasher.path key) s.depth 0
        S).2.1.dropLast ∧ r.1 ≠ s.root) →
      r ∉ dpath s.tree_hasher (s.tree_hasher.path key) s.depth 0 S := by
    intro r hr hmemd
    have : r.1 ∈ (dpath s.tree_hasher (s.tree_hasher.path key) s.depth 0 S).map
        Prod.fst := List.mem_map.mpr ⟨r, hmemd, rfl⟩
    rw [hd4, List.mem_cons] at this
    rcases this with h | h
    · exact hr.2 (by rw [h, hroot])
    · exact hr.1 h
  rcases hterm with ⟨ht0, hz⟩ | ⟨q, w, hqmem, hqne, hqlen, hqb, ht2, hz, hcpl0⟩
  · -- terminal is the placeholder: the no-chain branch of `_update`
    obtain ⟨ini, hini⟩ : ∃ ini,
        (descend s.tree_hasher (s.tree_hasher.path key) s.depth 0 S).2.1 =
          ini ++ [s.tree_hasher.zero_hash] := by
      rcases List.eq_nil_or_concat
        (descend s.tree_hasher (s.tree_hasher.path key) s.depth 0 S).2.1 with
        h | ⟨ini, z, h⟩
      · exact absurd h hpnne
      · rw [List.concat_eq_append] at h
        rw [h, getLast?_snoc] at hz
        obtain rfl := Option.some.inj hz
        exact ⟨ini, h⟩
    have hhead : (((descend s.tree_hasher (s.tree_hasher.path key) s.depth 0
        S).2.1.reverse ++ [s.root]).headD [] : Bytes) = s.placeholder := by
      rw [hini]
      simp [List.reverse_append]
      rfl
    have hdrop1 : ((descend s.tree_hasher (s.tree_hasher.path key) s.depth 0
        S).2.1.reverse ++ [s.root]).drop 1 = ini.reverse ++ [s.root] := by
      rw [hini]
      simp [List.reverse_append]
    have hbase : insBase s.tree_hasher (s.tree_hasher.path key)
        (s.tree_hasher.digest value)
        (descend s.tree_hasher (s.tree_hasher.path key) s.depth 0 S).1.length
        (descend s.tree_hasher (s.tree_hasher.path key) s.depth 0 S).2.2 =
        ((s.tree_hasher.digest_leaf (s.tree_hasher.path key)
            (s.tree_hasher.digest value)).1,
         [s.tree_hasher.digest_leaf (s.tree_hasher.path key)
            (s.tree_hasher.digest value)]) := by
      rw [ht0]
      unfold insBase
      rw [if_pos rfl]
    rw [hbase] at hcanon
    dsimp only at hcanon
    have hKb : ∀ k ∈ ini.reverse ++ [s.root],
        ∀ r ∈ ctrecords s.tree_hasher s.depth 0
          ((s.tree_hasher.path key, s.tree_hasher.digest value) :: S), r.1 ≠ k := by
      intro k hk
      refine hKmain k ?_
      rcases List.mem_append.mp hk with h | h
      · exact Or.inl (by rw [hini, List.dropLast_concat]; exact List.mem_reverse.mp h)
      · exact Or.inr (by simpa using h)
    refine ⟨?_, ?_, ?_, ?_, ?_, ?_⟩
    rotate_left
    · unfold SMT.update SMT.update_for_root
      dsimp only
      rw [hsn]
      dsimp only
      rw [if_neg (show ¬(value = SMT.DEFAULT_VALUE) from hval)]
      unfold SMT.update_raw
      dsimp only
      rw [if_pos hhead]
      dsimp only
      rw [if_neg (show ¬(s.depth ≠ s.depth) from fun h => h rfl),
        if_neg (show ¬(SMT.DEFAULT_VALUE ≠ SMT.DEFAULT_VALUE) from fun h => h rfl)]
      dsimp only
      rw [hdrop1]
      rw [update_loop_full_nochain s (s.tree_hasher.path key) _
        (by rw [List.length_reverse]; omega)]
      exact rfl
    · rfl
    · exact hcanon.1.symm
    · show KeysDistinct (insertAll _ _)
      exact KeysDistinct.insertAll _ _
        (KeysDistinct.foldl_del _ _ (KeysDistinct.insert _ _ _ hkd))
    · intro kv
      refine store_step s.nodes (ctrecords s.tree_hasher s.depth 0 S) _
        [s.tree_hasher.digest_leaf (s.tree_hasher.path key)
          (s.tree_hasher.digest value)]
        _ (ini.reverse ++ [s.root]) hmem hnodnew ?_ ?_ ?_ ?_ ?_ kv
      · intro r hr
        rcases List.mem_cons.mp hr with h | h
        · refine (hcanon.2 r).mpr (Or.inr (Or.inl ?_))
          rw [h]
          exact List.mem_singleton.mpr rfl
        · exact absurd h (List.not_mem_nil r)
      · intro r hr
        exact (hcanon.2 r).mpr (Or.inl hr)
      · exact hKb
      · intro r hr hrk
        refine (hcanon.2 r).mpr (Or.inr (Or.inr ⟨hr, hndp r ⟨?_, ?_⟩⟩))
        · intro hmem2
          refine hrk (List.mem_append.mpr (Or.inl ?_))
          rw [hini, List.dropLast_concat] at hmem2
          exact List.mem_reverse.mpr hmem2
        · intro he
          refine hrk (List.mem_append.mpr (Or.inr ?_))
          rw [he]
          exact List.mem_singleton.mpr rfl
      · intro r hr
        rcases (hcanon.2 r).mp hr with h | h | ⟨h, _⟩
        · exact Or.inr (Or.inl h)
        · refine Or.inl ?_
          rcases List.mem_singleton.mp h with h2
          rw [h2]
          exact List.mem_singleton.mpr rfl
        · exact Or.inr (Or.inr h)
  · -- terminal is an existing leaf: the bridge-and-chain branch of `_update`
    obtain ⟨ini, hini⟩ : ∃ ini,
        (descend s.tree_hasher (s.tree_hasher.path key) s.depth 0 S).2.1 =
          ini ++ [(s.tree_hasher.digest_leaf q w).1] := by
      rcases List.eq_nil_or_concat
        (descend s.tree_hasher (s.tree_hasher.path key) s.depth 0 S).2.1 with
        h | ⟨ini, z, h⟩
      · exact absurd h hpnne
      · rw [List.concat_eq_append] at h
        rw [h, getLast?_snoc] at hz
        obtain rfl := Option.some.inj hz
        exact ⟨ini, h⟩
    have hhead : (((descend s.tree_hasher (s.tree_hasher.path key) s.depth 0
        S).2.1.reverse ++ [s.root]).headD [] : Bytes) =
        (s.tree_hasher.digest_leaf q w).1 := by
      rw [hini]
      simp [List.reverse_append]
    have hheadne : ((s.tree_hasher.digest_leaf q w).1 : Bytes) ≠ s.placeholder := by
      show s.tree_hasher.hasher.hash _ ≠ s.tree_hasher.zero_hash
      rw [hok.1]
      exact hok.2.2.2.1 _
    have hdrop1 : ((descend s.tree_hasher (s.tree_hasher.path key) s.depth 0
        S).2.1.reverse ++ [s.root]).drop 1 = ini.reverse ++ [s.root] := by
      rw [hini]
      simp [List.reverse_append]
    have hparse : s.tree_hasher.parse_leaf
        (descend s.tree_hasher (s.tree_hasher.path key) s.depth 0 S).2.2 =
        (q, w) := by
      rw [ht2]
      exact parse_leaf_spec s.tree_hasher q w hqlen
    have hcpl_lt : common_prefix_len q (s.tree_hasher.path key) < s.depth := by
      have := common_prefix_len_lt_of_ne q (s.tree_hasher.path key)
        (hqlen.trans hplen.symm) hqb hpb hqne
      rw [hqlen] at this
      rw [hdepth8]
      exact this
    have hcne : common_prefix_len q (s.tree_hasher.path key) ≠ s.depth := by omega
    have htne : (descend s.tree_hasher (s.tree_hasher.path key) s.depth 0 S).2.2 ≠
        [] := by
      rw [ht2]
      intro h
      simp [TreeHasher.digest_leaf] at h
    have hbase : insBase s.tree_hasher (s.tree_hasher.path key)
        (s.tree_hasher.digest value)
        (descend s.tree_hasher (s.tree_hasher.path key) s.depth 0 S).1.length
        (descend s.tree_hasher (s.tree_hasher.path key) s.depth 0 S).2.2 =
        ((chain_segR s.tree_hasher (s.tree_hasher.path key)
            (descend s.tree_hasher (s.tree_hasher.path key) s.depth 0 S).1.length
            (common_prefix_len q (s.tree_hasher.path key) -
              (descend s.tree_hasher (s.tree_hasher.path key) s.depth 0 S).1.length)
            (if get_msb_at (s.tree_hasher.path key)
                (common_prefix_len q (s.tree_hasher.path key)) = 0 then
              s.tree_hasher.digest_node
                (s.tree_hasher.digest_leaf (s.tree_hasher.path key)
                  (s.tree_hasher.digest value)).1
                (s.tree_hasher.digest_leaf q w).1
             else
              s.tree_hasher.digest_node (s.tree_hasher.digest_leaf q w).1
                (s.tree_hasher.digest_leaf (s.tree_hasher.path key)
                  (s.tree_hasher.digest value)).1).1).1,
         s.tree_hasher.digest_leaf (s.tree_hasher.path key)
            (s.tree_hasher.digest value) ::
          s.tree_hasher.digest_leaf q w ::
          (if get_msb_at (s.tree_hasher.path key)
              (common_prefix_len q (s.tree_hasher.path key)) = 0 then
            s.tree_hasher.digest_node
              (s.tree_hasher.digest_leaf (s.tree_hasher.path key)
                (s.tree_hasher.digest value)).1
              (s.tree_hasher.digest_leaf q w).1
           else
            s.tree_hasher.digest_node (s.tree_hasher.digest_leaf q w).1
              (s.tree_hasher.digest_leaf (s.tree_hasher.path key)
                (s.tree_hasher.digest value)).1) ::
          (chain_segR s.tree_hasher (s.tree_hasher.path key)
            (descend s.tree_hasher (s.tree_hasher.path key) s.depth 0 S).1.length
            (common_prefix_len q (s.tree_hasher.path key) -
              (descend s.tree_hasher (s.tree_hasher.path key) s.depth 0 S).1.length)
            (if get_msb_at (s.tree_hasher.path key)
                (common_prefix_len q (s.tree_hasher.path key)) = 0 then
              s.tree_hasher.digest_node
                (s.tree_hasher.digest_leaf (s.tree_hasher.path key)
                  (s.tree_hasher.digest value)).1
                (s.tree_hasher.digest_leaf q w).1
             else
              s.tree_hasher.digest_node (s.tree_hasher.digest_leaf q w).1
                (s.tree_hasher.digest_leaf (s.tree_hasher.path key)
                  (s.tree_hasher.digest value)).1).1).2) := by
      unfold insBase
      rw [if_neg htne, hparse]
      dsimp only
      rw [← happ]
    rw [hbase] at hcanon
    dsimp only at hcanon
    have hKb : ∀ k ∈ ini.reverse ++ [s.root],
        ∀ r ∈ ctrecords s.tree_hasher s.depth 0
          ((s.tree_hasher.path key, s.tree_hasher.digest value) :: S), r.1 ≠ k := by
      intro k hk
      refine hKmain k ?_
      rcases List.mem_append.mp hk with h | h
      · exact Or.inl (by rw [hini, List.dropLast_concat]; exact List.mem_reverse.mp h)
      · exact Or.inr (by simpa using h)
    refine ⟨?_, ?_, ?_, ?_, ?_, ?_⟩
    rotate_left
    · unfold SMT.update SMT.update_for_root
      dsimp only
      rw [hsn]
      dsimp only
      rw [if_neg (show ¬(value = SMT.DEFAULT_VALUE) from hval)]
      unfold SMT.update_raw
      dsimp only
      rw [hhead]
      rw [if_neg hheadne]
      dsimp only
      rw [hparse]
      dsimp only
      rw [if_pos hcne]
      dsimp only
      rw [hdrop1]
      rw [update_loop_full_chain s (s.tree_hasher.path key)
        (common_prefix_len q (s.tree_hasher.path key))
        (descend s.tree_hasher (s.tree_hasher.path key) s.depth 0 S).1.reverse
        hcne (by rw [List.length_reverse]; omega) (by omega)]
      rw [List.length_reverse]
      exact rfl
    · rfl
    · exact hcanon.1.symm
    · show KeysDistinct (insertAll _ _)
      exact KeysDistinct.insertAll _ _
        (KeysDistinct.foldl_del _ _
          (KeysDistinct.insert _ _ _ (KeysDistinct.insert _ _ _ hkd)))
    · intro kv
      refine store_step s.nodes (ctrecords s.tree_hasher s.depth 0 S) _
        [s.tree_hasher.digest_leaf (s.tree_hasher.path key)
          (s.tree_hasher.digest value),
         if get_msb_at (s.tree_hasher.path key)
             (common_prefix_len q (s.tree_hasher.path key)) = 0 then
           s.tree_hasher.digest_node
             (s.tree_hasher.digest_leaf (s.tree_hasher.path key)
               (s.tree_hasher.digest value)).1
             (s.tree_hasher.digest_leaf q w).1
         else
           s.tree_hasher.digest_node (s.tree_hasher.digest_leaf q w).1
             (s.tree_hasher.digest_leaf (s.tree_hasher.path key)
               (s.tree_hasher.digest value)).1]
        _ (ini.reverse ++ [s.root]) hmem hnodnew ?_ ?_ ?_ ?_ ?_ kv
      · intro r hr
        rcases List.mem_cons.mp hr with h | h
        · refine (hcanon.2 r).mpr (Or.inr (Or.inl ?_))
          rw [h]
          exact List.mem_cons_self _ _
        · rcases List.mem_cons.mp h with h | h
          · refine (hcanon.2 r).mpr (Or.inr (Or.inl ?_))
            rw [h]
            exact List.mem_cons_of_mem _ (List.mem_cons_of_mem _
              (List.mem_cons_self _ _))
          · exact absurd h (List.not_mem_nil r)
      · intro r hr
        rcases List.mem_append.mp hr with h | h
        · exact (hcanon.2 r).mpr (Or.inr (Or.inl
            (List.mem_cons_of_mem _ (List.mem_cons_of_mem _
              (List.mem_cons_of_mem _ h)))))
        · exact (hcanon.2 r).mpr (Or.inl h)
      · exact hKb
      · intro r hr hrk
        refine (hcanon.2 r).mpr (Or.inr (Or.inr ⟨hr, hndp r ⟨?_, ?_⟩⟩))
        · intro hmem2
          refine hrk (List.mem_append.mpr (Or.inl ?_))
          rw [hini, List.dropLast_concat] at hmem2
          exact List.mem_reverse.mpr hmem2
        · intro he
          refine hrk (List.mem_append.mpr (Or.inr ?_))
          rw [he]
          exact List.mem_singleton.mpr rfl
      · intro r hr
        rcases (hcanon.2 r).mp hr with h | h | ⟨h, _⟩
        · exact Or.inr (Or.inl (List.mem_append.mpr (Or.inr h)))
        · rcases List.mem_cons.mp h with h2 | h2
          · refine Or.inl ?_
            rw [h2]
            exact List.mem_cons_self _ _
          · rcases List.mem_cons.mp h2 with h3 | h3
            · refine Or.inr (Or.inr ?_)
              rw [h3]
              exact ctrecords_mem_leaf s.tree_hasher s.depth 0 S hso (q, w) hqmem
            · rcases List.mem_cons.mp h3 with h4 | h4
              · refine Or.inl ?_
                rw [h4]
                exact List.mem_cons_of_mem _ (List.mem_cons_self _ _)
              · exact Or.inr (Or.inl (List.mem_append.mpr (Or.inl h4)))
        · exact Or.inr (Or.inr h)


theorem updAll_canon :
    ∀ (L : List (Bytes × Bytes)) (s : SMT) (S : List (Bytes × Bytes)),
      HashOk s.tree_hasher →
      SetOk s.tree_hasher 0 s.depth S →
      Canon s S →
      (ctrecords s.tree_hasher s.depth 0 S).Pairwise (fun x y => x.1 ≠ y.1) →
      insOkB s.tree_hasher s.depth S L = true →
      ∃ s', updAll s L = some s' ∧ s'.tree_hasher = s.tree_hasher ∧
        Canon s' (insList s.tree_hasher S L) ∧
        SetOk s.tree_hasher 0 s.depth (insList s.tree_hasher S L) ∧
        (ctrecords s.tree_hasher s.depth 0 (insList s.tree_hasher S L)).Pairwise
          (fun x y => x.1 ≠ y.1) := by
  intro L
  induction L with
  | nil =>
    intro s S hok hso hC hnod hins
    exact ⟨s, rfl, rfl, hC, hso, hnod⟩
  | cons kv rest ih =>
    intro s S hok hso hC hnod hins
    simp only [insOkB, Bool.and_eq_true, decide_eq_true_eq] at hins
    obtain ⟨⟨⟨⟨h1, h2⟩, h3⟩, h4⟩, h5⟩ := hins
    have hstep : ∃ s1, s.update kv.1 kv.2 = some s1 ∧
        s1.tree_hasher = s.tree_hasher ∧
        Canon s1 ((s.tree_hasher.path kv.1, s.tree_hasher.digest kv.2) :: S) := by
      match S, hso, hC, hnod, h2, h3, h4 with
      | [], hso, hC, hnod, h2, h3, h4 =>
        exact update_canon_nil s kv.1 kv.2 hC h1
      | [q0w0], hso, hC, hnod, h2, h3, h4 =>
        exact update_canon_single s q0w0.1 q0w0.2 kv.1 kv.2 hok hso hC h1 h2 h3
      | a :: b :: t, hso, hC, hnod, h2, h3, h4 =>
        exact update_canon_ge2 s (a :: b :: t) kv.1 kv.2 hok hso (by simp) hC h1
          h2 hnod h3 h4
    obtain ⟨s1, hs1, hth, hC1⟩ := hstep
    have hdep : s1.depth = s.depth := by
      unfold SMT.depth
      rw [hth]
    have hplen2 : (s.tree_hasher.path kv.1).length =
        s.tree_hasher.hasher.output_size := hok.2.2.1 kv.1
    have hpb2 : ∀ x ∈ s.tree_hasher.path kv.1, x < 256 := hok.2.2.2.2 kv.1
    have hso1 : SetOk s.tree_hasher 0 s.depth
        ((s.tree_hasher.path kv.1, s.tree_hasher.digest kv.2) :: S) :=
      SetOk_cons s.tree_hasher 0 s.depth S _ _ hso hplen2 hpb2 h2
        (fun qv _ j hj => absurd hj (Nat.not_lt_zero j))
    have hok1 : HashOk s1.tree_hasher := by
      rw [hth]
      exact hok
    have hso1' : SetOk s1.tree_hasher 0 s1.depth
        ((s1.tree_hasher.path kv.1, s1.tree_hasher.digest kv.2) :: S) := by
      rw [hth, hdep]
      exact hso1
    have hC1' : Canon s1
        ((s1.tree_hasher.path kv.1, s1.tree_hasher.digest kv.2) :: S) := by
      rw [hth]
      exact hC1
    have hnod1 : (ctrecords s1.tree_hasher s1.depth 0
        ((s1.tree_hasher.path kv.1, s1.tree_hasher.digest kv.2) :: S)).Pairwise
        (fun x y => x.1 ≠ y.1) := by
      rw [hth, hdep]
      exact h3
    have hins1 : insOkB s1.tree_hasher s1.depth
        ((s1.tree_hasher.path kv.1, s1.tree_hasher.digest kv.2) :: S) rest =
        true := by
      rw [hth, hdep]
      exact h5
    obtain ⟨s2, hs2, hth2, hC2, hso2, hnod2'⟩ := ih s1 _ hok1 hso1' hC1' hnod1 hins1
    rw [hth] at hC2 hso2 hnod2' hth2
    rw [hdep] at hso2 hnod2'
    refine ⟨s2, ?_, hth2, hC2, hso2, hnod2'⟩
    show updAll s (kv :: rest) = some s2
    unfold updAll
    rw [hs1]
    exact hs2

theorem insList_perm (th : TreeHasher) :
    ∀ (L S : List (Bytes × Bytes)),
      (insList th S L).Perm
        (S ++ L.map (fun kv => (th.path kv.1, th.digest kv.2))) := by
  intro L
  induction L with
  | nil =>
    intro S
    simp [insList]
  | cons kv rest ih =>
    intro S
    show (insList th ((th.path kv.1, th.digest kv.2) :: S) rest).Perm _
    refine (ih _).trans ?_
    rw [List.cons_append]
    exact List.perm_middle.symm

/-- C9: for every finite set of key–value pairs with pairwise distinct paths
    and non-empty values (and no incidental digest collisions along either
    insertion order, as captured by `insOkB`), applying the updates to an
    empty tree produces the same root for every insertion order. -/
theorem c9_deterministic_root (th : TreeHasher)
    (L L' : List (Bytes × Bytes))
    (hok : HashOk th)
    (hperm : L.Perm L')
    (hins : insOkB th (th.hasher.output_size * 8) [] L = true)
    (hins' : insOkB th (th.hasher.output_size * 8) [] L' = true) :
    ∃ s1 s2, updAll (SMT.new th) L = some s1 ∧ updAll (SMT.new th) L' = some s2 ∧
      s1.root = s2.root := by
  have hok0 : HashOk (SMT.new th).tree_hasher := hok
  have hso0 : SetOk (SMT.new th).tree_hasher 0 (SMT.new th).depth
      ([] : List (Bytes × Bytes)) := by
    refine ⟨Nat.zero_add _, ?_, List.Pairwise.nil, ?_⟩
    · intro pv hpv
      exact absurd hpv (List.not_mem_nil pv)
    · intro a ha
      exact absurd ha (List.not_mem_nil a)
  have hC0 : Canon (SMT.new th) ([] : List (Bytes × Bytes)) := by
    refine ⟨?_, List.Pairwise.nil, ?_⟩
    · rw [cthash_nil]
      rfl
    · intro kv
      rw [ctrecords_nil]
      exact Iff.rfl
  have hnod0 : (ctrecords (SMT.new th).tree_hasher (SMT.new th).depth 0
      ([] : List (Bytes × Bytes))).Pairwise (fun x y => x.1 ≠ y.1) := by
    rw [ctrecords_nil]
    exact List.Pairwise.nil
  obtain ⟨s1, hu1, hth1, hC1, _, _⟩ :=
    updAll_canon L (SMT.new th) [] hok0 hso0 hC0 hnod0 hins
  obtain ⟨s2, hu2, hth2, hC2, _, _⟩ :=
    updAll_canon L' (SMT.new th) [] hok0 hso0 hC0 hnod0 hins'
  refine ⟨s1, s2, hu1, hu2, ?_⟩
  have hd1 : s1.depth = (SMT.new th).depth := by
    unfold SMT.depth
    rw [hth1]
  have hd2 : s2.depth = (SMT.new th).depth := by
    unfold SMT.depth
    rw [hth2]
  have hr1 : s1.root = cthash (SMT.new th).tree_hasher (SMT.new th).depth 0
      (insList (SMT.new th).tree_hasher [] L) := by
    have := hC1.1
    rw [hth1, hd1] at this
    exact this
  have hr2 : s2.root = cthash (SMT.new th).tree_hasher (SMT.new th).depth 0
      (insList (SMT.new th).tree_hasher [] L') := by
    have := hC2.1
    rw [hth2, hd2] at this
    exact this
  rw [hr1, hr2]
  refine cthash_perm _ _ _ _ _ ?_
  refine (insList_perm _ L []).trans (List.Perm.trans ?_ (insList_perm _ L' []).symm)
  simp only [List.nil_append]
  exact hperm.map _


theorem tHash_foldl_le (l : Bytes) (a : Nat) (ha : a ≤ 255) :
    l.foldl (fun a b => (a * 31 + b + 7) % 255 + 1) a ≤ 255 := by
  induction l generalizing a with
  | nil => exact ha
  | cons hd tl ih =>
    refine ih _ ?_
    show (a * 31 + hd + 7) % 255 + 1 ≤ 255
    have := Nat.mod_lt ((a * 31 + hd + 7)) (show 0 < 255 from by omega)
    omega

theorem hashok_tTH : HashOk tTH := by
  refine ⟨rfl, by decide, fun x => rfl, ?_, ?_⟩
  · intro x h
    exact tHash_ne_zero_hash x h
  · intro x b hb
    have hb2 : b ∈ tHash x := hb
    have hx : tHash x = [x.foldl (fun a b => (a * 31 + b + 7) % 255 + 1) 3] := rfl
    rw [hx, List.mem_singleton] at hb2
    have := tHash_foldl_le x 3 (by omega)
    omega

/-- C9 witness: two concrete insertions into the empty toy tree, in both
    orders, reach the same root. -/
theorem c9_deterministic_root_witness :
    ∃ s1 s2,
      updAll (SMT.new tTH) [([0], [50]), ([1], [51])] = some s1 ∧
      updAll (SMT.new tTH) [([1], [51]), ([0], [50])] = some s2 ∧
      s1.root = s2.root :=
  c9_deterministic_root tTH [([0], [50]), ([1], [51])]
    [([1], [51]), ([0], [50])] hashok_tTH (by decide) (by decide) (by decide)


theorem mem_removeP (p : Bytes) (S : List (Bytes × Bytes)) (x : Bytes × Bytes) :
    x ∈ removeP p S ↔ x ∈ S ∧ x.1 ≠ p := by
  unfold removeP
  rw [List.mem_filter]
  simp

theorem removeP_sublist (p : Bytes) (S : List (Bytes × Bytes)) :
    (removeP p S).Sublist S :=
  List.filter_sublist S

theorem removeP_childF (p : Bytes) (ℓ b : Nat) (S : List (Bytes × Bytes)) :
    childF ℓ b (removeP p S) = removeP p (childF ℓ b S) := by
  unfold childF removeP
  rw [List.filter_filter, List.filter_filter]
  congr 1
  funext qv
  rw [Bool.and_comm]

theorem removeP_eq_self (p : Bytes) (S : List (Bytes × Bytes))
    (h : ∀ x ∈ S, x.1 ≠ p) : removeP p S = S := by
  unfold removeP
  refine List.filter_eq_self.mpr ?_
  intro x hx
  simpa using h x hx

theorem removeP_eq_nil (p : Bytes) (S : List (Bytes × Bytes)) :
    removeP p S = [] ↔ ∀ x ∈ S, x.1 = p := by
  unfold removeP
  rw [List.filter_eq_nil_iff]
  constructor
  · intro h x hx
    have := h x hx
    simpa using this
  · intro h x hx
    simpa using h x hx

theorem childF_eq_self (ℓ b : Nat) (S : List (Bytes × Bytes))
    (h : ∀ x ∈ S, get_msb_at x.1 ℓ = b) : childF ℓ b S = S := by
  unfold childF
  refine List.filter_eq_self.mpr ?_
  intro x hx
  simpa using h x hx

theorem childF_eq_nil (ℓ b : Nat) (S : List (Bytes × Bytes))
    (h : ∀ x ∈ S, get_msb_at x.1 ℓ ≠ b) : childF ℓ b S = [] := by
  unfold childF
  refine List.filter_eq_nil_iff.mpr ?_
  intro x hx
  simpa using h x hx

theorem removeP_eq_childF (p : Bytes) (ℓ pb sb : Nat) (S : List (Bytes × Bytes))
    (hne : pb ≠ sb)
    (hbits : ∀ x ∈ S, get_msb_at x.1 ℓ = pb ∨ get_msb_at x.1 ℓ = sb)
    (hside : ∀ x ∈ S, get_msb_at x.1 ℓ = pb → x.1 = p)
    (hother : ∀ x ∈ S, get_msb_at x.1 ℓ = sb → x.1 ≠ p) :
    removeP p S = childF ℓ sb S := by
  unfold removeP childF
  refine List.filter_congr ?_
  intro x hx
  rcases hbits x hx with h | h
  · have h1 : x.1 = p := hside x hx h
    have h3 : get_msb_at p ℓ = pb := h1 ▸ h
    rw [h1, h3]
    simp [hne]
  · have h1 : x.1 ≠ p := hother x hx h
    simp [h1, h]

theorem two_le_length_of_two_mem {α : Type} {l : List α} {x y : α}
    (hx : x ∈ l) (hy : y ∈ l) (hne : x ≠ y) : 2 ≤ l.length := by
  match l, hx, hy with
  | [a], hx, hy =>
    rcases List.mem_singleton.mp hx with h1
    rcases List.mem_singleton.mp hy with h2
    exact absurd (h1.trans h2.symm) hne
  | a :: b :: t, _, _ =>
    simp only [List.length_cons]
    omega

theorem getD_append_len {α : Type} :
    ∀ (l1 : List α) (a : α) (l2 : List α) (d : α),
      (l1 ++ a :: l2).getD l1.length d = a := by
  intro l1
  induction l1 with
  | nil => intro a l2 d; rfl
  | cons x l ih =>
    intro a l2 d
    exact ih a l2 d

theorem ctrecords_child_sublist (th : TreeHasher) (fuel ℓ : Nat)
    (a b : Bytes × Bytes) (t : List (Bytes × Bytes)) (bit : Nat)
    (hbit : bit = 0 ∨ bit = 1) :
    (ctrecords th fuel (ℓ + 1) (childF ℓ bit (a :: b :: t))).Sublist
      (ctrecords th (fuel + 1) ℓ (a :: b :: t)) := by
  rw [ctrecords_node]
  rcases hbit with h | h
  · subst h
    exact (List.sublist_append_left _ _).trans (List.sublist_cons_self _ _)
  · subst h
    exact (List.sublist_append_right _ _).trans (List.sublist_cons_self _ _)

theorem SetOk_sublist (th : TreeHasher) (ℓ fuel : Nat)
    (S S' : List (Bytes × Bytes)) (hsub : S'.Sublist S)
    (hso : SetOk th ℓ fuel S) : SetOk th ℓ fuel S' := by
  obtain ⟨h1, h2, h3, h4⟩ := hso
  refine ⟨h1, ?_, h3.sublist hsub, ?_⟩
  · intro pv hpv
    exact h2 pv (hsub.mem hpv)
  · intro x hx y hy j hj
    exact h4 x (hsub.mem hx) y (hsub.mem hy) j hj

theorem descend_struct_present (th : TreeHasher) (p wp : Bytes) :
    ∀ (fuel ℓ : Nat) (S : List (Bytes × Bytes)),
      SetOk th ℓ fuel S → 2 ≤ S.length →
      (p, wp) ∈ S →
      (∀ qv ∈ S, ∀ j < ℓ, get_msb_at p j = get_msb_at qv.1 j) →
      1 ≤ (descend th p fuel ℓ S).1.length ∧
      (descend th p fuel ℓ S).2.1.length = (descend th p fuel ℓ S).1.length ∧
      ((dpath th p fuel ℓ S).map Prod.fst =
        cthash th fuel ℓ S :: (descend th p fuel ℓ S).2.1.dropLast) ∧
      (descend th p fuel ℓ S).2.2 = (th.digest_leaf p wp).2 ∧
      (descend th p fuel ℓ S).2.1.getLast? = some (th.digest_leaf p wp).1 := by
  intro fuel
  induction fuel with
  | zero =>
    intro ℓ S hso h2 _ _
    exact (SetOk_ge2_fuel_pos th ℓ S hso h2).elim
  | succ f ih =>
    intro ℓ S hso h2 hp hag
    match S, h2, hso, hp, hag with
    | a :: b :: t, _, hso, hp, hag =>
    by_cases hbit : get_msb_at p ℓ = 0
    · have hpc : (p, wp) ∈ childF ℓ 0 (a :: b :: t) :=
        List.mem_filter.mpr ⟨hp, by simp [hbit]⟩
    -- the p-side child contains p, so it is nonempty
      rcases hsc : childF ℓ 0 (a :: b :: t) with _ | ⟨pv, _ | ⟨q2, ct⟩⟩
      · rw [hsc] at hpc
        exact absurd hpc (List.not_mem_nil _)
      · -- the p-side child is exactly the p-leaf
        rw [hsc] at hpc
        rcases List.mem_singleton.mp hpc with h
        have hd : descend th p (f + 1) ℓ (a :: b :: t) =
            ([cthash th f (ℓ + 1) (childF ℓ 1 (a :: b :: t))],
             [(th.digest_leaf pv.1 pv.2).1], (th.digest_leaf pv.1 pv.2).2) := by
          conv_lhs => unfold descend
          simp only [if_pos hbit]
          rw [hsc]
        rw [hd, dpath_node]
        rw [if_pos hbit, hsc, dpath_singleton]
        refine ⟨by simp, by simp, ?_, ?_, ?_⟩
        · rw [cthash_node, hsc]
          rfl
        · rw [← h]
        · rw [← h]
          rfl
      · -- the p-side child is internal: recurse
        have hso' : SetOk th (ℓ + 1) f (childF ℓ 0 (a :: b :: t)) :=
          SetOk_child th ℓ f (a :: b :: t) hso 0
        rw [hsc] at hso' hpc
        have hag' : ∀ qv ∈ (pv :: q2 :: ct), ∀ j < ℓ + 1,
            get_msb_at p j = get_msb_at qv.1 j := by
          intro qv hqv j hj
          by_cases hje : j = ℓ
          · subst hje
            have hqmem := List.mem_filter.mp (by rw [← hsc] at hqv; exact hqv)
            have : get_msb_at qv.1 j = 0 := by simpa using hqmem.2
            rw [this, hbit]
          · refine hag qv ?_ j (by omega)
            rw [← hsc] at hqv
            exact childF_subset _ _ _ qv hqv
        obtain ⟨ih1, ih2, ih3, ih4, ih5⟩ := ih (ℓ + 1) (pv :: q2 :: ct) hso'
          (by simp) hpc hag'
        have hd : descend th p (f + 1) ℓ (a :: b :: t) =
            (cthash th f (ℓ + 1) (childF ℓ 1 (a :: b :: t)) ::
               (descend th p f (ℓ + 1) (pv :: q2 :: ct)).1,
             cthash th f (ℓ + 1) (pv :: q2 :: ct) ::
               (descend th p f (ℓ + 1) (pv :: q2 :: ct)).2.1,
             (descend th p f (ℓ + 1) (pv :: q2 :: ct)).2.2) := by
          conv_lhs => unfold descend
          simp only [if_pos hbit]
          rw [hsc]
        have hne2 : (descend th p f (ℓ + 1) (pv :: q2 :: ct)).2.1 ≠ [] := by
          intro h0
          rw [h0] at ih2
          simp only [List.length_nil] at ih2
          omega
        obtain ⟨y, ys, hyys⟩ : ∃ y ys,
            (descend th p f (ℓ + 1) (pv :: q2 :: ct)).2.1 = y :: ys := by
          rcases hE : (descend th p f (ℓ + 1) (pv :: q2 :: ct)).2.1 with _ | ⟨y, ys⟩
          · exact absurd hE hne2
          · exact ⟨y, ys, rfl⟩
        rw [hd, dpath_node, if_pos hbit, hsc]
        refine ⟨by simp, by simp [ih2], ?_, ih4, ?_⟩
        · rw [List.map_cons, ih3, cthash_node, hsc]
          rw [List.dropLast_cons_of_ne_nil hne2]
        · rw [hyys]
          rw [hyys] at ih5
          rcases ys with _ | ⟨z, zs⟩
          · simp at ih5 ⊢
            exact ih5
          · rw [List.getLast?_cons_cons]
            exact ih5
    · have hpc : (p, wp) ∈ childF ℓ 1 (a :: b :: t) := by
        refine List.mem_filter.mpr ⟨hp, ?_⟩
        rcases get_msb_at_zero_or_one p ℓ with h | h
        · exact absurd h hbit
        · simp [h]
      rcases hsc : childF ℓ 1 (a :: b :: t) with _ | ⟨pv, _ | ⟨q2, ct⟩⟩
      · rw [hsc] at hpc
        exact absurd hpc (List.not_mem_nil _)
      · rw [hsc] at hpc
        rcases List.mem_singleton.mp hpc with h
        have hd : descend th p (f + 1) ℓ (a :: b :: t) =
            ([cthash th f (ℓ + 1) (childF ℓ 0 (a :: b :: t))],
             [(th.digest_leaf pv.1 pv.2).1], (th.digest_leaf pv.1 pv.2).2) := by
          conv_lhs => unfold descend
          simp only [if_neg hbit]
          rw [hsc]
        rw [hd, dpath_node]
        rw [if_neg hbit, hsc, dpath_singleton]
        refine ⟨by simp, by simp, ?_, ?_, ?_⟩
        · rw [cthash_node, hsc]
          rfl
        · rw [← h]
        · rw [← h]
          rfl
      · have hso' : SetOk th (ℓ + 1) f (childF ℓ 1 (a :: b :: t)) :=
          SetOk_child th ℓ f (a :: b :: t) hso 1
        rw [hsc] at hso' hpc
        have hag' : ∀ qv ∈ (pv :: q2 :: ct), ∀ j < ℓ + 1,
            get_msb_at p j = get_msb_at qv.1 j := by
          intro qv hqv j hj
          by_cases hje : j = ℓ
          · subst hje
            have hqmem := List.mem_filter.mp (by rw [← hsc] at hqv; exact hqv)
            have h1 : get_msb_at qv.1 j = 1 := by simpa using hqmem.2
            have h2 : get_msb_at p j = 1 := by
              rcases get_msb_at_zero_or_one p j with h | h
              · exact absurd h hbit
              · exact h
            rw [h1, h2]
          · refine hag qv ?_ j (by omega)
            rw [← hsc] at hqv
            exact childF_subset _ _ _ qv hqv
        obtain ⟨ih1, ih2, ih3, ih4, ih5⟩ := ih (ℓ + 1) (pv :: q2 :: ct) hso'
          (by simp) hpc hag'
        have hd : descend th p (f + 1) ℓ (a :: b :: t) =
            (cthash th f (ℓ + 1) (childF ℓ 0 (a :: b :: t)) ::
               (descend th p f (ℓ + 1) (pv :: q2 :: ct)).1,
             cthash th f (ℓ + 1) (pv :: q2 :: ct) ::
               (descend th p f (ℓ + 1) (pv :: q2 :: ct)).2.1,
             (descend th p f (ℓ + 1) (pv :: q2 :: ct)).2.2) := by
          conv_lhs => unfold descend
          simp only [if_neg hbit]
          rw [hsc]
        have hne2 : (descend th p f (ℓ + 1) (pv :: q2 :: ct)).2.1 ≠ [] := by
          intro h0
          rw [h0] at ih2
          simp only [List.length_nil] at ih2
          omega
        obtain ⟨y, ys, hyys⟩ : ∃ y ys,
            (descend th p f (ℓ + 1) (pv :: q2 :: ct)).2.1 = y :: ys := by
          rcases hE : (descend th p f (ℓ + 1) (pv :: q2 :: ct)).2.1 with _ | ⟨y, ys⟩
          · exact absurd hE hne2
          · exact ⟨y, ys, rfl⟩
        rw [hd, dpath_node, if_neg hbit, hsc]
        refine ⟨by simp, by simp [ih2], ?_, ih4, ?_⟩
        · rw [List.map_cons, ih3, cthash_node, hsc]
          rw [List.dropLast_cons_of_ne_nil hne2]
        · rw [hyys]
          rw [hyys] at ih5
          rcases ys with _ | ⟨z, zs⟩
          · simp at ih5 ⊢
            exact ih5
          · rw [List.getLast?_cons_cons]
            exact ih5



theorem childF_bit (ℓ b : Nat) (S : List (Bytes × Bytes)) (x : Bytes × Bytes)
    (hx : x ∈ childF ℓ b S) : get_msb_at x.1 ℓ = b := by
  have := (List.mem_filter.mp hx).2
  simpa using this

set_option maxHeartbeats 3200000 in
theorem ctrecords_delete (th : TreeHasher) (p wp : Bytes) :
    ∀ (fuel ℓ : Nat) (S : List (Bytes × Bytes)),
      SetOk th ℓ fuel S → 2 ≤ S.length →
      (p, wp) ∈ S →
      (∀ qv ∈ S, ∀ j < ℓ, get_msb_at p j = get_msb_at qv.1 j) →
      (∀ r ∈ ctrecords th fuel ℓ (removeP p S),
        r ∈ dpath th p fuel ℓ (removeP p S) ∨ r ∈ ctrecords th fuel ℓ S) ∧
      (∀ r ∈ ctrecords th fuel ℓ S,
        r ∉ dpath th p fuel ℓ S → r ≠ th.digest_leaf p wp →
        r ∈ ctrecords th fuel ℓ (removeP p S)) := by
  intro fuel
  induction fuel with
  | zero =>
    intro ℓ S hso h2 _ _
    exact (SetOk_ge2_fuel_pos th ℓ S hso h2).elim
  | succ f ih =>
    intro ℓ S hso h2 hp hag
    match S, h2, hso, hp, hag with
    | a :: b :: t, _, hso, hp, hag =>
    have hone : ∃ x, x ∈ (a :: b :: t) ∧ x.1 ≠ p := by
      have hab : a.1 ≠ b.1 :=
        (List.pairwise_cons.mp hso.2.2.1).1 b (List.mem_cons_self _ _)
      by_cases ha : a.1 = p
      · refine ⟨b, List.mem_cons_of_mem _ (List.mem_cons_self _ _), ?_⟩
        intro hb
        exact hab (by rw [ha, hb])
      · exact ⟨a, List.mem_cons_self _ _, ha⟩
    have hne' : removeP p (a :: b :: t) ≠ [] := by
      obtain ⟨x, hx, hxp⟩ := hone
      intro h0
      have hx2 := (mem_removeP p _ x).mpr ⟨hx, hxp⟩
      rw [h0] at hx2
      exact List.not_mem_nil x hx2
    by_cases hbit : get_msb_at p ℓ = 0
    · -- p descends into the 0-child
      have hpc : (p, wp) ∈ childF ℓ 0 (a :: b :: t) :=
        List.mem_filter.mpr ⟨hp, by simp [hbit]⟩
      have hssne : ∀ x ∈ childF ℓ 1 (a :: b :: t), x.1 ≠ p := by
        intro x hx he
        have hxb := childF_bit ℓ 1 _ x hx
        rw [he, hbit] at hxb
        exact absurd hxb (by omega)
      have hc1' : childF ℓ 1 (removeP p (a :: b :: t)) =
          childF ℓ 1 (a :: b :: t) := by
        rw [removeP_childF]
        exact removeP_eq_self _ _ hssne
      rcases hsc : childF ℓ 0 (a :: b :: t) with _ | ⟨pv, _ | ⟨c2, ct⟩⟩
      · rw [hsc] at hpc
        exact absurd hpc (List.not_mem_nil _)
      · -- p-side child is the p-leaf alone: deletion exposes the sibling
        rw [hsc] at hpc
        have hpveq : (p, wp) = pv := List.mem_singleton.mp hpc
        have hS'ss : removeP p (a :: b :: t) = childF ℓ 1 (a :: b :: t) := by
          refine removeP_eq_childF p ℓ 0 1 _ (by omega)
            (fun x _ => get_msb_at_zero_or_one x.1 ℓ) ?_ ?_
          · intro x hx hx0
            have hxc : x ∈ childF ℓ 0 (a :: b :: t) :=
              List.mem_filter.mpr ⟨hx, by simp [hx0]⟩
            rw [hsc] at hxc
            rw [List.mem_singleton.mp hxc, ← hpveq]
          · intro x hx hxb
            exact hssne x (List.mem_filter.mpr ⟨hx, by simp [hxb]⟩)
        have hpl : ctrecords th f (ℓ + 1) (childF ℓ 0 (a :: b :: t)) =
            [th.digest_leaf p wp] := by
          rw [hsc, ctrecords_singleton, ← hpveq]
        rcases hss : childF ℓ 1 (a :: b :: t) with _ | ⟨sv, _ | ⟨s2, st⟩⟩
        · rw [hS'ss, hss] at hne'
          exact absurd rfl hne'
        · -- the surviving set is the lone sibling leaf
          constructor
          · intro r hr
            rw [hS'ss, hss, ctrecords_singleton] at hr
            rcases List.mem_singleton.mp hr with h
            refine Or.inr ?_
            rw [h]
            refine ctrecords_mem_leaf th (f + 1) ℓ _ hso sv ?_
            refine childF_subset ℓ 1 _ sv ?_
            rw [hss]
            exact List.mem_cons_self _ _
          · intro r hr hnd hnl
            rw [ctrecords_node] at hr
            rcases List.mem_cons.mp hr with h | h
            · refine absurd ?_ hnd
              rw [dpath_node, if_pos hbit]
              exact List.mem_cons.mpr (Or.inl h)
            · rcases List.mem_append.mp h with h | h
              · rw [hpl] at h
                exact absurd (List.mem_singleton.mp h) hnl
              · rw [hss, ctrecords_singleton] at h
                rw [hS'ss, hss, ctrecords_singleton]
                exact h
        · -- the surviving set is the whole (internal) sibling subtree
          have hallss : ∀ x ∈ (sv :: s2 :: st), get_msb_at x.1 ℓ = 1 := by
            intro x hx
            refine childF_bit ℓ 1 (a :: b :: t) x ?_
            rw [hss]
            exact hx
          have hcs1 : childF ℓ 1 (sv :: s2 :: st) = sv :: s2 :: st :=
            childF_eq_self ℓ 1 _ hallss
          have hcs0 : childF ℓ 0 (sv :: s2 :: st) = [] := by
            refine childF_eq_nil ℓ 0 _ ?_
            intro x hx h0
            have := hallss x hx
            omega
          have hrecS' : ctrecords th (f + 1) ℓ (removeP p (a :: b :: t)) =
              th.digest_node (cthash th f (ℓ + 1) ([] : List (Bytes × Bytes)))
                  (cthash th f (ℓ + 1) (sv :: s2 :: st)) ::
                ctrecords th f (ℓ + 1) (sv :: s2 :: st) := by
            rw [hS'ss, hss, ctrecords_node, hcs0, hcs1, ctrecords_nil,
              List.nil_append]
          have hdpS' : dpath th p (f + 1) ℓ (removeP p (a :: b :: t)) =
              [th.digest_node (cthash th f (ℓ + 1) ([] : List (Bytes × Bytes)))
                  (cthash th f (ℓ + 1) (sv :: s2 :: st))] := by
            rw [hS'ss, hss, dpath_node, if_pos hbit, hcs0, hcs1, dpath_nil]
          constructor
          · intro r hr
            rw [hrecS'] at hr
            rcases List.mem_cons.mp hr with h | h
            · refine Or.inl ?_
              rw [hdpS', h]
              exact List.mem_singleton.mpr rfl
            · refine Or.inr ?_
              rw [ctrecords_node]
              refine List.mem_cons_of_mem _ (List.mem_append.mpr (Or.inr ?_))
              rw [hss]
              exact h
          · intro r hr hnd hnl
            rw [ctrecords_node] at hr
            rcases List.mem_cons.mp hr with h | h
            · refine absurd ?_ hnd
              rw [dpath_node, if_pos hbit]
              exact List.mem_cons.mpr (Or.inl h)
            · rcases List.mem_append.mp h with h | h
              · rw [hpl] at h
                exact absurd (List.mem_singleton.mp h) hnl
              · rw [hrecS']
                refine List.mem_cons_of_mem _ ?_
                rw [hss] at h
                exact h
      · -- p-side child is internal: recurse there
        have hso' : SetOk th (ℓ + 1) f (pv :: c2 :: ct) := by
          rw [← hsc]
          exact SetOk_child th ℓ f (a :: b :: t) hso 0
        rw [hsc] at hpc
        have hag' : ∀ qv ∈ (pv :: c2 :: ct), ∀ j < ℓ + 1,
            get_msb_at p j = get_msb_at qv.1 j := by
          intro qv hqv j hj
          by_cases hje : j = ℓ
          · subst hje
            have hqb : get_msb_at qv.1 j = 0 := by
              refine childF_bit j 0 (a :: b :: t) qv ?_
              rw [hsc]
              exact hqv
            rw [hqb, hbit]
          · refine hag qv ?_ j (by omega)
            have : qv ∈ childF ℓ 0 (a :: b :: t) := by
              rw [hsc]
              exact hqv
            exact childF_subset _ _ _ qv this
        obtain ⟨IH1, IH2⟩ := ih (ℓ + 1) (pv :: c2 :: ct) hso' (by simp) hpc hag'
        have hc0'2 : childF ℓ 0 (removeP p (a :: b :: t)) =
            removeP p (pv :: c2 :: ct) := by
          rw [removeP_childF, hsc]
        rcases hS' : removeP p (a :: b :: t) with _ | ⟨x1, _ | ⟨x2, xt⟩⟩
        · exact absurd hS' hne'
        · -- the tree collapses to a single survivor
          have hx1S : x1 ∈ (a :: b :: t) := by
            have : x1 ∈ removeP p (a :: b :: t) := by
              rw [hS']
              exact List.mem_cons_self _ _
            exact ((mem_removeP _ _ _).mp this).1
          rw [hS'] at hc0'2 hc1'
          constructor
          · intro r hr
            rw [ctrecords_singleton] at hr
            rcases List.mem_singleton.mp hr with h
            refine Or.inr ?_
            rw [h]
            exact ctrecords_mem_leaf th (f + 1) ℓ _ hso x1 hx1S
          · intro r hr hnd hnl
            rw [ctrecords_node] at hr
            rcases List.mem_cons.mp hr with h | h
            · refine absurd ?_ hnd
              rw [dpath_node, if_pos hbit]
              exact List.mem_cons.mpr (Or.inl h)
            · rw [ctrecords_singleton]
              rcases List.mem_append.mp h with h | h
              · rw [hsc] at h
                have hrc := IH2 r h ?_ hnl
                · rcases get_msb_at_zero_or_one x1.1 ℓ with hx1b | hx1b
                  · have : childF ℓ 0 [x1] = [x1] :=
                      childF_eq_self ℓ 0 _ (by
                        intro x hx
                        rw [List.mem_singleton.mp hx]
                        exact hx1b)
                    rw [this] at hc0'2
                    rw [← hc0'2] at hrc
                    rw [ctrecords_singleton] at hrc
                    exact hrc
                  · have : childF ℓ 0 [x1] = [] :=
                      childF_eq_nil ℓ 0 _ (by
                        intro x hx h0
                        rw [List.mem_singleton.mp hx] at h0
                        rw [hx1b] at h0
                        exact absurd h0 (by omega))
                    rw [this] at hc0'2
                    rw [← hc0'2, ctrecords_nil] at hrc
                    exact absurd hrc (List.not_mem_nil r)
                · intro hmemd
                  refine hnd ?_
                  rw [dpath_node, if_pos hbit, hsc]
                  exact List.mem_cons_of_mem _ hmemd
              · rcases get_msb_at_zero_or_one x1.1 ℓ with hx1b | hx1b
                · have : childF ℓ 1 [x1] = [] :=
                    childF_eq_nil ℓ 1 _ (by
                      intro x hx h1
                      rw [List.mem_singleton.mp hx] at h1
                      rw [hx1b] at h1
                      exact absurd h1 (by omega))
                  rw [this] at hc1'
                  rw [← hc1', ctrecords_nil] at h
                  exact absurd h (List.not_mem_nil r)
                · have : childF ℓ 1 [x1] = [x1] :=
                    childF_eq_self ℓ 1 _ (by
                      intro x hx
                      rw [List.mem_singleton.mp hx]
                      exact hx1b)
                  rw [this] at hc1'
                  rw [← hc1', ctrecords_singleton] at h
                  exact h
        · -- at least two survivors: the root structure is preserved
          rw [hS'] at hc0'2 hc1'
          have hrecS' : ctrecords th (f + 1) ℓ (x1 :: x2 :: xt) =
              th.digest_node (cthash th f (ℓ + 1) (childF ℓ 0 (x1 :: x2 :: xt)))
                  (cthash th f (ℓ + 1) (childF ℓ 1 (x1 :: x2 :: xt))) ::
                (ctrecords th f (ℓ + 1) (removeP p (pv :: c2 :: ct)) ++
                 ctrecords th f (ℓ + 1) (childF ℓ 1 (a :: b :: t))) := by
            rw [ctrecords_node, hc0'2, hc1']
          have hdpS' : dpath th p (f + 1) ℓ (x1 :: x2 :: xt) =
              th.digest_node (cthash th f (ℓ + 1) (childF ℓ 0 (x1 :: x2 :: xt)))
                  (cthash th f (ℓ + 1) (childF ℓ 1 (x1 :: x2 :: xt))) ::
                dpath th p f (ℓ + 1) (removeP p (pv :: c2 :: ct)) := by
            rw [dpath_node, if_pos hbit, hc0'2]
          constructor
          · intro r hr
            rw [hrecS'] at hr
            rcases List.mem_cons.mp hr with h | h
            · refine Or.inl ?_
              rw [hdpS']
              exact List.mem_cons.mpr (Or.inl h)
            · rcases List.mem_append.mp h with h | h
              · rcases IH1 r h with h2 | h2
                · refine Or.inl ?_
                  rw [hdpS']
                  exact List.mem_cons_of_mem _ h2
                · refine Or.inr ?_
                  rw [ctrecords_node]
                  refine List.mem_cons_of_mem _ (List.mem_append.mpr (Or.inl ?_))
                  rw [hsc]
                  exact h2
              · refine Or.inr ?_
                rw [ctrecords_node]
                exact List.mem_cons_of_mem _ (List.mem_append.mpr (Or.inr h))
          · intro r hr hnd hnl
            rw [ctrecords_node] at hr
            rw [hrecS']
            rcases List.mem_cons.mp hr with h | h
            · refine absurd ?_ hnd
              rw [dpath_node, if_pos hbit]
              exact List.mem_cons.mpr (Or.inl h)
            · rcases List.mem_append.mp h with h | h
              · rw [hsc] at h
                have hrc := IH2 r h ?_ hnl
                · exact List.mem_cons_of_mem _ (List.mem_append.mpr (Or.inl hrc))
                · intro hmemd
                  refine hnd ?_
                  rw [dpath_node, if_pos hbit, hsc]
                  exact List.mem_cons_of_mem _ hmemd
              · exact List.mem_cons_of_mem _ (List.mem_append.mpr (Or.inr h))
    · -- p descends into the 1-child (mirror)
      have hbit1 : get_msb_at p ℓ = 1 := by
        rcases get_msb_at_zero_or_one p ℓ with h | h
        · exact absurd h hbit
        · exact h
      have hpc : (p, wp) ∈ childF ℓ 1 (a :: b :: t) :=
        List.mem_filter.mpr ⟨hp, by simp [hbit1]⟩
      have hssne : ∀ x ∈ childF ℓ 0 (a :: b :: t), x.1 ≠ p := by
        intro x hx he
        have hxb := childF_bit ℓ 0 _ x hx
        rw [he, hbit1] at hxb
        exact absurd hxb (by omega)
      have hc1' : childF ℓ 0 (removeP p (a :: b :: t)) =
          childF ℓ 0 (a :: b :: t) := by
        rw [removeP_childF]
        exact removeP_eq_self _ _ hssne
      rcases hsc : childF ℓ 1 (a :: b :: t) with _ | ⟨pv, _ | ⟨c2, ct⟩⟩
      · rw [hsc] at hpc
        exact absurd hpc (List.not_mem_nil _)
      · rw [hsc] at hpc
        have hpveq : (p, wp) = pv := List.mem_singleton.mp hpc
        have hS'ss : removeP p (a :: b :: t) = childF ℓ 0 (a :: b :: t) := by
          refine removeP_eq_childF p ℓ 1 0 _ (by omega)
            (fun x _ => (get_msb_at_zero_or_one x.1 ℓ).symm) ?_ ?_
          · intro x hx hx1
            have hxc : x ∈ childF ℓ 1 (a :: b :: t) :=
              List.mem_filter.mpr ⟨hx, by simp [hx1]⟩
            rw [hsc] at hxc
            rw [List.mem_singleton.mp hxc, ← hpveq]
          · intro x hx hxb
            exact hssne x (List.mem_filter.mpr ⟨hx, by simp [hxb]⟩)
        have hpl : ctrecords th f (ℓ + 1) (childF ℓ 1 (a :: b :: t)) =
            [th.digest_leaf p wp] := by
          rw [hsc, ctrecords_singleton, ← hpveq]
        rcases hss : childF ℓ 0 (a :: b :: t) with _ | ⟨sv, _ | ⟨s2, st⟩⟩
        · rw [hS'ss, hss] at hne'
          exact absurd rfl hne'
        · constructor
          · intro r hr
            rw [hS'ss, hss, ctrecords_singleton] at hr
            rcases List.mem_singleton.mp hr with h
            refine Or.inr ?_
            rw [h]
            refine ctrecords_mem_leaf th (f + 1) ℓ _ hso sv ?_
            refine childF_subset ℓ 0 _ sv ?_
            rw [hss]
            exact List.mem_cons_self _ _
          · intro r hr hnd hnl
            rw [ctrecords_node] at hr
            rcases List.mem_cons.mp hr with h | h
            · refine absurd ?_ hnd
              rw [dpath_node]
              exact List.mem_cons.mpr (Or.inl h)
            · rcases List.mem_append.mp h with h | h
              · rw [hss, ctrecords_singleton] at h
                rw [hS'ss, hss, ctrecords_singleton]
                exact h
              · rw [hpl] at h
                exact absurd (List.mem_singleton.mp h) hnl
        · have hallss : ∀ x ∈ (sv :: s2 :: st), get_msb_at x.1 ℓ = 0 := by
            intro x hx
            refine childF_bit ℓ 0 (a :: b :: t) x ?_
            rw [hss]
            exact hx
          have hcs0 : childF ℓ 0 (sv :: s2 :: st) = sv :: s2 :: st :=
            childF_eq_self ℓ 0 _ hallss
          have hcs1 : childF ℓ 1 (sv :: s2 :: st) = [] := by
            refine childF_eq_nil ℓ 1 _ ?_
            intro x hx h0
            have := hallss x hx
            omega
          have hrecS' : ctrecords th (f + 1) ℓ (removeP p (a :: b :: t)) =
              th.digest_node (cthash th f (ℓ + 1) (sv :: s2 :: st))
                  (cthash th f (ℓ + 1) ([] : List (Bytes × Bytes))) ::
                ctrecords th f (ℓ + 1) (sv :: s2 :: st) := by
            rw [hS'ss, hss, ctrecords_node, hcs0, hcs1, ctrecords_nil,
              List.append_nil]
          have hdpS' : dpath th p (f + 1) ℓ (removeP p (a :: b :: t)) =
              [th.digest_node (cthash th f (ℓ + 1) (sv :: s2 :: st))
                  (cthash th f (ℓ + 1) ([] : List (Bytes × Bytes)))] := by
            rw [hS'ss, hss, dpath_node, if_neg hbit, hcs0, hcs1, dpath_nil]
          constructor
          · intro r hr
            rw [hrecS'] at hr
            rcases List.mem_cons.mp hr with h | h
            · refine Or.inl ?_
              rw [hdpS', h]
              exact List.mem_singleton.mpr rfl
            · refine Or.inr ?_
              rw [ctrecords_node]
              refine List.mem_cons_of_mem _ (List.mem_append.mpr (Or.inl ?_))
              rw [hss]
              exact h
          · intro r hr hnd hnl
            rw [ctrecords_node] at hr
            rcases List.mem_cons.mp hr with h | h
            · refine absurd ?_ hnd
              rw [dpath_node]
              exact List.mem_cons.mpr (Or.inl h)
            · rcases List.mem_append.mp h with h | h
              · rw [hrecS']
                refine List.mem_cons_of_mem _ ?_
                rw [hss] at h
                exact h
              · rw [hpl] at h
                exact absurd (List.mem_singleton.mp h) hnl
      · have hso' : SetOk th (ℓ + 1) f (pv :: c2 :: ct) := by
          rw [← hsc]
          exact SetOk_child th ℓ f (a :: b :: t) hso 1
        rw [hsc] at hpc
        have hag' : ∀ qv ∈ (pv :: c2 :: ct), ∀ j < ℓ + 1,
            get_msb_at p j = get_msb_at qv.1 j := by
          intro qv hqv j hj
          by_cases hje : j = ℓ
          · subst hje
            have hqb : get_msb_at qv.1 j = 1 := by
              refine childF_bit j 1 (a :: b :: t) qv ?_
              rw [hsc]
              exact hqv
            rw [hqb, hbit1]
          · refine hag qv ?_ j (by omega)
            have : qv ∈ childF ℓ 1 (a :: b :: t) := by
              rw [hsc]
              exact hqv
            exact childF_subset _ _ _ qv this
        obtain ⟨IH1, IH2⟩ := ih (ℓ + 1) (pv :: c2 :: ct) hso' (by simp) hpc hag'
        have hc0'2 : childF ℓ 1 (removeP p (a :: b :: t)) =
            removeP p (pv :: c2 :: ct) := by
          rw [removeP_childF, hsc]
        rcases hS' : removeP p (a :: b :: t) with _ | ⟨x1, _ | ⟨x2, xt⟩⟩
        · exact absurd hS' hne'
        · have hx1S : x1 ∈ (a :: b :: t) := by
            have : x1 ∈ removeP p (a :: b :: t) := by
              rw [hS']
              exact List.mem_cons_self _ _
            exact ((mem_removeP _ _ _).mp this).1
          rw [hS'] at hc0'2 hc1'
          constructor
          · intro r hr
            rw [ctrecords_singleton] at hr
            rcases List.mem_singleton.mp hr with h
            refine Or.inr ?_
            rw [h]
            exact ctrecords_mem_leaf th (f + 1) ℓ _ hso x1 hx1S
          · intro r hr hnd hnl
            rw [ctrecords_node] at hr
            rcases List.mem_cons.mp hr with h | h
            · refine absurd ?_ hnd
              rw [dpath_node]
              exact List.mem_cons.mpr (Or.inl h)
            · rw [ctrecords_singleton]
              rcases List.mem_append.mp h with h | h
              · rcases get_msb_at_zero_or_one x1.1 ℓ with hx1b | hx1b
                · have : childF ℓ 0 [x1] = [x1] :=
                    childF_eq_self ℓ 0 _ (by
                      intro x hx
                      rw [List.mem_singleton.mp hx]
                      exact hx1b)
                  rw [this] at hc1'
                  rw [← hc1', ctrecords_singleton] at h
                  exact h
                · have : childF ℓ 0 [x1] = [] :=
                    childF_eq_nil ℓ 0 _ (by
                      intro x hx h0
                      rw [List.mem_singleton.mp hx] at h0
                      rw [hx1b] at h0
                      exact absurd h0 (by omega))
                  rw [this] at hc1'
                  rw [← hc1', ctrecords_nil] at h
                  exact absurd h (List.not_mem_nil r)
              · rw [hsc] at h
                have hrc := IH2 r h ?_ hnl
                · rcases get_msb_at_zero_or_one x1.1 ℓ with hx1b | hx1b
                  · have : childF ℓ 1 [x1] = [] :=
                      childF_eq_nil ℓ 1 _ (by
                        intro x hx h1
                        rw [List.mem_singleton.mp hx] at h1
                        rw [hx1b] at h1
                        exact absurd h1 (by omega))
                    rw [this] at hc0'2
                    rw [← hc0'2, ctrecords_nil] at hrc
                    exact absurd hrc (List.not_mem_nil r)
                  · have : childF ℓ 1 [x1] = [x1] :=
                      childF_eq_self ℓ 1 _ (by
                        intro x hx
                        rw [List.mem_singleton.mp hx]
                        exact hx1b)
                    rw [this] at hc0'2
                    rw [← hc0'2] at hrc
                    rw [ctrecords_singleton] at hrc
                    exact hrc
                · intro hmemd
                  refine hnd ?_
                  rw [dpath_node, if_neg hbit, hsc]
                  exact List.mem_cons_of_mem _ hmemd
        · rw [hS'] at hc0'2 hc1'
          have hrecS' : ctrecords th (f + 1) ℓ (x1 :: x2 :: xt) =
              th.digest_node (cthash th f (ℓ + 1) (childF ℓ 0 (x1 :: x2 :: xt)))
                  (cthash th f (ℓ + 1) (childF ℓ 1 (x1 :: x2 :: xt))) ::
                (ctrecords th f (ℓ + 1) (childF ℓ 0 (a :: b :: t)) ++
                 ctrecords th f (ℓ + 1) (removeP p (pv :: c2 :: ct))) := by
            rw [ctrecords_node, hc0'2, hc1']
          have hdpS' : dpath th p (f + 1) ℓ (x1 :: x2 :: xt) =
              th.digest_node (cthash th f (ℓ + 1) (childF ℓ 0 (x1 :: x2 :: xt)))
                  (cthash th f (ℓ + 1) (childF ℓ 1 (x1 :: x2 :: xt))) ::
                dpath th p f (ℓ + 1) (removeP p (pv :: c2 :: ct)) := by
            rw [dpath_node, if_neg hbit, hc0'2]
          constructor
          · intro r hr
            rw [hrecS'] at hr
            rcases List.mem_cons.mp hr with h | h
            · refine Or.inl ?_
              rw [hdpS']
              exact List.mem_cons.mpr (Or.inl h)
            · rcases List.mem_append.mp h with h | h
              · refine Or.inr ?_
                rw [ctrecords_node]
                exact List.mem_cons_of_mem _ (List.mem_append.mpr (Or.inl h))
              · rcases IH1 r h with h2 | h2
                · refine Or.inl ?_
                  rw [hdpS']
                  exact List.mem_cons_of_mem _ h2
                · refine Or.inr ?_
                  rw [ctrecords_node]
                  refine List.mem_cons_of_mem _ (List.mem_append.mpr (Or.inr ?_))
                  rw [hsc]
                  exact h2
          · intro r hr hnd hnl
            rw [ctrecords_node] at hr
            rw [hrecS']
            rcases List.mem_cons.mp hr with h | h
            · refine absurd ?_ hnd
              rw [dpath_node]
              exact List.mem_cons.mpr (Or.inl h)
            · rcases List.mem_append.mp h with h | h
              · exact List.mem_cons_of_mem _ (List.mem_append.mpr (Or.inl h))
              · rw [hsc] at h
                have hrc := IH2 r h ?_ hnl
                · exact List.mem_cons_of_mem _ (List.mem_append.mpr (Or.inr hrc))
                · intro hmemd
                  refine hnd ?_
                  rw [dpath_node, if_neg hbit, hsc]
                  exact List.mem_cons_of_mem _ hmemd


theorem del_loop_step (s : SMT) (p : Bytes) (SN : List Bytes) (i fl : Nat)
    (c : Bytes) (flag : Bool) (nodes : Store) :
    SMT.del_loop s p SN i (fl + 1) c flag nodes =
      (let sn := SN.getD i []
       let combine : Option (Bytes × Store) :=
         let hd := if get_msb_at p (SN.length - i - 1) = 0 then
             s.tree_hasher.digest_node c sn
           else s.tree_hasher.digest_node sn c
         SMT.del_loop s p SN (i + 1) fl hd.1 true (nodes.insert hd.1 hd.2)
       if flag = false then
         if sn ≠ s.placeholder then
           if c = s.placeholder then
             match nodes.get sn with
             | none => none
             | some nd =>
               if s.tree_hasher.is_leaf nd then
                 SMT.del_loop s p SN (i + 1) fl sn false nodes
               else combine
           else combine
         else SMT.del_loop s p SN (i + 1) fl c false nodes
       else combine) := rfl

theorem node_rec_key_ne_leaf (th : TreeHasher) (fuel ℓ : Nat)
    (S : List (Bytes × Bytes)) (p wp x y : Bytes) (r : Bytes × Bytes)
    (hso : SetOk th ℓ fuel S)
    (hnod : (ctrecords th fuel ℓ S).Pairwise (fun a b => a.1 ≠ b.1))
    (hp : (p, wp) ∈ S) (hr : r ∈ ctrecords th fuel ℓ S)
    (hsh : r = th.digest_node x y) :
    r.1 ≠ (th.digest_leaf p wp).1 := by
  intro he
  have hpl := ctrecords_mem_leaf th fuel ℓ S hso (p, wp) hp
  have h3 := pairwise_key_eq _ r (th.digest_leaf p wp) hnod hr hpl he
  rw [hsh] at h3
  exact leaf_ne_node th p wp x y h3.symm

theorem leaf_key_ne (th : TreeHasher) (fuel ℓ : Nat) (S : List (Bytes × Bytes))
    (p wp q w : Bytes) (hso : SetOk th ℓ fuel S)
    (hnod : (ctrecords th fuel ℓ S).Pairwise (fun a b => a.1 ≠ b.1))
    (hp : (p, wp) ∈ S) (hq : (q, w) ∈ S) (hne : q ≠ p) :
    (th.digest_leaf q w).1 ≠ (th.digest_leaf p wp).1 := by
  intro he
  have h1 := ctrecords_mem_leaf th fuel ℓ S hso (q, w) hq
  have h2 := ctrecords_mem_leaf th fuel ℓ S hso (p, wp) hp
  have h3 := pairwise_key_eq _ _ _ hnod h1 h2 he
  have hlen : q.length = p.length := by
    rw [(hso.2.1 (q, w) hq).1, (hso.2.1 (p, wp) hp).1]
  exact hne (digest_leaf_inj th q w p wp hlen h3).1

theorem leaf_notin_dpath (th : TreeHasher) (p' q w : Bytes) (fuel ℓ : Nat)
    (S : List (Bytes × Bytes)) :
    th.digest_leaf q w ∉ dpath th p' fuel ℓ S := by
  intro hm
  obtain ⟨x, y, hxy⟩ := dpath_shape th p' fuel ℓ S _ hm
  exact leaf_ne_node th q w x y hxy

theorem childF_nil_all (ℓ b : Nat) (S : List (Bytes × Bytes))
    (h : childF ℓ b S = []) :
    ∀ x ∈ S, get_msb_at x.1 ℓ ≠ b := by
  intro x hx he
  have hm : x ∈ childF ℓ b S := List.mem_filter.mpr ⟨hx, by simp [he]⟩
  rw [h] at hm
  exact List.not_mem_nil x hm

set_option maxHeartbeats 8000000 in
theorem del_loop_canon (s : SMT) (p wp : Bytes) (hok : HashOk s.tree_hasher) :
    ∀ (fuel ℓ : Nat) (S : List (Bytes × Bytes)) (SUF : List Bytes) (nodes : Store),
      SetOk s.tree_hasher ℓ fuel S → 2 ≤ S.length →
      (p, wp) ∈ S →
      (∀ qv ∈ S, ∀ j < ℓ, get_msb_at p j = get_msb_at qv.1 j) →
      SUF.length = ℓ →
      (ctrecords s.tree_hasher fuel ℓ S).Pairwise (fun x y => x.1 ≠ y.1) →
      (∀ r ∈ ctrecords s.tree_hasher fuel ℓ S,
        r ∉ dpath s.tree_hasher p fuel ℓ S →
        r.1 ≠ (s.tree_hasher.digest_leaf p wp).1 →
        Store.get nodes r.1 = some r.2) →
      (∃ q w, removeP p S = [(q, w)] ∧
        SMT.del_loop s p ((descend s.tree_hasher p fuel ℓ S).1.reverse ++ SUF) 0
            ((descend s.tree_hasher p fuel ℓ S).1.reverse ++ SUF).length
            s.placeholder false nodes =
          SMT.del_loop s p ((descend s.tree_hasher p fuel ℓ S).1.reverse ++ SUF)
            (descend s.tree_hasher p fuel ℓ S).1.length SUF.length
            (s.tree_hasher.digest_leaf q w).1 false nodes) ∨
      (2 ≤ (removeP p S).length ∧
        SMT.del_loop s p ((descend s.tree_hasher p fuel ℓ S).1.reverse ++ SUF) 0
            ((descend s.tree_hasher p fuel ℓ S).1.reverse ++ SUF).length
            s.placeholder false nodes =
          SMT.del_loop s p ((descend s.tree_hasher p fuel ℓ S).1.reverse ++ SUF)
            (descend s.tree_hasher p fuel ℓ S).1.length SUF.length
            (cthash s.tree_hasher fuel ℓ (removeP p S)) true
            (insertAll nodes
              (dpath s.tree_hasher p fuel ℓ (removeP p S)).reverse)) := by
  intro fuel
  induction fuel with
  | zero =>
    intro ℓ S SUF nodes hso h2 _ _ _ _ _
    exact (SetOk_ge2_fuel_pos s.tree_hasher ℓ S hso h2).elim
  | succ f ih =>
    intro ℓ S SUF nodes hso h2 hp hag hSUF hnod hst
    match S, h2, hso, hp, hag, hnod, hst with
    | a :: b :: t, _, hso, hp, hag, hnod, hst =>
    have hplc : s.placeholder = s.tree_hasher.zero_hash := rfl
    have hone : ∃ x, x ∈ (a :: b :: t) ∧ x.1 ≠ p := by
      have hab : a.1 ≠ b.1 :=
        (List.pairwise_cons.mp hso.2.2.1).1 b (List.mem_cons_self _ _)
      by_cases ha : a.1 = p
      · refine ⟨b, List.mem_cons_of_mem _ (List.mem_cons_self _ _), ?_⟩
        intro hb
        exact hab (by rw [ha, hb])
      · exact ⟨a, List.mem_cons_self _ _, ha⟩
    have hne' : removeP p (a :: b :: t) ≠ [] := by
      obtain ⟨x, hx, hxp⟩ := hone
      intro h0
      have hx2 := (mem_removeP p _ x).mpr ⟨hx, hxp⟩
      rw [h0] at hx2
      exact List.not_mem_nil x hx2
    by_cases hbit : get_msb_at p ℓ = 0
    · have hpc : (p, wp) ∈ childF ℓ 0 (a :: b :: t) :=
        List.mem_filter.mpr ⟨hp, by simp [hbit]⟩
      have hssne : ∀ x ∈ childF ℓ 1 (a :: b :: t), x.1 ≠ p := by
        intro x hx he
        have hxb := childF_bit ℓ 1 _ x hx
        rw [he, hbit] at hxb
        exact absurd hxb (by omega)
      have hsoSs : SetOk s.tree_hasher (ℓ + 1) f (childF ℓ 1 (a :: b :: t)) :=
        SetOk_child s.tree_hasher ℓ f (a :: b :: t) hso 1
      have hheadtl : ∀ r' ∈ (ctrecords s.tree_hasher f (ℓ + 1)
            (childF ℓ 0 (a :: b :: t)) ++
          ctrecords s.tree_hasher f (ℓ + 1) (childF ℓ 1 (a :: b :: t))),
          r' ≠ s.tree_hasher.digest_node
            (cthash s.tree_hasher f (ℓ + 1) (childF ℓ 0 (a :: b :: t)))
            (cthash s.tree_hasher f (ℓ + 1) (childF ℓ 1 (a :: b :: t))) := by
        intro r' hr' he
        have hnod2 := hnod
        rw [ctrecords_node] at hnod2
        have hp2 := (List.pairwise_cons.mp hnod2).1 r' hr'
        rw [he] at hp2
        exact hp2 rfl
      rcases hsc : childF ℓ 0 (a :: b :: t) with _ | ⟨pv, _ | ⟨c2, ct⟩⟩
      · rw [hsc] at hpc
        exact absurd hpc (List.not_mem_nil _)
      · -- deepest level: the p-side child is the p-leaf alone
        rw [hsc] at hpc
        have hpveq : (p, wp) = pv := List.mem_singleton.mp hpc
        have hS'ss : removeP p (a :: b :: t) = childF ℓ 1 (a :: b :: t) := by
          refine removeP_eq_childF p ℓ 0 1 _ (by omega)
            (fun x _ => get_msb_at_zero_or_one x.1 ℓ) ?_ ?_
          · intro x hx hx0
            have hxc : x ∈ childF ℓ 0 (a :: b :: t) :=
              List.mem_filter.mpr ⟨hx, by simp [hx0]⟩
            rw [hsc] at hxc
            rw [List.mem_singleton.mp hxc, ← hpveq]
          · intro x hx hxb
            exact hssne x (List.mem_filter.mpr ⟨hx, by simp [hxb]⟩)
        have hd : descend s.tree_hasher p (f + 1) ℓ (a :: b :: t) =
            ([cthash s.tree_hasher f (ℓ + 1) (childF ℓ 1 (a :: b :: t))],
             [(s.tree_hasher.digest_leaf pv.1 pv.2).1],
             (s.tree_hasher.digest_leaf pv.1 pv.2).2) := by
          conv_lhs => unfold descend
          simp only [if_pos hbit]
          rw [hsc]
        have hdpS : dpath s.tree_hasher p (f + 1) ℓ (a :: b :: t) =
            [s.tree_hasher.digest_node
                (cthash s.tree_hasher f (ℓ + 1) (childF ℓ 0 (a :: b :: t)))
                (cthash s.tree_hasher f (ℓ + 1) (childF ℓ 1 (a :: b :: t)))] := by
          rw [dpath_node, if_pos hbit, hsc, dpath_singleton]
        rcases hss : childF ℓ 1 (a :: b :: t) with _ | ⟨qv, _ | ⟨s2, st⟩⟩
        · rw [hS'ss, hss] at hne'
          exact absurd rfl hne'
        · -- lone sibling leaf: it is promoted
          have hqvS : qv ∈ (a :: b :: t) := by
            refine childF_subset ℓ 1 _ qv ?_
            rw [hss]
            exact List.mem_cons_self _ _
          have hqvne : qv.1 ≠ p := by
            refine hssne qv ?_
            rw [hss]
            exact List.mem_cons_self _ _
          have hget : Store.get nodes (s.tree_hasher.digest_leaf qv.1 qv.2).1 =
              some (s.tree_hasher.digest_leaf qv.1 qv.2).2 :=
            hst (s.tree_hasher.digest_leaf qv.1 qv.2)
              (ctrecords_mem_leaf s.tree_hasher (f + 1) ℓ _ hso qv hqvS)
              (leaf_notin_dpath s.tree_hasher p qv.1 qv.2 (f + 1) ℓ _)
              (leaf_key_ne s.tree_hasher (f + 1) ℓ _ p wp qv.1 qv.2 hso hnod hp
                hqvS hqvne)
          have hlne : ((s.tree_hasher.digest_leaf qv.1 qv.2).1 : Bytes) ≠
              s.placeholder := by
            rw [hplc]
            show s.tree_hasher.hasher.hash _ ≠ s.tree_hasher.zero_hash
            rw [hok.1]
            exact hok.2.2.2.1 _
          refine Or.inl ⟨qv.1, qv.2, ?_, ?_⟩
          · rw [hS'ss, hss]
          · rw [hd]
            dsimp only
            rw [hss, cthash_singleton]
            simp only [List.reverse_singleton, List.singleton_append,
              List.length_cons, List.length_singleton]
            rw [del_loop_step]
            dsimp only
            simp only [List.getD_cons_zero, if_true]
            rw [if_pos hlne]
            rw [hget]
            dsimp only
            rw [if_pos (show s.tree_hasher.is_leaf
                (s.tree_hasher.digest_leaf qv.1 qv.2).2 = true from by
              simp [TreeHasher.is_leaf, TreeHasher.digest_leaf])]
            simp only [Nat.zero_add, List.length_nil]
        · -- internal sibling subtree: recombine with the placeholder
          have hssS : (qv :: s2 :: st) = childF ℓ 1 (a :: b :: t) := hss.symm
          have hsoSs2 : SetOk s.tree_hasher (ℓ + 1) f (qv :: s2 :: st) := by
            rw [hssS]
            exact hsoSs
          have hsib : ∃ X Y, cthash s.tree_hasher f (ℓ + 1) (qv :: s2 :: st) =
              (s.tree_hasher.digest_node X Y).1 ∧
              s.tree_hasher.digest_node X Y ∈
                ctrecords s.tree_hasher f (ℓ + 1) (qv :: s2 :: st) := by
            have hf0 : f ≠ 0 := by
              intro h0
              rw [h0] at hsoSs2
              exact SetOk_ge2_fuel_pos s.tree_hasher (ℓ + 1) _ hsoSs2 (by simp)
            obtain ⟨f2, hf2⟩ : ∃ f2, f = f2 + 1 := ⟨f - 1, by omega⟩
            subst hf2
            refine ⟨_, _, by rw [cthash_node], ?_⟩
            rw [ctrecords_node]
            exact List.mem_cons_self _ _
          obtain ⟨X, Y, hsibh, hsibm⟩ := hsib
          have hrecmem : s.tree_hasher.digest_node X Y ∈
              ctrecords s.tree_hasher (f + 1) ℓ (a :: b :: t) := by
            rw [ctrecords_node]
            refine List.mem_cons_of_mem _ (List.mem_append.mpr (Or.inr ?_))
            rw [hss]
            exact hsibm
          have hrecnd : s.tree_hasher.digest_node X Y ∉
              dpath s.tree_hasher p (f + 1) ℓ (a :: b :: t) := by
            rw [hdpS]
            intro hmem2
            refine hheadtl (s.tree_hasher.digest_node X Y) ?_
              (List.mem_singleton.mp hmem2)
            refine List.mem_append.mpr (Or.inr ?_)
            rw [hss]
            exact hsibm
          have hget : Store.get nodes (s.tree_hasher.digest_node X Y).1 =
              some (s.tree_hasher.digest_node X Y).2 :=
            hst (s.tree_hasher.digest_node X Y) hrecmem hrecnd
              (node_rec_key_ne_leaf s.tree_hasher (f + 1) ℓ _ p wp X Y _ hso
                hnod hp hrecmem rfl)
          have hget2 : Store.get nodes
              (cthash s.tree_hasher f (ℓ + 1) (qv :: s2 :: st)) =
              some (s.tree_hasher.digest_node X Y).2 := by
            rw [hsibh]
            exact hget
          have hsibne : (cthash s.tree_hasher f (ℓ + 1) (qv :: s2 :: st) :
              Bytes) ≠ s.placeholder := by
            rw [hplc]
            exact cthash_ne_zero _ _ _ _ hok hsoSs2 (by simp)
          have hallss : ∀ x ∈ (qv :: s2 :: st), get_msb_at x.1 ℓ = 1 := by
            intro x hx
            refine childF_bit ℓ 1 (a :: b :: t) x ?_
            rw [hss]
            exact hx
          have hcs1 : childF ℓ 1 (qv :: s2 :: st) = qv :: s2 :: st :=
            childF_eq_self ℓ 1 _ hallss
          have hcs0 : childF ℓ 0 (qv :: s2 :: st) = [] := by
            refine childF_eq_nil ℓ 0 _ ?_
            intro x hx h0
            have := hallss x hx
            omega
          have hcur : cthash s.tree_hasher (f + 1) ℓ
              (removeP p (a :: b :: t)) =
              (s.tree_hasher.digest_node s.tree_hasher.zero_hash
                (cthash s.tree_hasher f (ℓ + 1) (qv :: s2 :: st))).1 := by
            rw [hS'ss, hss, cthash_node, hcs0, hcs1, cthash_nil]
          have hdp' : dpath s.tree_hasher p (f + 1) ℓ
              (removeP p (a :: b :: t)) =
              [s.tree_hasher.digest_node s.tree_hasher.zero_hash
                (cthash s.tree_hasher f (ℓ + 1) (qv :: s2 :: st))] := by
            rw [hS'ss, hss, dpath_node, if_pos hbit, hcs0, hcs1, dpath_nil,
              cthash_nil]
          refine Or.inr ⟨?_, ?_⟩
          · rw [hS'ss, hss]
            simp
          · rw [hd]
            dsimp only
            rw [hss]
            simp only [List.reverse_singleton, List.singleton_append,
              List.length_cons, List.length_singleton]
            rw [hcur, hdp']
            simp only [List.reverse_singleton]
            rw [del_loop_step]
            dsimp only
            simp only [List.getD_cons_zero, if_true]
            rw [if_pos hsibne]
            rw [hget2]
            dsimp only
            rw [if_neg (show ¬(s.tree_hasher.is_leaf
                (s.tree_hasher.digest_node X Y).2 = true) from by
              simp [TreeHasher.is_leaf, TreeHasher.digest_node])]
            have hidx : (cthash s.tree_hasher f (ℓ + 1) (qv :: s2 :: st) ::
                SUF).length - 0 - 1 = ℓ := by
              simp only [List.length_cons, hSUF]
              omega
            rw [hidx, if_pos hbit, hplc]
            simp only [Nat.zero_add]
            exact rfl
      · -- the p-side child is internal: run the child's collapse first
        have hso' : SetOk s.tree_hasher (ℓ + 1) f (pv :: c2 :: ct) := by
          rw [← hsc]
          exact SetOk_child s.tree_hasher ℓ f (a :: b :: t) hso 0
        rw [hsc] at hpc
        have hag' : ∀ qv ∈ (pv :: c2 :: ct), ∀ j < ℓ + 1,
            get_msb_at p j = get_msb_at qv.1 j := by
          intro qv hqv j hj
          by_cases hje : j = ℓ
          · subst hje
            have hqb : get_msb_at qv.1 j = 0 := by
              refine childF_bit j 0 (a :: b :: t) qv ?_
              rw [hsc]
              exact hqv
            rw [hqb, hbit]
          · refine hag qv ?_ j (by omega)
            have hmm : qv ∈ childF ℓ 0 (a :: b :: t) := by
              rw [hsc]
              exact hqv
            exact childF_subset _ _ _ qv hmm
        have hsubc : (ctrecords s.tree_hasher f (ℓ + 1) (pv :: c2 :: ct)).Sublist
            (ctrecords s.tree_hasher (f + 1) ℓ (a :: b :: t)) := by
          rw [← hsc]
          exact ctrecords_child_sublist s.tree_hasher f ℓ a b t 0 (Or.inl rfl)
        have hnodc := hnod.sublist hsubc
        have hdpS : dpath s.tree_hasher p (f + 1) ℓ (a :: b :: t) =
            s.tree_hasher.digest_node
                (cthash s.tree_hasher f (ℓ + 1) (childF ℓ 0 (a :: b :: t)))
                (cthash s.tree_hasher f (ℓ + 1) (childF ℓ 1 (a :: b :: t))) ::
              dpath s.tree_hasher p f (ℓ + 1) (pv :: c2 :: ct) := by
          rw [dpath_node, if_pos hbit, hsc]
        have hstc : ∀ r ∈ ctrecords s.tree_hasher f (ℓ + 1) (pv :: c2 :: ct),
            r ∉ dpath s.tree_hasher p f (ℓ + 1) (pv :: c2 :: ct) →
            r.1 ≠ (s.tree_hasher.digest_leaf p wp).1 →
            Store.get nodes r.1 = some r.2 := by
          intro r hr hnd hnl
          refine hst r (hsubc.mem hr) ?_ hnl
          rw [hdpS]
          intro hmem2
          rcases List.mem_cons.mp hmem2 with h | h
          · refine hheadtl r ?_ h
            refine List.mem_append.mpr (Or.inl ?_)
            rw [hsc]
            exact hr
          · exact hnd h
        have hIH := ih (ℓ + 1) (pv :: c2 :: ct)
          (cthash s.tree_hasher f (ℓ + 1) (childF ℓ 1 (a :: b :: t)) :: SUF)
          nodes hso' (by simp) hpc hag'
          (by simp only [List.length_cons, hSUF]) hnodc hstc
        have hd : descend s.tree_hasher p (f + 1) ℓ (a :: b :: t) =
            (cthash s.tree_hasher f (ℓ + 1) (childF ℓ 1 (a :: b :: t)) ::
               (descend s.tree_hasher p f (ℓ + 1) (pv :: c2 :: ct)).1,
             cthash s.tree_hasher f (ℓ + 1) (pv :: c2 :: ct) ::
               (descend s.tree_hasher p f (ℓ + 1) (pv :: c2 :: ct)).2.1,
             (descend s.tree_hasher p f (ℓ + 1) (pv :: c2 :: ct)).2.2) := by
          conv_lhs => unfold descend
          simp only [if_pos hbit]
          rw [hsc]
        have hgetD : ((descend s.tree_hasher p f (ℓ + 1)
              (pv :: c2 :: ct)).1.reverse ++
            (cthash s.tree_hasher f (ℓ + 1) (childF ℓ 1 (a :: b :: t)) ::
              SUF)).getD
            (descend s.tree_hasher p f (ℓ + 1) (pv :: c2 :: ct)).1.length [] =
            cthash s.tree_hasher f (ℓ + 1) (childF ℓ 1 (a :: b :: t)) := by
          rw [← List.length_reverse
            (descend s.tree_hasher p f (ℓ + 1) (pv :: c2 :: ct)).1]
          exact getD_append_len _ _ _ _
        have hidx : ((descend s.tree_hasher p f (ℓ + 1)
              (pv :: c2 :: ct)).1.reverse ++
            (cthash s.tree_hasher f (ℓ + 1) (childF ℓ 1 (a :: b :: t)) ::
              SUF)).length -
            (descend s.tree_hasher p f (ℓ + 1) (pv :: c2 :: ct)).1.length - 1 =
            ℓ := by
          simp only [List.length_append, List.length_reverse, List.length_cons,
            hSUF]
          omega
        rcases hIH with ⟨q, w, hqw, hrun⟩ | ⟨hS2c, hrun⟩
        · -- the child collapsed to a single leaf
          have hqS : (q, w) ∈ (a :: b :: t) := by
            have hq1 : (q, w) ∈ removeP p (pv :: c2 :: ct) := by
              rw [hqw]
              exact List.mem_cons_self _ _
            have hq2 := (mem_removeP _ _ _).mp hq1
            refine childF_subset ℓ 0 _ (q, w) ?_
            rw [hsc]
            exact hq2.1
          have hqnp : q ≠ p := by
            have hq1 : (q, w) ∈ removeP p (pv :: c2 :: ct) := by
              rw [hqw]
              exact List.mem_cons_self _ _
            exact ((mem_removeP _ _ _).mp hq1).2
          have hlqne : ((s.tree_hasher.digest_leaf q w).1 : Bytes) ≠
              s.placeholder := by
            rw [hplc]
            show s.tree_hasher.hasher.hash _ ≠ s.tree_hasher.zero_hash
            rw [hok.1]
            exact hok.2.2.2.1 _
          by_cases hssnil : childF ℓ 1 (a :: b :: t) = []
          · -- empty sibling: the promoted leaf bubbles through this level
            have hSeq : (a :: b :: t) = pv :: c2 :: ct := by
              have hall : ∀ x ∈ (a :: b :: t), get_msb_at x.1 ℓ = 0 := by
                intro x hx
                rcases get_msb_at_zero_or_one x.1 ℓ with h | h
                · exact h
                · exact absurd h (childF_nil_all ℓ 1 _ hssnil x hx)
              exact (childF_eq_self ℓ 0 _ hall).symm.trans hsc
            refine Or.inl ⟨q, w, ?_, ?_⟩
            · rw [hSeq]
              exact hqw
            · rw [hssnil, cthash_nil] at hrun hgetD hidx
              rw [hd]
              dsimp only
              rw [hssnil, cthash_nil]
              rw [List.reverse_cons, List.append_assoc, List.singleton_append,
                List.length_cons]
              rw [hrun]
              rw [List.length_cons]
              rw [del_loop_step]
              dsimp only
              rw [hgetD]
              rw [if_pos (show (false = false) from rfl)]
              rw [if_neg (show ¬(s.tree_hasher.zero_hash ≠ s.placeholder) from
                fun h => h hplc.symm)]
          · -- non-empty sibling: recombine the promoted leaf with it
            obtain ⟨sv, hsv⟩ := List.exists_mem_of_ne_nil _ hssnil
            have hsvS : sv ∈ (a :: b :: t) := childF_subset ℓ 1 _ sv hsv
            have hsvne : sv.1 ≠ p := hssne sv hsv
            have hqmem' : (q, w) ∈ removeP p (a :: b :: t) :=
              (mem_removeP _ _ _).mpr ⟨hqS, hqnp⟩
            have hsvmem' : sv ∈ removeP p (a :: b :: t) :=
              (mem_removeP _ _ _).mpr ⟨hsvS, hsvne⟩
            have hqsvne : (q, w) ≠ sv := by
              intro he
              have hsvb := childF_bit ℓ 1 _ sv hsv
              rw [← he] at hsvb
              have hqb : get_msb_at q ℓ = 0 := by
                refine childF_bit ℓ 0 (a :: b :: t) (q, w) ?_
                have hq1 : (q, w) ∈ removeP p (pv :: c2 :: ct) := by
                  rw [hqw]
                  exact List.mem_cons_self _ _
                rw [hsc]
                exact ((mem_removeP _ _ _).mp hq1).1
              rw [hqb] at hsvb
              exact absurd hsvb (by omega)
            have hS2 : 2 ≤ (removeP p (a :: b :: t)).length :=
              two_le_length_of_two_mem hqmem' hsvmem' hqsvne
            have hsibne : (cthash s.tree_hasher f (ℓ + 1)
                (childF ℓ 1 (a :: b :: t)) : Bytes) ≠ s.placeholder := by
              rw [hplc]
              exact cthash_ne_zero _ _ _ _ hok hsoSs hssnil
            rcases hS'sh : removeP p (a :: b :: t) with _ | ⟨x1, _ | ⟨x2, xt⟩⟩
            · exact absurd hS'sh hne'
            · rw [hS'sh] at hS2
              simp at hS2
            · have hcf0 : childF ℓ 0 (x1 :: x2 :: xt) =
                  removeP p (pv :: c2 :: ct) := by
                rw [← hS'sh, removeP_childF, hsc]
              have hcf1 : childF ℓ 1 (x1 :: x2 :: xt) =
                  childF ℓ 1 (a :: b :: t) := by
                rw [← hS'sh, removeP_childF]
                exact removeP_eq_self _ _ hssne
              have hcur2 : cthash s.tree_hasher f (ℓ + 1)
                  (removeP p (pv :: c2 :: ct)) =
                  (s.tree_hasher.digest_leaf (q, w).1 (q, w).2).1 := by
                rw [hqw, cthash_singleton]
              have hcur : cthash s.tree_hasher (f + 1) ℓ (x1 :: x2 :: xt) =
                  (s.tree_hasher.digest_node
                    (s.tree_hasher.digest_leaf (q, w).1 (q, w).2).1
                    (cthash s.tree_hasher f (ℓ + 1)
                      (childF ℓ 1 (a :: b :: t)))).1 := by
                rw [cthash_node, hcf0, hcf1, hcur2]
              have hdp' : dpath s.tree_hasher p (f + 1) ℓ (x1 :: x2 :: xt) =
                  [s.tree_hasher.digest_node
                    (s.tree_hasher.digest_leaf (q, w).1 (q, w).2).1
                    (cthash s.tree_hasher f (ℓ + 1)
                      (childF ℓ 1 (a :: b :: t)))] := by
                rw [dpath_node, if_pos hbit, hcf0, hcf1, hcur2, hqw,
                  dpath_singleton]
              refine Or.inr ⟨by simp, ?_⟩
              rw [hd]
              dsimp only
              rw [List.reverse_cons, List.append_assoc, List.singleton_append,
                List.length_cons]
              rw [hrun]
              rw [hcur, hdp']
              simp only [List.reverse_singleton]
              rw [List.length_cons]
              rw [del_loop_step]
              dsimp only
              rw [hgetD]
              rw [if_pos (show (false = false) from rfl)]
              rw [if_pos hsibne]
              rw [if_neg hlqne]
              rw [hidx, if_pos hbit]
              exact rfl
        · -- the child kept at least two entries: always recombine
          have hS2 : 2 ≤ (removeP p (a :: b :: t)).length := by
            rcases hsh2 : removeP p (pv :: c2 :: ct) with _ | ⟨y1, _ | ⟨y2, yt⟩⟩
            · rw [hsh2] at hS2c
              simp at hS2c
            · rw [hsh2] at hS2c
              simp at hS2c
            · have hy1 : y1 ∈ removeP p (pv :: c2 :: ct) := by
                rw [hsh2]
                exact List.mem_cons_self _ _
              have hy2 : y2 ∈ removeP p (pv :: c2 :: ct) := by
                rw [hsh2]
                exact List.mem_cons_of_mem _ (List.mem_cons_self _ _)
              have hy1' : y1 ∈ removeP p (a :: b :: t) := by
                have h1 := (mem_removeP _ _ _).mp hy1
                refine (mem_removeP _ _ _).mpr ⟨?_, h1.2⟩
                refine childF_subset ℓ 0 _ y1 ?_
                rw [hsc]
                exact h1.1
              have hy2' : y2 ∈ removeP p (a :: b :: t) := by
                have h1 := (mem_removeP _ _ _).mp hy2
                refine (mem_removeP _ _ _).mpr ⟨?_, h1.2⟩
                refine childF_subset ℓ 0 _ y2 ?_
                rw [hsc]
                exact h1.1
              have hyne : y1 ≠ y2 := by
                have hpw : (removeP p (pv :: c2 :: ct)).Pairwise
                    (fun a b => a.1 ≠ b.1) := by
                  refine hso.2.2.1.sublist ?_
                  refine (removeP_sublist _ _).trans ?_
                  rw [← hsc]
                  exact List.filter_sublist _
                rw [hsh2] at hpw
                have := (List.pairwise_cons.mp hpw).1 y2
                  (List.mem_cons_self _ _)
                intro he
                rw [he] at this
                exact this rfl
              exact two_le_length_of_two_mem hy1' hy2' hyne
          rcases hS'sh : removeP p (a :: b :: t) with _ | ⟨x1, _ | ⟨x2, xt⟩⟩
          · exact absurd hS'sh hne'
          · rw [hS'sh] at hS2
            simp at hS2
          · have hcf0 : childF ℓ 0 (x1 :: x2 :: xt) =
                removeP p (pv :: c2 :: ct) := by
              rw [← hS'sh, removeP_childF, hsc]
            have hcf1 : childF ℓ 1 (x1 :: x2 :: xt) =
                childF ℓ 1 (a :: b :: t) := by
              rw [← hS'sh, removeP_childF]
              exact removeP_eq_self _ _ hssne
            have hcur : cthash s.tree_hasher (f + 1) ℓ (x1 :: x2 :: xt) =
                (s.tree_hasher.digest_node
                  (cthash s.tree_hasher f (ℓ + 1)
                    (removeP p (pv :: c2 :: ct)))
                  (cthash s.tree_hasher f (ℓ + 1)
                    (childF ℓ 1 (a :: b :: t)))).1 := by
              rw [cthash_node, hcf0, hcf1]
            have hdp' : dpath s.tree_hasher p (f + 1) ℓ (x1 :: x2 :: xt) =
                s.tree_hasher.digest_node
                    (cthash s.tree_hasher f (ℓ + 1)
                      (removeP p (pv :: c2 :: ct)))
                    (cthash s.tree_hasher f (ℓ + 1)
                      (childF ℓ 1 (a :: b :: t))) ::
                  dpath s.tree_hasher p f (ℓ + 1)
                    (removeP p (pv :: c2 :: ct)) := by
              rw [dpath_node, if_pos hbit, hcf0, hcf1]
            refine Or.inr ⟨by simp, ?_⟩
            rw [hd]
            dsimp only
            rw [List.reverse_cons, List.append_assoc, List.singleton_append,
              List.length_cons]
            rw [hrun]
            rw [hcur, hdp', List.reverse_cons, insertAll_append]
            rw [List.length_cons]
            rw [del_loop_step]
            dsimp only
            rw [hgetD]
            rw [if_neg (show ¬(true = false) from by simp)]
            rw [hidx, if_pos hbit]
            exact rfl
    · have hbit1 : get_msb_at p ℓ = 1 :=
        (get_msb_at_zero_or_one p ℓ).resolve_left hbit
      have hpc : (p, wp) ∈ childF ℓ 1 (a :: b :: t) :=
        List.mem_filter.mpr ⟨hp, by simp [hbit1]⟩
      have hssne : ∀ x ∈ childF ℓ 0 (a :: b :: t), x.1 ≠ p := by
        intro x hx he
        have hxb := childF_bit ℓ 0 _ x hx
        rw [he] at hxb
        exact hbit hxb
      have hsoSs : SetOk s.tree_hasher (ℓ + 1) f (childF ℓ 0 (a :: b :: t)) :=
        SetOk_child s.tree_hasher ℓ f (a :: b :: t) hso 0
      have hheadtl : ∀ r' ∈ (ctrecords s.tree_hasher f (ℓ + 1)
            (childF ℓ 0 (a :: b :: t)) ++
          ctrecords s.tree_hasher f (ℓ + 1) (childF ℓ 1 (a :: b :: t))),
          r' ≠ s.tree_hasher.digest_node
            (cthash s.tree_hasher f (ℓ + 1) (childF ℓ 0 (a :: b :: t)))
            (cthash s.tree_hasher f (ℓ + 1) (childF ℓ 1 (a :: b :: t))) := by
        intro r' hr' he
        have hnod2 := hnod
        rw [ctrecords_node] at hnod2
        have hp2 := (List.pairwise_cons.mp hnod2).1 r' hr'
        rw [he] at hp2
        exact hp2 rfl
      rcases hsc : childF ℓ 1 (a :: b :: t) with _ | ⟨pv, _ | ⟨c2, ct⟩⟩
      · rw [hsc] at hpc
        exact absurd hpc (List.not_mem_nil _)
      · -- deepest level: the p-side child is the p-leaf alone
        rw [hsc] at hpc
        have hpveq : (p, wp) = pv := List.mem_singleton.mp hpc
        have hS'ss : removeP p (a :: b :: t) = childF ℓ 0 (a :: b :: t) := by
          refine removeP_eq_childF p ℓ 1 0 _ (by omega)
            (fun x hx => (get_msb_at_zero_or_one x.1 ℓ).symm) ?_ ?_
          · intro x hx hx1
            have hxc : x ∈ childF ℓ 1 (a :: b :: t) :=
              List.mem_filter.mpr ⟨hx, by simp [hx1]⟩
            rw [hsc] at hxc
            rw [List.mem_singleton.mp hxc, ← hpveq]
          · intro x hx hxb
            exact hssne x (List.mem_filter.mpr ⟨hx, by simp [hxb]⟩)
        have hd : descend s.tree_hasher p (f + 1) ℓ (a :: b :: t) =
            ([cthash s.tree_hasher f (ℓ + 1) (childF ℓ 0 (a :: b :: t))],
             [(s.tree_hasher.digest_leaf pv.1 pv.2).1],
             (s.tree_hasher.digest_leaf pv.1 pv.2).2) := by
          conv_lhs => unfold descend
          simp only [if_neg hbit]
          rw [hsc]
        have hdpS : dpath s.tree_hasher p (f + 1) ℓ (a :: b :: t) =
            [s.tree_hasher.digest_node
                (cthash s.tree_hasher f (ℓ + 1) (childF ℓ 0 (a :: b :: t)))
                (cthash s.tree_hasher f (ℓ + 1) (childF ℓ 1 (a :: b :: t)))] := by
          rw [dpath_node, if_neg hbit, hsc, dpath_singleton]
        rcases hss : childF ℓ 0 (a :: b :: t) with _ | ⟨qv, _ | ⟨s2, st⟩⟩
        · rw [hS'ss, hss] at hne'
          exact absurd rfl hne'
        · -- lone sibling leaf: it is promoted
          have hqvS : qv ∈ (a :: b :: t) := by
            refine childF_subset ℓ 0 _ qv ?_
            rw [hss]
            exact List.mem_cons_self _ _
          have hqvne : qv.1 ≠ p := by
            refine hssne qv ?_
            rw [hss]
            exact List.mem_cons_self _ _
          have hget : Store.get nodes (s.tree_hasher.digest_leaf qv.1 qv.2).1 =
              some (s.tree_hasher.digest_leaf qv.1 qv.2).2 :=
            hst (s.tree_hasher.digest_leaf qv.1 qv.2)
              (ctrecords_mem_leaf s.tree_hasher (f + 1) ℓ _ hso qv hqvS)
              (leaf_notin_dpath s.tree_hasher p qv.1 qv.2 (f + 1) ℓ _)
              (leaf_key_ne s.tree_hasher (f + 1) ℓ _ p wp qv.1 qv.2 hso hnod hp
                hqvS hqvne)
          have hlne : ((s.tree_hasher.digest_leaf qv.1 qv.2).1 : Bytes) ≠
              s.placeholder := by
            rw [hplc]
            show s.tree_hasher.hasher.hash _ ≠ s.tree_hasher.zero_hash
            rw [hok.1]
            exact hok.2.2.2.1 _
          refine Or.inl ⟨qv.1, qv.2, ?_, ?_⟩
          · rw [hS'ss, hss]
          · rw [hd]
            dsimp only
            rw [hss, cthash_singleton]
            simp only [List.reverse_singleton, List.singleton_append,
              List.length_cons, List.length_singleton]
            rw [del_loop_step]
            dsimp only
            simp only [List.getD_cons_zero, if_true]
            rw [if_pos hlne]
            rw [hget]
            dsimp only
            rw [if_pos (show s.tree_hasher.is_leaf
                (s.tree_hasher.digest_leaf qv.1 qv.2).2 = true from by
              simp [TreeHasher.is_leaf, TreeHasher.digest_leaf])]
            simp only [Nat.zero_add, List.length_nil]
        · -- internal sibling subtree: recombine with the placeholder
          have hssS : (qv :: s2 :: st) = childF ℓ 0 (a :: b :: t) := hss.symm
          have hsoSs2 : SetOk s.tree_hasher (ℓ + 1) f (qv :: s2 :: st) := by
            rw [hssS]
            exact hsoSs
          have hsib : ∃ X Y, cthash s.tree_hasher f (ℓ + 1) (qv :: s2 :: st) =
              (s.tree_hasher.digest_node X Y).1 ∧
              s.tree_hasher.digest_node X Y ∈
                ctrecords s.tree_hasher f (ℓ + 1) (qv :: s2 :: st) := by
            have hf0 : f ≠ 0 := by
              intro h0
              rw [h0] at hsoSs2
              exact SetOk_ge2_fuel_pos s.tree_hasher (ℓ + 1) _ hsoSs2 (by simp)
            obtain ⟨f2, hf2⟩ : ∃ f2, f = f2 + 1 := ⟨f - 1, by omega⟩
            subst hf2
            refine ⟨_, _, by rw [cthash_node], ?_⟩
            rw [ctrecords_node]
            exact List.mem_cons_self _ _
          obtain ⟨X, Y, hsibh, hsibm⟩ := hsib
          have hrecmem : s.tree_hasher.digest_node X Y ∈
              ctrecords s.tree_hasher (f + 1) ℓ (a :: b :: t) := by
            rw [ctrecords_node]
            refine List.mem_cons_of_mem _ (List.mem_append.mpr (Or.inl ?_))
            rw [hss]
            exact hsibm
          have hrecnd : s.tree_hasher.digest_node X Y ∉
              dpath s.tree_hasher p (f + 1) ℓ (a :: b :: t) := by
            rw [hdpS]
            intro hmem2
            refine hheadtl (s.tree_hasher.digest_node X Y) ?_
              (List.mem_singleton.mp hmem2)
            refine List.mem_append.mpr (Or.inl ?_)
            rw [hss]
            exact hsibm
          have hget : Store.get nodes (s.tree_hasher.digest_node X Y).1 =
              some (s.tree_hasher.digest_node X Y).2 :=
            hst (s.tree_hasher.digest_node X Y) hrecmem hrecnd
              (node_rec_key_ne_leaf s.tree_hasher (f + 1) ℓ _ p wp X Y _ hso
                hnod hp hrecmem rfl)
          have hget2 : Store.get nodes
              (cthash s.tree_hasher f (ℓ + 1) (qv :: s2 :: st)) =
              some (s.tree_hasher.digest_node X Y).2 := by
            rw [hsibh]
            exact hget
          have hsibne : (cthash s.tree_hasher f (ℓ + 1) (qv :: s2 :: st) :
              Bytes) ≠ s.placeholder := by
            rw [hplc]
            exact cthash_ne_zero _ _ _ _ hok hsoSs2 (by simp)
          have hallss : ∀ x ∈ (qv :: s2 :: st), get_msb_at x.1 ℓ = 0 := by
            intro x hx
            refine childF_bit ℓ 0 (a :: b :: t) x ?_
            rw [hss]
            exact hx
          have hcs0 : childF ℓ 0 (qv :: s2 :: st) = qv :: s2 :: st :=
            childF_eq_self ℓ 0 _ hallss
          have hcs1 : childF ℓ 1 (qv :: s2 :: st) = [] := by
            refine childF_eq_nil ℓ 1 _ ?_
            intro x hx h1
            have := hallss x hx
            omega
          have hcur : cthash s.tree_hasher (f + 1) ℓ
              (removeP p (a :: b :: t)) =
              (s.tree_hasher.digest_node
                (cthash s.tree_hasher f (ℓ + 1) (qv :: s2 :: st))
                s.tree_hasher.zero_hash).1 := by
            rw [hS'ss, hss, cthash_node, hcs0, hcs1, cthash_nil]
          have hdp' : dpath s.tree_hasher p (f + 1) ℓ
              (removeP p (a :: b :: t)) =
              [s.tree_hasher.digest_node
                (cthash s.tree_hasher f (ℓ + 1) (qv :: s2 :: st))
                s.tree_hasher.zero_hash] := by
            rw [hS'ss, hss, dpath_node, if_neg hbit, hcs0, hcs1, dpath_nil,
              cthash_nil]
          refine Or.inr ⟨?_, ?_⟩
          · rw [hS'ss, hss]
            simp
          · rw [hd]
            dsimp only
            rw [hss]
            simp only [List.reverse_singleton, List.singleton_append,
              List.length_cons, List.length_singleton]
            rw [hcur, hdp']
            simp only [List.reverse_singleton]
            rw [del_loop_step]
            dsimp only
            simp only [List.getD_cons_zero, if_true]
            rw [if_pos hsibne]
            rw [hget2]
            dsimp only
            rw [if_neg (show ¬(s.tree_hasher.is_leaf
                (s.tree_hasher.digest_node X Y).2 = true) from by
              simp [TreeHasher.is_leaf, TreeHasher.digest_node])]
            have hidx : (cthash s.tree_hasher f (ℓ + 1) (qv :: s2 :: st) ::
                SUF).length - 0 - 1 = ℓ := by
              simp only [List.length_cons, hSUF]
              omega
            rw [hidx, if_neg hbit, hplc]
            simp only [Nat.zero_add]
            exact rfl
      · -- the p-side child is internal: run the child's collapse first
        have hso' : SetOk s.tree_hasher (ℓ + 1) f (pv :: c2 :: ct) := by
          rw [← hsc]
          exact SetOk_child s.tree_hasher ℓ f (a :: b :: t) hso 1
        rw [hsc] at hpc
        have hag' : ∀ qv ∈ (pv :: c2 :: ct), ∀ j < ℓ + 1,
            get_msb_at p j = get_msb_at qv.1 j := by
          intro qv hqv j hj
          by_cases hje : j = ℓ
          · subst hje
            have hqb : get_msb_at qv.1 j = 1 := by
              refine childF_bit j 1 (a :: b :: t) qv ?_
              rw [hsc]
              exact hqv
            rw [hqb, hbit1]
          · refine hag qv ?_ j (by omega)
            have hmm : qv ∈ childF ℓ 1 (a :: b :: t) := by
              rw [hsc]
              exact hqv
            exact childF_subset _ _ _ qv hmm
        have hsubc : (ctrecords s.tree_hasher f (ℓ + 1) (pv :: c2 :: ct)).Sublist
            (ctrecords s.tree_hasher (f + 1) ℓ (a :: b :: t)) := by
          rw [← hsc]
          exact ctrecords_child_sublist s.tree_hasher f ℓ a b t 1 (Or.inr rfl)
        have hnodc := hnod.sublist hsubc
        have hdpS : dpath s.tree_hasher p (f + 1) ℓ (a :: b :: t) =
            s.tree_hasher.digest_node
                (cthash s.tree_hasher f (ℓ + 1) (childF ℓ 0 (a :: b :: t)))
                (cthash s.tree_hasher f (ℓ + 1) (childF ℓ 1 (a :: b :: t))) ::
              dpath s.tree_hasher p f (ℓ + 1) (pv :: c2 :: ct) := by
          rw [dpath_node, if_neg hbit, hsc]
        have hstc : ∀ r ∈ ctrecords s.tree_hasher f (ℓ + 1) (pv :: c2 :: ct),
            r ∉ dpath s.tree_hasher p f (ℓ + 1) (pv :: c2 :: ct) →
            r.1 ≠ (s.tree_hasher.digest_leaf p wp).1 →
            Store.get nodes r.1 = some r.2 := by
          intro r hr hnd hnl
          refine hst r (hsubc.mem hr) ?_ hnl
          rw [hdpS]
          intro hmem2
          rcases List.mem_cons.mp hmem2 with h | h
          · refine hheadtl r ?_ h
            refine List.mem_append.mpr (Or.inr ?_)
            rw [hsc]
            exact hr
          · exact hnd h
        have hIH := ih (ℓ + 1) (pv :: c2 :: ct)
          (cthash s.tree_hasher f (ℓ + 1) (childF ℓ 0 (a :: b :: t)) :: SUF)
          nodes hso' (by simp) hpc hag'
          (by simp only [List.length_cons, hSUF]) hnodc hstc
        have hd : descend s.tree_hasher p (f + 1) ℓ (a :: b :: t) =
            (cthash s.tree_hasher f (ℓ + 1) (childF ℓ 0 (a :: b :: t)) ::
               (descend s.tree_hasher p f (ℓ + 1) (pv :: c2 :: ct)).1,
             cthash s.tree_hasher f (ℓ + 1) (pv :: c2 :: ct) ::
               (descend s.tree_hasher p f (ℓ + 1) (pv :: c2 :: ct)).2.1,
             (descend s.tree_hasher p f (ℓ + 1) (pv :: c2 :: ct)).2.2) := by
          conv_lhs => unfold descend
          simp only [if_neg hbit]
          rw [hsc]
        have hgetD : ((descend s.tree_hasher p f (ℓ + 1)
              (pv :: c2 :: ct)).1.reverse ++
            (cthash s.tree_hasher f (ℓ + 1) (childF ℓ 0 (a :: b :: t)) ::
              SUF)).getD
            (descend s.tree_hasher p f (ℓ + 1) (pv :: c2 :: ct)).1.length [] =
            cthash s.tree_hasher f (ℓ + 1) (childF ℓ 0 (a :: b :: t)) := by
          rw [← List.length_reverse
            (descend s.tree_hasher p f (ℓ + 1) (pv :: c2 :: ct)).1]
          exact getD_append_len _ _ _ _
        have hidx : ((descend s.tree_hasher p f (ℓ + 1)
              (pv :: c2 :: ct)).1.reverse ++
            (cthash s.tree_hasher f (ℓ + 1) (childF ℓ 0 (a :: b :: t)) ::
              SUF)).length -
            (descend s.tree_hasher p f (ℓ + 1) (pv :: c2 :: ct)).1.length - 1 =
            ℓ := by
          simp only [List.length_append, List.length_reverse, List.length_cons,
            hSUF]
          omega
        rcases hIH with ⟨q, w, hqw, hrun⟩ | ⟨hS2c, hrun⟩
        · -- the child collapsed to a single leaf
          have hqS : (q, w) ∈ (a :: b :: t) := by
            have hq1 : (q, w) ∈ removeP p (pv :: c2 :: ct) := by
              rw [hqw]
              exact List.mem_cons_self _ _
            have hq2 := (mem_removeP _ _ _).mp hq1
            refine childF_subset ℓ 1 _ (q, w) ?_
            rw [hsc]
            exact hq2.1
          have hqnp : q ≠ p := by
            have hq1 : (q, w) ∈ removeP p (pv :: c2 :: ct) := by
              rw [hqw]
              exact List.mem_cons_self _ _
            exact ((mem_removeP _ _ _).mp hq1).2
          have hlqne : ((s.tree_hasher.digest_leaf q w).1 : Bytes) ≠
              s.placeholder := by
            rw [hplc]
            show s.tree_hasher.hasher.hash _ ≠ s.tree_hasher.zero_hash
            rw [hok.1]
            exact hok.2.2.2.1 _
          by_cases hssnil : childF ℓ 0 (a :: b :: t) = []
          · -- empty sibling: the promoted leaf bubbles through this level
            have hSeq : (a :: b :: t) = pv :: c2 :: ct := by
              have hall : ∀ x ∈ (a :: b :: t), get_msb_at x.1 ℓ = 1 := by
                intro x hx
                rcases get_msb_at_zero_or_one x.1 ℓ with h | h
                · exact absurd h (childF_nil_all ℓ 0 _ hssnil x hx)
                · exact h
              exact (childF_eq_self ℓ 1 _ hall).symm.trans hsc
            refine Or.inl ⟨q, w, ?_, ?_⟩
            · rw [hSeq]
              exact hqw
            · rw [hssnil, cthash_nil] at hrun hgetD hidx
              rw [hd]
              dsimp only
              rw [hssnil, cthash_nil]
              rw [List.reverse_cons, List.append_assoc, List.singleton_append,
                List.length_cons]
              rw [hrun]
              rw [List.length_cons]
              rw [del_loop_step]
              dsimp only
              rw [hgetD]
              rw [if_pos (show (false = false) from rfl)]
              rw [if_neg (show ¬(s.tree_hasher.zero_hash ≠ s.placeholder) from
                fun h => h hplc.symm)]
          · -- non-empty sibling: recombine the promoted leaf with it
            obtain ⟨sv, hsv⟩ := List.exists_mem_of_ne_nil _ hssnil
            have hsvS : sv ∈ (a :: b :: t) := childF_subset ℓ 0 _ sv hsv
            have hsvne : sv.1 ≠ p := hssne sv hsv
            have hqmem' : (q, w) ∈ removeP p (a :: b :: t) :=
              (mem_removeP _ _ _).mpr ⟨hqS, hqnp⟩
            have hsvmem' : sv ∈ removeP p (a :: b :: t) :=
              (mem_removeP _ _ _).mpr ⟨hsvS, hsvne⟩
            have hqsvne : (q, w) ≠ sv := by
              intro he
              have hsvb := childF_bit ℓ 0 _ sv hsv
              rw [← he] at hsvb
              have hqb : get_msb_at q ℓ = 1 := by
                refine childF_bit ℓ 1 (a :: b :: t) (q, w) ?_
                have hq1 : (q, w) ∈ removeP p (pv :: c2 :: ct) := by
                  rw [hqw]
                  exact List.mem_cons_self _ _
                rw [hsc]
                exact ((mem_removeP _ _ _).mp hq1).1
              rw [hqb] at hsvb
              exact absurd hsvb (by omega)
            have hS2 : 2 ≤ (removeP p (a :: b :: t)).length :=
              two_le_length_of_two_mem hqmem' hsvmem' hqsvne
            have hsibne : (cthash s.tree_hasher f (ℓ + 1)
                (childF ℓ 0 (a :: b :: t)) : Bytes) ≠ s.placeholder := by
              rw [hplc]
              exact cthash_ne_zero _ _ _ _ hok hsoSs hssnil
            rcases hS'sh : removeP p (a :: b :: t) with _ | ⟨x1, _ | ⟨x2, xt⟩⟩
            · exact absurd hS'sh hne'
            · rw [hS'sh] at hS2
              simp at hS2
            · have hcf1 : childF ℓ 1 (x1 :: x2 :: xt) =
                  removeP p (pv :: c2 :: ct) := by
                rw [← hS'sh, removeP_childF, hsc]
              have hcf0 : childF ℓ 0 (x1 :: x2 :: xt) =
                  childF ℓ 0 (a :: b :: t) := by
                rw [← hS'sh, removeP_childF]
                exact removeP_eq_self _ _ hssne
              have hcur2 : cthash s.tree_hasher f (ℓ + 1)
                  (removeP p (pv :: c2 :: ct)) =
                  (s.tree_hasher.digest_leaf (q, w).1 (q, w).2).1 := by
                rw [hqw, cthash_singleton]
              have hcur : cthash s.tree_hasher (f + 1) ℓ (x1 :: x2 :: xt) =
                  (s.tree_hasher.digest_node
                    (cthash s.tree_hasher f (ℓ + 1)
                      (childF ℓ 0 (a :: b :: t)))
                    (s.tree_hasher.digest_leaf (q, w).1 (q, w).2).1).1 := by
                rw [cthash_node, hcf0, hcf1, hcur2]
              have hdp' : dpath s.tree_hasher p (f + 1) ℓ (x1 :: x2 :: xt) =
                  [s.tree_hasher.digest_node
                    (cthash s.tree_hasher f (ℓ + 1)
                      (childF ℓ 0 (a :: b :: t)))
                    (s.tree_hasher.digest_leaf (q, w).1 (q, w).2).1] := by
                rw [dpath_node, if_neg hbit, hcf0, hcf1, hcur2, hqw,
                  dpath_singleton]
              refine Or.inr ⟨by simp, ?_⟩
              rw [hd]
              dsimp only
              rw [List.reverse_cons, List.append_assoc, List.singleton_append,
                List.length_cons]
              rw [hrun]
              rw [hcur, hdp']
              simp only [List.reverse_singleton]
              rw [List.length_cons]
              rw [del_loop_step]
              dsimp only
              rw [hgetD]
              rw [if_pos (show (false = false) from rfl)]
              rw [if_pos hsibne]
              rw [if_neg hlqne]
              rw [hidx, if_neg hbit]
              exact rfl
        · -- the child kept at least two entries: always recombine
          have hS2 : 2 ≤ (removeP p (a :: b :: t)).length := by
            rcases hsh2 : removeP p (pv :: c2 :: ct) with _ | ⟨y1, _ | ⟨y2, yt⟩⟩
            · rw [hsh2] at hS2c
              simp at hS2c
            · rw [hsh2] at hS2c
              simp at hS2c
            · have hy1 : y1 ∈ removeP p (pv :: c2 :: ct) := by
                rw [hsh2]
                exact List.mem_cons_self _ _
              have hy2 : y2 ∈ removeP p (pv :: c2 :: ct) := by
                rw [hsh2]
                exact List.mem_cons_of_mem _ (List.mem_cons_self _ _)
              have hy1' : y1 ∈ removeP p (a :: b :: t) := by
                have h1 := (mem_removeP _ _ _).mp hy1
                refine (mem_removeP _ _ _).mpr ⟨?_, h1.2⟩
                refine childF_subset ℓ 1 _ y1 ?_
                rw [hsc]
                exact h1.1
              have hy2' : y2 ∈ removeP p (a :: b :: t) := by
                have h1 := (mem_removeP _ _ _).mp hy2
                refine (mem_removeP _ _ _).mpr ⟨?_, h1.2⟩
                refine childF_subset ℓ 1 _ y2 ?_
                rw [hsc]
                exact h1.1
              have hyne : y1 ≠ y2 := by
                have hpw : (removeP p (pv :: c2 :: ct)).Pairwise
                    (fun a b => a.1 ≠ b.1) := by
                  refine hso.2.2.1.sublist ?_
                  refine (removeP_sublist _ _).trans ?_
                  rw [← hsc]
                  exact List.filter_sublist _
                rw [hsh2] at hpw
                have := (List.pairwise_cons.mp hpw).1 y2
                  (List.mem_cons_self _ _)
                intro he
                rw [he] at this
                exact this rfl
              exact two_le_length_of_two_mem hy1' hy2' hyne
          rcases hS'sh : removeP p (a :: b :: t) with _ | ⟨x1, _ | ⟨x2, xt⟩⟩
          · exact absurd hS'sh hne'
          · rw [hS'sh] at hS2
            simp at hS2
          · have hcf1 : childF ℓ 1 (x1 :: x2 :: xt) =
                removeP p (pv :: c2 :: ct) := by
              rw [← hS'sh, removeP_childF, hsc]
            have hcf0 : childF ℓ 0 (x1 :: x2 :: xt) =
                childF ℓ 0 (a :: b :: t) := by
              rw [← hS'sh, removeP_childF]
              exact removeP_eq_self _ _ hssne
            have hcur : cthash s.tree_hasher (f + 1) ℓ (x1 :: x2 :: xt) =
                (s.tree_hasher.digest_node
                  (cthash s.tree_hasher f (ℓ + 1)
                    (childF ℓ 0 (a :: b :: t)))
                  (cthash s.tree_hasher f (ℓ + 1)
                    (removeP p (pv :: c2 :: ct)))).1 := by
              rw [cthash_node, hcf0, hcf1]
            have hdp' : dpath s.tree_hasher p (f + 1) ℓ (x1 :: x2 :: xt) =
                s.tree_hasher.digest_node
                    (cthash s.tree_hasher f (ℓ + 1)
                      (childF ℓ 0 (a :: b :: t)))
                    (cthash s.tree_hasher f (ℓ + 1)
                      (removeP p (pv :: c2 :: ct))) ::
                  dpath s.tree_hasher p f (ℓ + 1)
                    (removeP p (pv :: c2 :: ct)) := by
              rw [dpath_node, if_neg hbit, hcf0, hcf1]
            refine Or.inr ⟨by simp, ?_⟩
            rw [hd]
            dsimp only
            rw [List.reverse_cons, List.append_assoc, List.singleton_append,
              List.length_cons]
            rw [hrun]
            rw [hcur, hdp', List.reverse_cons, insertAll_append]
            rw [List.length_cons]
            rw [del_loop_step]
            dsimp only
            rw [hgetD]
            rw [if_neg (show ¬(true = false) from by simp)]
            rw [hidx, if_neg hbit]
            exact rfl

theorem del_loop_zero (s : SMT) (p : Bytes) (SN : List Bytes) (i : Nat)
    (c : Bytes) (flag : Bool) (nodes : Store) :
    SMT.del_loop s p SN i 0 c flag nodes = some (c, nodes) := rfl

set_option maxHeartbeats 2000000 in
theorem delete_canon (s : SMT) (S : List (Bytes × Bytes)) (key wp : Bytes)
    (hok : HashOk s.tree_hasher)
    (hso : SetOk s.tree_hasher 0 s.depth S)
    (h2 : 2 ≤ S.length)
    (hC : Canon s S)
    (hp : (s.tree_hasher.path key, wp) ∈ S)
    (hnod : (ctrecords s.tree_hasher s.depth 0 S).Pairwise (fun x y => x.1 ≠ y.1))
    (hnod' : (ctrecords s.tree_hasher s.depth 0
        (removeP (s.tree_hasher.path key) S)).Pairwise (fun x y => x.1 ≠ y.1))
    (hdel1 : ∀ r ∈ dpath s.tree_hasher (s.tree_hasher.path key) s.depth 0 S,
      r.1 ∉ (ctrecords s.tree_hasher s.depth 0
        (removeP (s.tree_hasher.path key) S)).map Prod.fst)
    (hdel2 : (s.tree_hasher.digest_leaf (s.tree_hasher.path key) wp).1 ∉
      (ctrecords s.tree_hasher s.depth 0
        (removeP (s.tree_hasher.path key) S)).map Prod.fst) :
    ∃ s', s.del key = some s' ∧ s'.tree_hasher = s.tree_hasher ∧
      Canon s' (removeP (s.tree_hasher.path key) S) := by
  have hsn := sidenodes_ge2 s S (s.tree_hasher.path key) hok hso h2 hC
  have hstored := canon_stored s S hC
  obtain ⟨hroot, hkd, hmem⟩ := hC
  have hag : ∀ qv ∈ S, ∀ j < 0, get_msb_at (s.tree_hasher.path key) j =
      get_msb_at qv.1 j := fun qv _ j hj => absurd hj (Nat.not_lt_zero j)
  obtain ⟨hd1, hd2, hd4, hterm, hz⟩ := descend_struct_present s.tree_hasher
    (s.tree_hasher.path key) wp s.depth 0 S hso h2 hp hag
  have hpnne : (descend s.tree_hasher (s.tree_hasher.path key) s.depth 0 S).2.1 ≠
      [] := by
    intro h
    rw [h] at hd2
    simp only [List.length_nil] at hd2
    omega
  obtain ⟨ini, hini⟩ : ∃ ini,
      (descend s.tree_hasher (s.tree_hasher.path key) s.depth 0 S).2.1 =
        ini ++ [(s.tree_hasher.digest_leaf (s.tree_hasher.path key) wp).1] := by
    rcases List.eq_nil_or_concat
      (descend s.tree_hasher (s.tree_hasher.path key) s.depth 0 S).2.1 with
      h | ⟨ini, z, h⟩
    · exact absurd h hpnne
    · rw [List.concat_eq_append] at h
      rw [h, getLast?_snoc] at hz
      obtain rfl := Option.some.inj hz
      exact ⟨ini, h⟩
  rw [hini, List.dropLast_concat] at hd4
  have hhead : (((descend s.tree_hasher (s.tree_hasher.path key) s.depth 0
      S).2.1.reverse ++ [s.root]).headD [] : Bytes) =
      (s.tree_hasher.digest_leaf (s.tree_hasher.path key) wp).1 := by
    rw [hini]
    simp [List.reverse_append]
  have hheadne : ((s.tree_hasher.digest_leaf (s.tree_hasher.path key) wp).1 :
      Bytes) ≠ s.placeholder := by
    show s.tree_hasher.hasher.hash _ ≠ s.tree_hasher.zero_hash
    rw [hok.1]
    exact hok.2.2.2.1 _
  have hcond : ¬((((descend s.tree_hasher (s.tree_hasher.path key) s.depth 0
      S).2.1.reverse ++ [s.root]).headD []) = s.placeholder) := by
    rw [hhead]
    exact hheadne
  have hkeyd : ∀ k, k ∈ ((descend s.tree_hasher (s.tree_hasher.path key)
        s.depth 0 S).2.1.reverse ++ [s.root]) →
      k ∈ (dpath s.tree_hasher (s.tree_hasher.path key) s.depth 0 S).map
        Prod.fst ∨
      k = (s.tree_hasher.digest_leaf (s.tree_hasher.path key) wp).1 := by
    intro k hk
    rcases List.mem_append.mp hk with h | h
    · rw [List.mem_reverse, hini] at h
      rcases List.mem_append.mp h with h | h
      · refine Or.inl ?_
        rw [hd4]
        exact List.mem_cons_of_mem _ h
      · exact Or.inr (List.mem_singleton.mp h)
    · refine Or.inl ?_
      rw [hd4, List.mem_singleton.mp h, hroot]
      exact List.mem_cons_self _ _
  have hkeyd' : ∀ (r : Bytes × Bytes), r ∈ ctrecords s.tree_hasher s.depth 0 S →
      r ∉ dpath s.tree_hasher (s.tree_hasher.path key) s.depth 0 S →
      r.1 ≠ (s.tree_hasher.digest_leaf (s.tree_hasher.path key) wp).1 →
      r.1 ∉ ((descend s.tree_hasher (s.tree_hasher.path key) s.depth 0
        S).2.1.reverse ++ [s.root]) := by
    intro r hr hnd hnk hmem2
    rcases hkeyd r.1 hmem2 with h | h
    · rcases List.mem_map.mp h with ⟨r0, hr0, hr0k⟩
      have heq := pairwise_key_eq _ r r0 hnod hr
        (dpath_subset s.tree_hasher (s.tree_hasher.path key) s.depth 0 S r0 hr0)
        hr0k.symm
      rw [heq] at hnd
      exact hnd hr0
    · exact hnk h
  have hst0 : ∀ r ∈ ctrecords s.tree_hasher s.depth 0 S,
      r ∉ dpath s.tree_hasher (s.tree_hasher.path key) s.depth 0 S →
      r.1 ≠ (s.tree_hasher.digest_leaf (s.tree_hasher.path key) wp).1 →
      Store.get (((descend s.tree_hasher (s.tree_hasher.path key) s.depth 0
          S).2.1.reverse ++ [s.root]).foldl (fun n d => n.del d) s.nodes) r.1 =
        some r.2 := by
    intro r hr hnd hnk
    rw [foldl_del_get]
    rw [if_neg (hkeyd' r hr hnd hnk)]
    exact hstored r hr
  have hnodnew : ∀ x ∈ ctrecords s.tree_hasher s.depth 0
      (removeP (s.tree_hasher.path key) S),
      ∀ y ∈ ctrecords s.tree_hasher s.depth 0
      (removeP (s.tree_hasher.path key) S),
      x.1 = y.1 → x = y :=
    fun x hx y hy he => pairwise_key_eq _ x y hnod' hx hy he
  have hdlc := del_loop_canon s (s.tree_hasher.path key) wp hok s.depth 0 S
    ([] : List Bytes)
    (((descend s.tree_hasher (s.tree_hasher.path key) s.depth 0
        S).2.1.reverse ++ [s.root]).foldl (fun n d => n.del d) s.nodes)
    hso h2 hp hag rfl hnod hst0
  rw [List.append_nil] at hdlc
  simp only [List.length_nil] at hdlc
  simp only [del_loop_zero] at hdlc
  rcases hdlc with ⟨q, w, hS'eq, hrun⟩ | ⟨hS2, hrun⟩
  · -- the deletion collapses the tree to the lone surviving leaf
    refine ⟨?_, ?_, ?_, ?_, ?_, ?_⟩
    rotate_left
    · unfold SMT.del SMT.update_for_root
      dsimp only
      rw [hsn]
      dsimp only
      rw [if_pos (show SMT.DEFAULT_VALUE = SMT.DEFAULT_VALUE from rfl)]
      unfold SMT.delete_raw
      dsimp only
      rw [if_neg hcond]
      rw [hrun]
      exact rfl
    · rfl
    · show _ = cthash _ _ 0 (removeP (s.tree_hasher.path key) S)
      rw [hS'eq, cthash_singleton]
    · exact KeysDistinct.foldl_del _ _ hkd
    · intro kv
      refine store_step s.nodes (ctrecords s.tree_hasher s.depth 0 S)
        (ctrecords s.tree_hasher s.depth 0 (removeP (s.tree_hasher.path key) S))
        [] []
        ((descend s.tree_hasher (s.tree_hasher.path key) s.depth 0
          S).2.1.reverse ++ [s.root])
        hmem hnodnew ?_ ?_ ?_ ?_ ?_ kv
      · intro r hr
        exact absurd hr (List.not_mem_nil r)
      · intro r hr
        exact absurd hr (List.not_mem_nil r)
      · intro k hk r hr he
        rcases hkeyd k hk with h | h
        · rcases List.mem_map.mp h with ⟨r0, hr0, hr0k⟩
          refine hdel1 r0 hr0 (List.mem_map.mpr ⟨r, hr, ?_⟩)
          rw [he]
          exact hr0k.symm
        · refine hdel2 (List.mem_map.mpr ⟨r, hr, ?_⟩)
          rw [he]
          exact h
      · intro r hr hrk
        have hnd : r ∉ dpath s.tree_hasher (s.tree_hasher.path key)
            s.depth 0 S := by
          intro hmem2
          refine hrk ?_
          have h1 : r.1 ∈ (dpath s.tree_hasher (s.tree_hasher.path key)
              s.depth 0 S).map Prod.fst := List.mem_map.mpr ⟨r, hmem2, rfl⟩
          rw [hd4] at h1
          rcases List.mem_cons.mp h1 with h | h
          · refine List.mem_append.mpr (Or.inr ?_)
            rw [h, ← hroot]
            exact List.mem_singleton.mpr rfl
          · refine List.mem_append.mpr (Or.inl ?_)
            rw [List.mem_reverse, hini]
            exact List.mem_append.mpr (Or.inl h)
        have hnk : r ≠ s.tree_hasher.digest_leaf (s.tree_hasher.path key)
            wp := by
          intro he
          refine hrk (List.mem_append.mpr (Or.inl ?_))
          rw [List.mem_reverse, hini]
          refine List.mem_append.mpr (Or.inr ?_)
          rw [he]
          exact List.mem_singleton.mpr rfl
        exact (ctrecords_delete s.tree_hasher (s.tree_hasher.path key) wp
          s.depth 0 S hso h2 hp hag).2 r hr hnd hnk
      · intro r hr
        rcases (ctrecords_delete s.tree_hasher (s.tree_hasher.path key) wp
            s.depth 0 S hso h2 hp hag).1 r hr with h | h
        · rw [hS'eq, dpath_singleton] at h
          exact absurd h (List.not_mem_nil r)
        · exact Or.inr (Or.inr h)
  · -- the deletion leaves an internal tree over the surviving set
    refine ⟨?_, ?_, ?_, ?_, ?_, ?_⟩
    rotate_left
    · unfold SMT.del SMT.update_for_root
      dsimp only
      rw [hsn]
      dsimp only
      rw [if_pos (show SMT.DEFAULT_VALUE = SMT.DEFAULT_VALUE from rfl)]
      unfold SMT.delete_raw
      dsimp only
      rw [if_neg hcond]
      rw [hrun]
      exact rfl
    · rfl
    · exact rfl
    · exact KeysDistinct.insertAll _ _ (KeysDistinct.foldl_del _ _ hkd)
    · intro kv
      refine store_step s.nodes (ctrecords s.tree_hasher s.depth 0 S)
        (ctrecords s.tree_hasher s.depth 0 (removeP (s.tree_hasher.path key) S))
        []
        (dpath s.tree_hasher (s.tree_hasher.path key) s.depth 0
          (removeP (s.tree_hasher.path key) S)).reverse
        ((descend s.tree_hasher (s.tree_hasher.path key) s.depth 0
          S).2.1.reverse ++ [s.root])
        hmem hnodnew ?_ ?_ ?_ ?_ ?_ kv
      · intro r hr
        exact absurd hr (List.not_mem_nil r)
      · intro r hr
        exact dpath_subset s.tree_hasher (s.tree_hasher.path key) s.depth 0 _ r
          (List.mem_reverse.mp hr)
      · intro k hk r hr he
        rcases hkeyd k hk with h | h
        · rcases List.mem_map.mp h with ⟨r0, hr0, hr0k⟩
          refine hdel1 r0 hr0 (List.mem_map.mpr ⟨r, hr, ?_⟩)
          rw [he]
          exact hr0k.symm
        · refine hdel2 (List.mem_map.mpr ⟨r, hr, ?_⟩)
          rw [he]
          exact h
      · intro r hr hrk
        have hnd : r ∉ dpath s.tree_hasher (s.tree_hasher.path key)
            s.depth 0 S := by
          intro hmem2
          refine hrk ?_
          have h1 : r.1 ∈ (dpath s.tree_hasher (s.tree_hasher.path key)
              s.depth 0 S).map Prod.fst := List.mem_map.mpr ⟨r, hmem2, rfl⟩
          rw [hd4] at h1
          rcases List.mem_cons.mp h1 with h | h
          · refine List.mem_append.mpr (Or.inr ?_)
            rw [h, ← hroot]
            exact List.mem_singleton.mpr rfl
          · refine List.mem_append.mpr (Or.inl ?_)
            rw [List.mem_reverse, hini]
            exact List.mem_append.mpr (Or.inl h)
        have hnk : r ≠ s.tree_hasher.digest_leaf (s.tree_hasher.path key)
            wp := by
          intro he
          refine hrk (List.mem_append.mpr (Or.inl ?_))
          rw [List.mem_reverse, hini]
          refine List.mem_append.mpr (Or.inr ?_)
          rw [he]
          exact List.mem_singleton.mpr rfl
        exact (ctrecords_delete s.tree_hasher (s.tree_hasher.path key) wp
          s.depth 0 S hso h2 hp hag).2 r hr hnd hnk
      · intro r hr
        rcases (ctrecords_delete s.tree_hasher (s.tree_hasher.path key) wp
            s.depth 0 S hso h2 hp hag).1 r hr with h | h
        · exact Or.inr (Or.inl (List.mem_reverse.mpr h))
        · exact Or.inr (Or.inr h)

theorem delAll_canon :
    ∀ (D : List Bytes) (s : SMT) (S : List (Bytes × Bytes)),
      HashOk s.tree_hasher →
      SetOk s.tree_hasher 0 s.depth S →
      Canon s S →
      (ctrecords s.tree_hasher s.depth 0 S).Pairwise (fun x y => x.1 ≠ y.1) →
      delOkB s.tree_hasher s.depth S D = true →
      ∃ s', delAll s D = some s' ∧ s'.tree_hasher = s.tree_hasher ∧
        Canon s' (delList s.tree_hasher S D) ∧
        SetOk s.tree_hasher 0 s.depth (delList s.tree_hasher S D) ∧
        (ctrecords s.tree_hasher s.depth 0 (delList s.tree_hasher S D)).Pairwise
          (fun x y => x.1 ≠ y.1) := by
  intro D
  induction D with
  | nil =>
    intro s S hok hso hC hnod hdel
    exact ⟨s, rfl, rfl, hC, hso, hnod⟩
  | cons k rest ih =>
    intro s S hok hso hC hnod hdel
    simp only [delOkB, Bool.and_eq_true, decide_eq_true_eq] at hdel
    obtain ⟨⟨⟨⟨⟨h1, h2m⟩, h3⟩, h4⟩, h5⟩, h6⟩ := hdel
    rcases List.mem_map.mp h2m with ⟨pv, hpv, hpveq⟩
    have hp : (s.tree_hasher.path k, pv.2) ∈ S := by
      rw [← hpveq]
      exact hpv
    have hstep := delete_canon s S k pv.2 hok hso h1 hC hp hnod h3 h4
      (h5 pv hpv hpveq)
    obtain ⟨s1, hs1, hth, hC1⟩ := hstep
    have hdep : s1.depth = s.depth := by
      unfold SMT.depth
      rw [hth]
    have hso1 : SetOk s.tree_hasher 0 s.depth
        (removeP (s.tree_hasher.path k) S) :=
      SetOk_sublist s.tree_hasher 0 s.depth S _ (removeP_sublist _ _) hso
    have hok1 : HashOk s1.tree_hasher := by
      rw [hth]
      exact hok
    have hso1' : SetOk s1.tree_hasher 0 s1.depth
        (removeP (s1.tree_hasher.path k) S) := by
      rw [hth, hdep]
      exact hso1
    have hC1' : Canon s1 (removeP (s1.tree_hasher.path k) S) := by
      rw [hth]
      exact hC1
    have hnod1 : (ctrecords s1.tree_hasher s1.depth 0
        (removeP (s1.tree_hasher.path k) S)).Pairwise
        (fun x y => x.1 ≠ y.1) := by
      rw [hth, hdep]
      exact h3
    have hdel1 : delOkB s1.tree_hasher s1.depth
        (removeP (s1.tree_hasher.path k) S) rest = true := by
      rw [hth, hdep]
      exact h6
    obtain ⟨s2, hs2, hth2, hC2, hso2, hnod2'⟩ :=
      ih s1 (removeP (s1.tree_hasher.path k) S) hok1 hso1' hC1' hnod1 hdel1
    rw [hth] at hC2 hso2 hnod2' hth2
    rw [hdep] at hso2 hnod2'
    refine ⟨s2, ?_, hth2, hC2, hso2, hnod2'⟩
    show delAll s (k :: rest) = some s2
    unfold delAll
    rw [hs1]
    exact hs2

/-- C8: for every sequence of inserts of distinct-path keys with non-empty
    values (side conditions `insOkB`, as in C9) followed by deletes (side
    conditions `delOkB`: each deleted key is present in a tree of at least
    two entries, with no incidental digest collisions) that leave exactly
    the key `kstar` bound to `vstar`, both sequences succeed and the final
    root is the digest of the surviving leaf alone,
    `digest_leaf (path kstar) (digest vstar)`, regardless of the tree's
    intermediate depth. -/
theorem c8_collapse_to_leaf (th : TreeHasher) (KV : List (Bytes × Bytes))
    (D : List Bytes) (kstar vstar : Bytes)
    (hok : HashOk th)
    (hins : insOkB th (th.hasher.output_size * 8) [] KV = true)
    (hdel : delOkB th (th.hasher.output_size * 8) (insList th [] KV) D = true)
    (hfinal : delList th (insList th [] KV) D =
      [(th.path kstar, th.digest vstar)]) :
    ∃ s1 s2, updAll (SMT.new th) KV = some s1 ∧ delAll s1 D = some s2 ∧
      s2.root = (th.digest_leaf (th.path kstar) (th.digest vstar)).1 := by
  have hok0 : HashOk (SMT.new th).tree_hasher := hok
  have hso0 : SetOk (SMT.new th).tree_hasher 0 (SMT.new th).depth
      ([] : List (Bytes × Bytes)) := by
    refine ⟨Nat.zero_add _, ?_, List.Pairwise.nil, ?_⟩
    · intro pv hpv
      exact absurd hpv (List.not_mem_nil pv)
    · intro a ha
      exact absurd ha (List.not_mem_nil a)
  have hC0 : Canon (SMT.new th) ([] : List (Bytes × Bytes)) := by
    refine ⟨?_, List.Pairwise.nil, ?_⟩
    · rw [cthash_nil]
      rfl
    · intro kv
      rw [ctrecords_nil]
      exact Iff.rfl
  have hnod0 : (ctrecords (SMT.new th).tree_hasher (SMT.new th).depth 0
      ([] : List (Bytes × Bytes))).Pairwise (fun x y => x.1 ≠ y.1) := by
    rw [ctrecords_nil]
    exact List.Pairwise.nil
  obtain ⟨s1, hu1, hth1, hC1, hso1, hnod1⟩ :=
    updAll_canon KV (SMT.new th) [] hok0 hso0 hC0 hnod0 hins
  have hdep1 : s1.depth = (SMT.new th).depth := by
    unfold SMT.depth
    rw [hth1]
  have hok1 : HashOk s1.tree_hasher := by
    rw [hth1]
    exact hok0
  have hso1' : SetOk s1.tree_hasher 0 s1.depth
      (insList (SMT.new th).tree_hasher [] KV) := by
    rw [hth1, hdep1]
    exact hso1
  have hC1' : Canon s1 (insList (SMT.new th).tree_hasher [] KV) := hC1
  have hnod1' : (ctrecords s1.tree_hasher s1.depth 0
      (insList (SMT.new th).tree_hasher [] KV)).Pairwise
      (fun x y => x.1 ≠ y.1) := by
    rw [hth1, hdep1]
    exact hnod1
  have hdel1 : delOkB s1.tree_hasher s1.depth
      (insList (SMT.new th).tree_hasher [] KV) D = true := by
    rw [hth1, hdep1]
    exact hdel
  obtain ⟨s2, hd2, hth2, hC2, _, _⟩ :=
    delAll_canon D s1 (insList (SMT.new th).tree_hasher [] KV) hok1 hso1'
      hC1' hnod1' hdel1
  refine ⟨s1, s2, hu1, hd2, ?_⟩
  have hfin2 : delList s1.tree_hasher (insList (SMT.new th).tree_hasher [] KV)
      D = [(th.path kstar, th.digest vstar)] := by
    rw [hth1]
    exact hfinal
  have hth : s2.tree_hasher = th := by
    rw [hth2, hth1]
    rfl
  have hroot := hC2.1
  rw [hfin2, cthash_singleton] at hroot
  rw [hroot, hth]

theorem c8_collapse_to_leaf_witness :
    ∃ s1 s2, updAll (SMT.new tTH) [([0], [50]), ([1], [51])] = some s1 ∧
      delAll s1 [[1]] = some s2 ∧
      s2.root = (tTH.digest_leaf (tTH.path [0]) (tTH.digest [50])).1 :=
  c8_collapse_to_leaf tTH [([0], [50]), ([1], [51])] [[1]] [0] [50] hashok_tTH
    (by decide) (by decide) (by decide)
end SMTVerif
